import Mathlib

/-!
# AlloyDB key-value core: union iterator and local-store transaction

A shallow embedding of `kv/union_iter.go` and `store/localstore/txn.go`.

* Byte strings (`[]byte`, and Go `string`s used as byte containers) are lists of
  naturals; a `nil` slice and an empty slice are both `[]` (the code only ever
  inspects them through `len` and `bytes.Compare`, which do not tell them apart).
* A Go `error` result is an `Option Error` (`none` is `nil`).
* Loops run on explicit fuel and return `none` when the fuel runs out; the
  theorems show that the fuel supplied by the callers is always enough.
-/

namespace AlloyDB

/-- Byte strings. -/
abbrev Bytes := List Nat

/-- A key together with its value, as exposed by an iterator. -/
abbrev Entry := Bytes × Bytes

/-- Go `bytes.Compare`: three-way lexicographic comparison, result in `{-1, 0, 1}`. -/
def bytesCompare : Bytes → Bytes → Int
  | [], [] => 0
  | [], _ :: _ => -1
  | _ :: _, [] => 1
  | a :: as, b :: bs =>
    if a < b then -1 else if b < a then 1 else bytesCompare as bs

namespace kv

/-- The goleveldb `iterator.Iterator` handed to `newUnionIter` as `dirtyIt`: it starts
before the first entry, `Next` moves to the following entry and reports whether there
is one, `Key`/`Value` read the entry it stands on (`nil` when it stands on none). -/
structure DirtyIterator where
  cur : Option Entry
  rest : List Entry
deriving DecidableEq, Repr

/-- A fresh iterator over the given entries, standing before the first one. -/
def DirtyIterator.ofList (l : List Entry) : DirtyIterator := ⟨none, l⟩

def DirtyIterator.Next (it : DirtyIterator) : DirtyIterator × Bool :=
  match it.rest with
  | [] => (⟨none, []⟩, false)
  | e :: r => (⟨some e, r⟩, true)

def DirtyIterator.Key (it : DirtyIterator) : Bytes :=
  match it.cur with
  | some e => e.1
  | none => []

def DirtyIterator.Value (it : DirtyIterator) : Bytes :=
  match it.cur with
  | some e => e.2
  | none => []

/-- Modelled from the spec: the `kv.Iterator` implementation passed as `snapshotIt`
(the interface and the snapshot iterator are not part of the sources at hand).
Following the engine contract `Iterator{next; key; value; valid}` it is already
positioned when it is created: it is valid while entries remain, `Key`/`Value` read
the first remaining entry and `Next` drops it. -/
structure SnapshotIterator where
  items : List Entry
deriving DecidableEq, Repr

def SnapshotIterator.Valid (it : SnapshotIterator) : Bool := !it.items.isEmpty

def SnapshotIterator.Key (it : SnapshotIterator) : Bytes :=
  match it.items with
  | e :: _ => e.1
  | [] => []

def SnapshotIterator.Value (it : SnapshotIterator) : Bytes :=
  match it.items with
  | e :: _ => e.2
  | [] => []

def SnapshotIterator.Next (it : SnapshotIterator) : SnapshotIterator := ⟨it.items.tail⟩

/-- The Go struct `UnionIter`. -/
structure UnionIter where
  dirtyIt : DirtyIterator
  snapshotIt : SnapshotIterator
  curIsDirty : Bool
  dirtyValid : Bool
  snapshotValid : Bool
  isValid : Bool
deriving DecidableEq, Repr

/-- `dirtyNext`: go next and update the valid status. -/
def UnionIter.dirtyNext (iter : UnionIter) : UnionIter :=
  let r := iter.dirtyIt.Next
  { iter with dirtyIt := r.1, dirtyValid := r.2 }

/-- `snapshotNext`: go next and update the valid status. -/
def UnionIter.snapshotNext (iter : UnionIter) : UnionIter :=
  let s := iter.snapshotIt.Next
  { iter with snapshotIt := s, snapshotValid := s.Valid }

/-- The `for` loop of `updateCur`; one unit of fuel per pass through the loop body. -/
def UnionIter.updateCurLoop : Nat → UnionIter → Option UnionIter
  | 0, _ => none
  | n + 1, iter =>
    if !iter.dirtyValid && !iter.snapshotValid then
      some { iter with isValid := false }
    else if !iter.dirtyValid then
      some { iter with curIsDirty := false }
    else if !iter.snapshotValid then
      let iter := { iter with curIsDirty := true }
      if iter.dirtyIt.Value.length = 0 then
        updateCurLoop n iter.dirtyNext
      else
        some iter
    else if iter.snapshotValid && iter.dirtyValid then
      let snapshotKey := iter.snapshotIt.Key
      let dirtyKey := iter.dirtyIt.Key
      let cmp := bytesCompare dirtyKey snapshotKey
      if cmp = 0 then
        if iter.dirtyIt.Value.length = 0 then
          updateCurLoop n iter.dirtyNext.snapshotNext
        else
          some { iter.snapshotNext with curIsDirty := true }
      else if cmp > 0 then
        some { iter with curIsDirty := false }
      else
        if iter.dirtyIt.Value.length = 0 then
          updateCurLoop n iter.dirtyNext
        else
          some { iter with curIsDirty := true }
    else
      updateCurLoop n iter

/-- `updateCur`. Every pass that does not finish advances the dirty iterator, so the
entries it still holds, plus two, bound the number of passes. -/
def UnionIter.updateCur (iter : UnionIter) : Option UnionIter :=
  UnionIter.updateCurLoop (iter.dirtyIt.rest.length + 2) { iter with isValid := true }

/-- `newUnionIter`. -/
def newUnionIter (dirtyIt : DirtyIterator) (snapshotIt : SnapshotIterator) :
    Option UnionIter :=
  let r := dirtyIt.Next
  UnionIter.updateCur
    { dirtyIt := r.1, snapshotIt := snapshotIt, curIsDirty := false,
      dirtyValid := r.2, snapshotValid := snapshotIt.Valid, isValid := false }

/-- `UnionIter.Next` (its argument `f` is not used by the code). -/
def UnionIter.Next (iter : UnionIter) : Option UnionIter :=
  if iter.curIsDirty == false then
    iter.snapshotNext.updateCur
  else
    iter.dirtyNext.updateCur

/-- `UnionIter.Value`. -/
def UnionIter.Value (iter : UnionIter) : Bytes :=
  if iter.curIsDirty == false then iter.snapshotIt.Value else iter.dirtyIt.Value

/-- The raw key under the cursor: what `UnionIter.Key` hands to `DecodeKey`. -/
def UnionIter.rawKey (iter : UnionIter) : Bytes :=
  if iter.curIsDirty == false then iter.snapshotIt.Key else iter.dirtyIt.Key

/-- `UnionIter.Valid`. -/
def UnionIter.Valid (iter : UnionIter) : Bool := iter.isValid

/-- The caller's scan loop: while `Valid()`, read the raw key and the value, then
`Next()`. One unit of fuel per entry read. -/
def UnionIter.drainLoop : Nat → UnionIter → Option (List Entry)
  | 0, _ => none
  | n + 1, iter =>
    if iter.Valid then
      match iter.Next with
      | none => none
      | some iter' =>
        match drainLoop n iter' with
        | none => none
        | some out => some ((iter.rawKey, iter.Value) :: out)
    else
      some []

/-- Build the union iterator over the two sources and read it to the end. -/
def scanUnion (dirty snapshot : List Entry) : Option (List Entry) :=
  match newUnionIter (DirtyIterator.ofList dirty) ⟨snapshot⟩ with
  | none => none
  | some iter => iter.drainLoop (dirty.length + snapshot.length + 1)

end kv

/-- The logical map a transaction sees: the dirty overlay first (an empty value there
is a tombstone and hides the key), else the snapshot. -/
def overlayLookup (dirty snapshot : List Entry) (k : Bytes) : Option Bytes :=
  match dirty.lookup k with
  | some v => if v.length = 0 then none else some v
  | none => snapshot.lookup k

/-- Strictly ascending raw keys. -/
def KeysAscending (l : List Entry) : Prop :=
  l.Pairwise (fun a b => bytesCompare a.1 b.1 < 0)

/-- The list-level reading of the positioning algorithm: what a scan emits when the
dirty source still holds `D` (its head under the cursor) and the snapshot source `S`. -/
def mergeView : List Entry → List Entry → List Entry
  | [], S => S
  | d :: D, [] => if d.2.length = 0 then mergeView D [] else d :: mergeView D []
  | d :: D, s :: S =>
    if bytesCompare d.1 s.1 = 0 then
      if d.2.length = 0 then mergeView D S else d :: mergeView D S
    else if bytesCompare d.1 s.1 > 0 then s :: mergeView (d :: D) S
    else if d.2.length = 0 then mergeView D (s :: S) else d :: mergeView D (s :: S)

/-- The iterator state in which the dirty source still holds `D` (head under the
cursor) and the snapshot source holds `S`. -/
def kv.stateOf (D S : List Entry) (c v : Bool) : kv.UnionIter :=
  { dirtyIt := match D with
      | [] => ⟨none, []⟩
      | d :: r => ⟨some d, r⟩
    snapshotIt := ⟨S⟩
    curIsDirty := c
    dirtyValid := !D.isEmpty
    snapshotValid := !S.isEmpty
    isValid := v }

/-! ## Errors, engine and store -/

/-- Go `error` values, up to their cause (`errors.Trace` only annotates an error with
the place it passed through, so it is the identity here). `panic` stands for a
run-time panic that unwinds the call instead of returning. -/
inductive Error where
  /-- The sentinel `kv.ErrNotExist`. -/
  | ErrNotExist
  /-- The sentinel `leveldb.ErrNotFound`. -/
  | ErrNotFound
  /-- The commit-validation failure (lock contention or changed value). -/
  | ErrConflict
  /-- The sentinel `ErrInvalidTxn` of `txn.go`. -/
  | ErrInvalidTxn
  /-- The sentinel `ErrCannotSetNilValue` of `txn.go`. -/
  | ErrCannotSetNilValue
  /-- The `strconv.ErrSyntax` number error. -/
  | ErrSyntax
  /-- The `strconv.ErrRange` number error. -/
  | ErrRange
  /-- Any other error, e.g. an engine I/O failure. -/
  | other (code : Nat)
  /-- A run-time panic. -/
  | panic
deriving DecidableEq, Repr

/-- `errors.Trace`. -/
def Trace (err : Error) : Error := err

/-- Modelled from the spec: `kv.IsErrNotFound` (not part of the sources at hand)
recognises the not-found errors, the engine's and the typed `kv.ErrNotExist`. -/
def IsErrNotFound : Error → Bool
  | .ErrNotExist => true
  | .ErrNotFound => true
  | _ => false

/-- One operation staged in an `engine.Batch`. -/
inductive BatchOp where
  | Put (k v : Bytes)
  | Delete (k : Bytes)
deriving DecidableEq, Repr

/-- An `engine.Batch`: the staged operations, oldest first. -/
abbrev Batch := List BatchOp

def Batch.Put (b : Batch) (k v : Bytes) : Batch := b ++ [BatchOp.Put k v]

def Batch.Delete (b : Batch) (k : Bytes) : Batch := b ++ [BatchOp.Delete k]

/-- The `*dbStore` methods that `txn.go` calls; `dbStore` itself is not part of the
sources at hand, so the transaction code is embedded over any implementation `S`. -/
structure StoreOps (S : Type) where
  newBatch : S → Batch × S
  tryConditionLockKey : S → Int → Bytes → Bytes → Option Error × S
  unLockKeys : S → Bytes → S
  writeBatch : S → Batch → Option Error × S

/-- A call made on the store, with what it returned. -/
inductive StoreCall where
  | newBatch (b : Batch)
  | tryConditionLockKey (tID : Int) (k v : Bytes) (r : Option Error)
  | unLockKeys (k : Bytes)
  | writeBatch (b : Batch) (r : Option Error)
deriving DecidableEq, Repr

/-- The same store, keeping a log of the calls made on it (oldest first). -/
def StoreOps.logged {S : Type} (o : StoreOps S) : StoreOps (S × List StoreCall) where
  newBatch := fun s =>
    let r := o.newBatch s.1
    (r.1, (r.2, s.2 ++ [StoreCall.newBatch r.1]))
  tryConditionLockKey := fun s tID k v =>
    let r := o.tryConditionLockKey s.1 tID k v
    (r.1, (r.2, s.2 ++ [StoreCall.tryConditionLockKey tID k v r.1]))
  unLockKeys := fun s k => (o.unLockKeys s.1 k, s.2 ++ [StoreCall.unLockKeys k])
  writeBatch := fun s b =>
    let r := o.writeBatch s.1 b
    (r.1, (r.2, s.2 ++ [StoreCall.writeBatch b r.1]))

/-- Whether a logged call is a `writeBatch`. -/
def StoreCall.isWriteBatch : StoreCall → Bool
  | .writeBatch _ _ => true
  | _ => false

/-- The part of package `kv` that `txn.go` calls and that is not part of the sources
at hand: `kv.EncodeKey`, the methods of the embedded `kv.UnionStore` (state `U`), its
`Snapshot.Get`, the entries its `Dirty.NewIterator(nil)` walks through, and the
`kv.Iterator` interface (values `I`) with the zero `&kv.UnionIter{}`. -/
structure KVOps (U I : Type) where
  EncodeKey : Bytes → Bytes
  Get : U → Bytes → Except Error Bytes × U
  Set : U → Bytes → Bytes → Option Error × U
  Delete : U → Bytes → Option Error × U
  Seek : U → Bytes → Except Error I × U
  Close : U → U
  SnapshotGet : U → Bytes → Except Error Bytes × U
  DirtyEntries : U → List Entry
  iterValid : I → Bool
  iterKey : I → Bytes
  zeroIter : I

/-- A call made on the union store. -/
inductive KVCall where
  | Get (k : Bytes)
  | Set (k v : Bytes)
  | Delete (k : Bytes)
  | Seek (k : Bytes)
  | Close
  | SnapshotGet (k : Bytes)
deriving DecidableEq, Repr

/-- The same union store, keeping a log of the calls made on it (oldest first). -/
def KVOps.logged {U I : Type} (o : KVOps U I) : KVOps (U × List KVCall) I where
  EncodeKey := o.EncodeKey
  Get := fun u k => let r := o.Get u.1 k; (r.1, (r.2, u.2 ++ [KVCall.Get k]))
  Set := fun u k v => let r := o.Set u.1 k v; (r.1, (r.2, u.2 ++ [KVCall.Set k v]))
  Delete := fun u k => let r := o.Delete u.1 k; (r.1, (r.2, u.2 ++ [KVCall.Delete k]))
  Seek := fun u k => let r := o.Seek u.1 k; (r.1, (r.2, u.2 ++ [KVCall.Seek k]))
  Close := fun u => (o.Close u.1, u.2 ++ [KVCall.Close])
  SnapshotGet := fun u k =>
    let r := o.SnapshotGet u.1 k
    (r.1, (r.2, u.2 ++ [KVCall.SnapshotGet k]))
  DirtyEntries := fun u => o.DirtyEntries u.1
  iterValid := o.iterValid
  iterKey := o.iterKey
  zeroIter := o.zeroIter

/-! ## `strconv` -/

/-- The decimal digits of `n` as ASCII codes, most significant first. -/
def decimalDigits : Nat → Nat → List Nat
  | 0, _ => []
  | fuel + 1, n =>
    if n < 10 then [48 + n] else decimalDigits fuel (n / 10) ++ [48 + n % 10]

/-- `strconv.FormatInt(i, 10)`. -/
def FormatInt (i : Int) : Bytes :=
  if i < 0 then 45 :: decimalDigits (i.natAbs + 1) i.natAbs
  else decimalDigits (i.natAbs + 1) i.natAbs

/-- The number that a string of ASCII decimal digits spells, `none` when a character
is not a digit (no bound on the number: used to reason about `FormatInt`). -/
def parseDigits : Nat → List Nat → Option Nat
  | acc, [] => some acc
  | acc, c :: cs => if 48 ≤ c ∧ c ≤ 57 then parseDigits (acc * 10 + (c - 48)) cs else none

/-- The digit loop of `strconv.ParseUint(s, 10, 64)`, `n` being the number read so far:
a character that is not a decimal digit is a syntax error; a digit that would take the
number past `uint64` is a range error, returned at once with the largest `uint64`. -/
def parseUintLoop : Nat → List Nat → Nat × Option Error
  | n, [] => (n, none)
  | n, c :: cs =>
    if 48 ≤ c ∧ c ≤ 57 then
      if n ≥ (2 ^ 64 - 1) / 10 + 1 then (2 ^ 64 - 1, some Error.ErrRange)
      else if n * 10 + (c - 48) > 2 ^ 64 - 1 then (2 ^ 64 - 1, some Error.ErrRange)
      else parseUintLoop (n * 10 + (c - 48)) cs
    else (0, some Error.ErrSyntax)

/-- `strconv.ParseUint(s, 10, 64)`. -/
def ParseUint (s : Bytes) : Nat × Option Error :=
  match s with
  | [] => (0, some Error.ErrSyntax)
  | _ :: _ => parseUintLoop 0 s

/-- `strconv.ParseInt(s, 10, 0)` on a 64-bit platform: an optional sign, then
`ParseUint` on the rest; an error of `ParseUint` other than the range error is returned
with the number 0, and a value outside `int64` is a range error and comes back
clamped. -/
def ParseInt (s : Bytes) : Int × Option Error :=
  match s with
  | [] => (0, some Error.ErrSyntax)
  | c :: cs =>
    let neg := c == 45
    let body := if c == 43 ∨ c == 45 then cs else c :: cs
    let r := ParseUint body
    if r.2.isSome ∧ r.2 ≠ some Error.ErrRange then (0, r.2)
    else if !neg ∧ r.1 ≥ 2 ^ 63 then ((2 : Int) ^ 63 - 1, some Error.ErrRange)
    else if neg ∧ r.1 > 2 ^ 63 then (-(2 : Int) ^ 63, some Error.ErrRange)
    else if neg then (-(r.1 : Int), none) else ((r.1 : Int), none)

/-- Two's-complement wrap-around of `int64` arithmetic. -/
def wrapInt64 (x : Int) : Int := (x + 2 ^ 63) % 2 ^ 64 - 2 ^ 63

/-! ## The transaction of `store/localstore/txn.go` -/

/-- The Go struct `dbTxn`. The embedded `kv.UnionStore` is the field `UnionStore`; the
store pointer is passed to the methods that use it; `snapshotVals` is a Go map
(`none` is the `nil` map), kept as an association list with one pair per key. The
fields `startTs` and `opCnt` are not read by `txn.go` and are left out. -/
structure dbTxn (U : Type) where
  UnionStore : U
  tID : Int
  valid : Bool
  snapshotVals : Option (List (Bytes × Bytes))

namespace dbTxn

variable {U I S : Type}

/-- `markOrigin`. A value that `Snapshot.Get` returns next to a not-found error is
taken to be `nil`. Assigning into the `nil` map panics. -/
def markOrigin (ops : KVOps U I) (txn : dbTxn U) (k : Bytes) : Option Error × dbTxn U :=
  match (txn.snapshotVals.getD []).lookup k with
  | some _ => (none, txn)
  | none =>
    let r := ops.SnapshotGet txn.UnionStore k
    let txn := { txn with UnionStore := r.2 }
    let store := fun (val : Bytes) =>
      match txn.snapshotVals with
      | none => (some Error.panic, txn)
      | some m => (none, { txn with snapshotVals := some (m ++ [(k, val)]) })
    match r.1 with
    | .error err => if !IsErrNotFound err then (some err, txn) else store []
    | .ok val => store val

/-- `Inc`. -/
def Inc (ops : KVOps U I) (txn : dbTxn U) (k : Bytes) (step : Int) :
    (Int × Option Error) × dbTxn U :=
  let k := ops.EncodeKey k
  match markOrigin ops txn k with
  | (some err, txn) => ((0, some err), txn)
  | (none, txn) =>
    let g := ops.Get txn.UnionStore k
    let txn := { txn with UnionStore := g.2 }
    match g.1 with
    | .error err =>
      if IsErrNotFound err then
        let r := ops.Set txn.UnionStore k (FormatInt step)
        let txn := { txn with UnionStore := r.2 }
        match r.1 with
        | some err => ((0, some err), txn)
        | none => ((step, none), txn)
      else ((0, some err), txn)
    | .ok val =>
      match ParseInt val with
      | (intVal, some err) => ((intVal, some err), txn)
      | (intVal, none) =>
        let intVal := wrapInt64 (intVal + step)
        let r := ops.Set txn.UnionStore k (FormatInt intVal)
        let txn := { txn with UnionStore := r.2 }
        match r.1 with
        | some err => ((0, some err), txn)
        | none => ((intVal, none), txn)

/-- `Get`. -/
def Get (ops : KVOps U I) (txn : dbTxn U) (k : Bytes) : Except Error Bytes × dbTxn U :=
  let k := ops.EncodeKey k
  let g := ops.Get txn.UnionStore k
  let txn := { txn with UnionStore := g.2 }
  match g.1 with
  | .error err => if IsErrNotFound err then (.error Error.ErrNotExist, txn) else (.error err, txn)
  | .ok val => if val.length = 0 then (.error Error.ErrNotExist, txn) else (.ok val, txn)

/-- `Set`. -/
def Set (ops : KVOps U I) (txn : dbTxn U) (k data : Bytes) : Option Error × dbTxn U :=
  if data.length = 0 then (some Error.ErrCannotSetNilValue, txn)
  else
    let k := ops.EncodeKey k
    let r := ops.Set txn.UnionStore k data
    (r.1, { txn with UnionStore := r.2 })

/-- `Seek`. The optional `fnKeyCmp` is `none` for Go's `nil`; it is applied to the
first byte of the iterator's key, and slicing an empty key panics. -/
def Seek (ops : KVOps U I) (txn : dbTxn U) (k : Bytes) (fnKeyCmp : Option (Bytes → Bool)) :
    Except Error I × dbTxn U :=
  let k := ops.EncodeKey k
  let r := ops.Seek txn.UnionStore k
  let txn := { txn with UnionStore := r.2 }
  match r.1 with
  | .error err => (.error err, txn)
  | .ok iter =>
    if !ops.iterValid iter then (.ok ops.zeroIter, txn)
    else
      match fnKeyCmp with
      | none => (.ok iter, txn)
      | some f =>
        match ops.iterKey iter with
        | [] => (.error Error.panic, txn)
        | b :: _ => if f [b] then (.ok ops.zeroIter, txn) else (.ok iter, txn)

/-- `Delete`. -/
def Delete (ops : KVOps U I) (txn : dbTxn U) (k : Bytes) : Option Error × dbTxn U :=
  let k := ops.EncodeKey k
  let r := ops.Delete txn.UnionStore k
  (r.1, { txn with UnionStore := r.2 })

/-- The batch `doCommit` stages through `each`: one operation per dirty entry, in
iteration order, a delete for a tombstone and a put otherwise. -/
def stageBatch (b : Batch) (dirty : List Entry) : Batch :=
  dirty.foldl (fun b e => if e.2.length = 0 then b.Delete e.1 else b.Put e.1 e.2) b

/-- The first loop of `doCommit` ("check locked keys") over the read-set pairs in the
order the `range` visits them: the error it stops with, the store and `keysLocked`. -/
def lockLoop (sops : StoreOps S) (tID : Int) :
    List (Bytes × Bytes) → S → List Bytes → Option Error × S × List Bytes
  | [], s, keysLocked => (none, s, keysLocked)
  | (k, v) :: rest, s, keysLocked =>
    match sops.tryConditionLockKey s tID k v with
    | (some err, s) => (some (Trace err), s, keysLocked)
    | (none, s) => lockLoop sops tID rest s (keysLocked ++ [k])

/-- The deferred function of `doCommit`: unlock every key of `keysLocked`. -/
def unlockAll (sops : StoreOps S) (keysLocked : List Bytes) (s : S) : S :=
  keysLocked.foldl (fun s key => sops.unLockKeys s key) s

/-- `doCommit`. `order` lists the pairs of `snapshotVals` in the order in which the
`range` over the map visits them (Go leaves that order open). -/
def doCommit (ops : KVOps U I) (sops : StoreOps S) (txn : dbTxn U) (s : S)
    (order : List (Bytes × Bytes)) : Option Error × S :=
  let nb := sops.newBatch s
  match lockLoop sops txn.tID order nb.2 [] with
  | (some err, s, keysLocked) => (some err, unlockAll sops keysLocked s)
  | (none, s, keysLocked) =>
    let b := stageBatch nb.1 (ops.DirtyEntries txn.UnionStore)
    let w := sops.writeBatch s b
    (w.1, unlockAll sops keysLocked w.2)

/-- `close`. -/
def close (ops : KVOps U I) (txn : dbTxn U) : dbTxn U :=
  { txn with UnionStore := ops.Close txn.UnionStore, snapshotVals := none, valid := false }

/-- `Commit`. -/
def Commit (ops : KVOps U I) (sops : StoreOps S) (txn : dbTxn U) (s : S)
    (order : List (Bytes × Bytes)) : Option Error × dbTxn U × S :=
  if !txn.valid then (some Error.ErrInvalidTxn, txn, s)
  else
    let r := doCommit ops sops txn s order
    (r.1, close ops txn, r.2)

/-- `Rollback`. -/
def Rollback (ops : KVOps U I) (txn : dbTxn U) : Option Error × dbTxn U :=
  if !txn.valid then (some Error.ErrInvalidTxn, txn)
  else (none, close ops txn)

/-- `LockKeys`. -/
def LockKeys (ops : KVOps U I) (txn : dbTxn U) : List Bytes → Option Error × dbTxn U
  | [] => (none, txn)
  | key :: keys =>
    match markOrigin ops txn (ops.EncodeKey key) with
    | (some err, txn) => (some err, txn)
    | (none, txn) => LockKeys ops txn keys

end dbTxn

/-! ## The store and the union store, as the specification describes them -/

/-- Write or overwrite a key in a list of entries kept in ascending key order. -/
def insertEntry (k v : Bytes) : List Entry → List Entry
  | [] => [(k, v)]
  | e :: l =>
    if bytesCompare k e.1 < 0 then (k, v) :: e :: l
    else if bytesCompare k e.1 = 0 then (k, v) :: l
    else e :: insertEntry k v l

/-- Remove a key from a list of entries. -/
def eraseKey (k : Bytes) (l : List Entry) : List Entry :=
  l.filter (fun e => !(e.1 == k))

/-- The engine's point lookup: `nil` for an absent key (as `db.Get` of the goleveldb
adapter returns it). -/
def engineGet (db : List Entry) (k : Bytes) : Bytes := (db.lookup k).getD []

/-- The engine's atomic batch write. -/
def engineWrite (db : List Entry) (b : Batch) : List Entry :=
  b.foldl (fun db op =>
    match op with
    | BatchOp.Put k v => insertEntry k v db
    | BatchOp.Delete k => eraseKey k db) db

/-- Modelled from the spec: the `dbStore` of `store/localstore` (not part of the
sources at hand) owns the engine contents `db`, the transaction-id counter and the
lock table `keysLocked` mapping a key to the tID that holds it. -/
structure dbStore where
  db : List Entry
  lastID : Int
  keysLocked : List (Bytes × Int)
deriving DecidableEq, Repr

namespace dbStore

/-- Modelled from the spec: `tryConditionLockKey(tID, key, expected)` is missing from
the sources; it "sets lock owner to tID if currently unlocked or already owned by tID;
then reads the store's current value for key and compares to expected; mismatch (or
lock held by a different tID) ⇒ Conflict, lock remains held until explicitly
released". -/
def tryConditionLockKey (s : dbStore) (tID : Int) (key expected : Bytes) :
    Option Error × dbStore :=
  match s.keysLocked.lookup key with
  | some owner =>
    if owner = tID then
      if engineGet s.db key = expected then (none, s) else (some Error.ErrConflict, s)
    else (some Error.ErrConflict, s)
  | none =>
    let s := { s with keysLocked := (key, tID) :: s.keysLocked }
    if engineGet s.db key = expected then (none, s) else (some Error.ErrConflict, s)

/-- Modelled from the spec: `unLockKeys(key)` is missing from the sources; it "clears
lock ownership for key if held; no-op otherwise". -/
def unLockKeys (s : dbStore) (key : Bytes) : dbStore :=
  { s with keysLocked := s.keysLocked.filter (fun e => !(e.1 == key)) }

/-- Modelled from the spec: `newBatch()` is missing from the sources; it is a
"pass-through to the engine adapter's atomic batch primitive" and hands out an empty
batch. -/
def newBatch (s : dbStore) : Batch × dbStore := ([], s)

/-- Modelled from the spec: `writeBatch(batch)` is missing from the sources; it is a
"pass-through to the engine adapter's atomic batch primitive" and applies the batch
to the engine in one step. -/
def writeBatch (s : dbStore) (b : Batch) : Option Error × dbStore :=
  (none, { s with db := engineWrite s.db b })

/-- The store methods, packaged for the transaction code. -/
def ops : StoreOps dbStore where
  newBatch := newBatch
  tryConditionLockKey := tryConditionLockKey
  unLockKeys := unLockKeys
  writeBatch := writeBatch

end dbStore

/-- Modelled from the spec: the `kv.UnionStore` (not part of the sources at hand) is a
transaction-local dirty overlay, a sorted map in which an empty value is a delete
marker, over an immutable snapshot; `released` records that `Close` released the
snapshot. -/
structure UnionStore where
  Dirty : List Entry
  Snapshot : List Entry
  released : Bool
deriving DecidableEq, Repr

namespace UnionStore

/-- Modelled from the spec: `Snapshot.Get` is missing from the sources; a point lookup
in the snapshot, "absent ⇒ not-found"; a released snapshot answers with the engine's
error. -/
def SnapshotGet (us : UnionStore) (key : Bytes) : Except Error Bytes × UnionStore :=
  if us.released then (.error (Error.other 0), us)
  else
    match us.Snapshot.lookup key with
    | some v => (.ok v, us)
    | none => (.error Error.ErrNotExist, us)

/-- Modelled from the spec: `UnionStore.Get` is missing from the sources; "dirty
overlay first (tombstone ⇒ not-found; present non-empty ⇒ return it); else delegate to
snapshot (absent ⇒ not-found)". -/
def Get (us : UnionStore) (key : Bytes) : Except Error Bytes × UnionStore :=
  match us.Dirty.lookup key with
  | some v => if v.length = 0 then (.error Error.ErrNotExist, us) else (.ok v, us)
  | none => SnapshotGet us key

/-- Modelled from the spec: `UnionStore.Set` is missing from the sources; "value must
be non-empty; write/overwrite dirty overlay". -/
def Set (us : UnionStore) (key value : Bytes) : Option Error × UnionStore :=
  (none, { us with Dirty := insertEntry key value us.Dirty })

/-- Modelled from the spec: `UnionStore.Delete` is missing from the sources; "write a
tombstone into dirty overlay regardless of prior existence". -/
def Delete (us : UnionStore) (key : Bytes) : Option Error × UnionStore :=
  (none, { us with Dirty := insertEntry key [] us.Dirty })

/-- Modelled from the spec: `UnionStore.Seek` is missing from the sources; it "returns
a UnionIterator positioned at first key ≥ key". An iterator over a released snapshot
shows no entries. Running out of fuel, which does not happen, would show as a panic. -/
def Seek (us : UnionStore) (key : Bytes) : Except Error kv.UnionIter × UnionStore :=
  let dirty := us.Dirty.filter (fun e => decide (0 ≤ bytesCompare e.1 key))
  let snap :=
    if us.released then []
    else us.Snapshot.filter (fun e => decide (0 ≤ bytesCompare e.1 key))
  match kv.newUnionIter (kv.DirtyIterator.ofList dirty) ⟨snap⟩ with
  | some it => (.ok it, us)
  | none => (.error Error.panic, us)

/-- Modelled from the spec: `UnionStore.Close` is missing from the sources; it
"discards dirty overlay, releases snapshot". -/
def Close (us : UnionStore) : UnionStore :=
  { us with Dirty := [], released := true }

/-- The union-store methods, packaged for the transaction code. `enc` stands for
`kv.EncodeKey` and `dec` for `kv.DecodeKey`, neither of which is part of the sources
at hand. -/
def ops (enc dec : Bytes → Bytes) : KVOps UnionStore kv.UnionIter where
  EncodeKey := enc
  Get := Get
  Set := Set
  Delete := Delete
  Seek := Seek
  Close := Close
  SnapshotGet := SnapshotGet
  DirtyEntries := fun us => us.Dirty
  iterValid := fun it => it.Valid
  iterKey := fun it => dec it.rawKey
  zeroIter := ⟨⟨none, []⟩, ⟨[]⟩, false, false, false, false⟩

end UnionStore

/-- Modelled from the spec: `Store.Begin` is missing from the sources; it "allocates a
new monotonically increasing tID, takes an engine snapshot, returns a Transaction with
an empty overlay over that snapshot". -/
def dbStore.Begin (s : dbStore) : dbTxn UnionStore × dbStore :=
  ({ UnionStore := { Dirty := [], Snapshot := s.db, released := false },
     tID := s.lastID + 1, valid := true, snapshotVals := some [] },
   { s with lastID := s.lastID + 1 })

/-! ## Concrete scenarios -/

/-- A store holding `[1] ↦ [9]` with an empty lock table. -/
def exampleStore : dbStore := { db := [([1], [9])], lastID := 1, keysLocked := [] }

/-- An Active transaction (tID 1) that recorded `[1] ↦ [9]` in its read-set and
staged the write `[2] ↦ [5]`. -/
def exampleTxn : dbTxn UnionStore :=
  { UnionStore := { Dirty := [([2], [5])], Snapshot := [([1], [9])], released := false },
    tID := 1, valid := true, snapshotVals := some [([1], [9])] }

/-- An Active transaction (tID 1) that recorded `[1] ↦ [7]` in its read-set, a value
the store of `exampleStore` no longer holds, and staged the write `[2] ↦ [5]`. -/
def staleTxn : dbTxn UnionStore :=
  { UnionStore := { Dirty := [([2], [5])], Snapshot := [([1], [7])], released := false },
    tID := 1, valid := true, snapshotVals := some [([1], [7])] }

/-- An Active transaction (tID 1) with an empty read-set and an empty overlay over a
snapshot holding `[1] ↦ [7]`. -/
def freshTxn : dbTxn UnionStore :=
  { UnionStore := { Dirty := [], Snapshot := [([1], [7])], released := false },
    tID := 1, valid := true, snapshotVals := some [] }

/-- The conflict scenario of the specification with a read through `Get` only. T1 and
T2 begin from the same store (holding `[1] ↦ [9]`); T2 reads key `[1]` with `Get`; T1
sets `[1]` to `"a"` and commits; T2 sets `[1]` to `"b"` and the unrelated key `[2]` to
`"c"` and commits. The result: the error of T1's commit, the error of T2's commit and
the store afterwards. -/
def getOnlyScenario : Option Error × Option Error × dbStore :=
  let ops := UnionStore.ops id id
  let b1 := dbStore.Begin { db := [([1], [9])], lastID := 0, keysLocked := [] }
  let b2 := dbStore.Begin b1.2
  let t2 := (dbTxn.Get ops b2.1 [1]).2
  let t1 := (dbTxn.Set ops b1.1 [1] [97]).2
  let c1 := dbTxn.Commit ops dbStore.ops t1 b2.2 (t1.snapshotVals.getD [])
  let t2 := (dbTxn.Set ops t2 [1] [98]).2
  let t2 := (dbTxn.Set ops t2 [2] [99]).2
  let c2 := dbTxn.Commit ops dbStore.ops t2 c1.2.2 (t2.snapshotVals.getD [])
  (c1.1, c2.1, c2.2.2)

/-- The same scenario with T2 reading key `[1]` through `LockKeys` instead. -/
def lockKeysScenario : Option Error × Option Error × dbStore :=
  let ops := UnionStore.ops id id
  let b1 := dbStore.Begin { db := [([1], [9])], lastID := 0, keysLocked := [] }
  let b2 := dbStore.Begin b1.2
  let t2 := (dbTxn.LockKeys ops b2.1 [[1]]).2
  let t1 := (dbTxn.Set ops b1.1 [1] [97]).2
  let c1 := dbTxn.Commit ops dbStore.ops t1 b2.2 (t1.snapshotVals.getD [])
  let t2 := (dbTxn.Set ops t2 [1] [98]).2
  let t2 := (dbTxn.Set ops t2 [2] [99]).2
  let c2 := dbTxn.Commit ops dbStore.ops t2 c1.2.2 (t2.snapshotVals.getD [])
  (c1.1, c2.1, c2.2.2)

/-- The transaction `freshTxn` after `Rollback` has closed it. -/
def closedTxn : dbTxn UnionStore := (dbTxn.Rollback (UnionStore.ops id id) freshTxn).2

/-- The running totals `acc + s1`, `acc + s1 + s2`, ... of a list of steps. -/
def partialSums : Int → List Int → List Int
  | _, [] => []
  | acc, s :: rest => (acc + s) :: partialSums (acc + s) rest

/-- Successive calls `Inc(k, s1)`, `Inc(k, s2)`, ... on one transaction: what each
call returned and the transaction after the last one. -/
def dbTxn.IncSeq {U I : Type} (ops : KVOps U I) (txn : dbTxn U) (k : Bytes) :
    List Int → List (Int × Option Error) × dbTxn U
  | [] => ([], txn)
  | s :: rest =>
    let r := dbTxn.Inc ops txn k s
    let q := dbTxn.IncSeq ops r.2 k rest
    (r.1 :: q.1, q.2)

/-- `UnionIter.Next(f)` with its argument spelled out: the body does not use `f`. -/
def kv.UnionIter.NextWith (iter : kv.UnionIter) (_f : Option (Bytes → Bool)) :
    Option kv.UnionIter :=
  iter.Next

/-- An Active transaction with an empty overlay over a snapshot holding the keys `[1]`,
`[2]` and `[2, 0]`. -/
def scanTxn : dbTxn UnionStore :=
  { UnionStore :=
      { Dirty := [], Snapshot := [([1], [10]), ([2], [20]), ([2, 0], [30])],
        released := false },
    tID := 1, valid := true, snapshotVals := some [] }

/-- `freshTxn` over a union store that logs its calls. -/
def freshLoggedTxn : dbTxn (UnionStore × List KVCall) :=
  { UnionStore := (freshTxn.UnionStore, []), tID := 1, valid := true,
    snapshotVals := some [] }

/-! ## Plans (`plan/plans`) -/

namespace plans

/-- What a `Do` call comes back with: the Go `error` (`nil`, or an error value), or a
run-time panic. -/
inductive DoResult (E : Type) where
  | nil
  | error (e : E)
  | panic
deriving DecidableEq, Repr

/-- The `Do` of a source plan over the rows it produces, as `testTablePlan.Do` does
it: the callback is called row by row until it answers `more = false` or an error,
and the callback's last error is returned. The callback is a function on an explicit
state `σ` (whatever the Go closure captures). -/
def srcDo {Row σ E : Type} (f : σ → Row → (Bool × Option E) × σ) :
    List Row → σ → Option E × σ
  | [], s => (none, s)
  | d :: rest, s =>
    let r := f s d
    if !r.1.1 || r.1.2.isSome then (r.1.2, r.2) else srcDo f rest r.2

/-- The row callback that `FilterDefaultPlan.Do` hands to its source plan. `Eval`
stands for `r.Expr.Eval` with the identifiers bound to the row (`none` is the NULL
result `nil`) and `ToBool` for `types.ToBool`. -/
def filterCallback {Row V σ E : Type} (Eval : Row → Except E (Option V))
    (ToBool : V → Except E Int) (f : σ → Row → (Bool × Option E) × σ) :
    σ → Row → (Bool × Option E) × σ :=
  fun s row =>
    match Eval row with
    | .error err => ((false, some err), s)
    | .ok none => ((true, none), s)
    | .ok (some val) =>
      match ToBool val with
      | .error err => ((false, some err), s)
      | .ok x => if x = 0 then ((true, none), s) else f s row

/-- `FilterDefaultPlan.Do` over a source plan that produces `rows`. -/
def FilterDefaultPlan.Do {Row V σ E : Type} (rows : List Row)
    (Eval : Row → Except E (Option V)) (ToBool : V → Except E Int)
    (f : σ → Row → (Bool × Option E) × σ) (s : σ) : Option E × σ :=
  srcDo (filterCallback Eval ToBool f) rows s

/-- The error, if any, with which the filter stops at a row. -/
def rowError {Row V E : Type} (Eval : Row → Except E (Option V))
    (ToBool : V → Except E Int) (row : Row) : Option E :=
  match Eval row with
  | .error err => some err
  | .ok none => none
  | .ok (some val) =>
    match ToBool val with
    | .error err => some err
    | .ok _ => none

/-- Whether the expression evaluates on the row, without error, to a non-NULL value
whose boolean conversion is non-zero. -/
def rowPasses {Row V E : Type} (Eval : Row → Except E (Option V))
    (ToBool : V → Except E Int) (row : Row) : Bool :=
  match Eval row with
  | .error _ => false
  | .ok none => false
  | .ok (some val) =>
    match ToBool val with
    | .error _ => false
    | .ok x => !(x == 0)

/-- A callback that records the rows it is given and always asks for more. -/
def recordRows {Row E : Type} : List Row → Row → (Bool × Option E) × List Row :=
  fun log row => ((true, none), log ++ [row])

/-- A source plan as `UnionPlan.Do` uses it: the rows its `Do` produces and the number
of its result fields. -/
structure SrcPlan (Row : Type) where
  rows : List Row
  nfields : Nat

/-- The temporary table of package `memkv` as `UnionPlan.Do` uses it: `Set(in, ...)`
and whether `Get(in)` finds a value (`len(v) > 0`); both may fail. -/
structure TempOps (T Row E : Type) where
  Set : T → Row → Option E × T
  Get : T → Row → Except E Bool

/-- The callback `UnionPlan.Do` runs over the first source: collect the row, then
record it in the temporary table. The state is the rows collected so far and the
table. -/
def unionFirstCallback {T Row E : Type} (tops : TempOps T Row E) :
    List Row × T → Row → (Bool × Option E) × (List Row × T) :=
  fun st row =>
    let rows := st.1 ++ [row]
    match tops.Set st.2 row with
    | (some err, t) => ((false, some err), (rows, t))
    | (none, t) => ((true, none), (rows, t))

/-- The callback `UnionPlan.Do` runs over a later source: cast the columns (`cast`
stands for the column-wise `CastValue`), skip a duplicate when the union is distinct,
else collect the row and record it in the temporary table. -/
def unionNextCallback {T Row E : Type} (tops : TempOps T Row E) (cast : Row → Except E Row)
    (distinct : Bool) : List Row × T → Row → (Bool × Option E) × (List Row × T) :=
  fun st row =>
    match cast row with
    | .error err => ((false, some err), st)
    | .ok row =>
      let store := fun (_ : Unit) =>
        let rows := st.1 ++ [row]
        match tops.Set st.2 row with
        | (some err, t) => ((false, some err), (rows, t))
        | (none, t) => ((true, none), (rows, t))
      if distinct then
        match tops.Get st.2 row with
        | .error err => ((false, some err), st)
        | .ok found => if found then ((true, none), st) else store ()
      else store ()

/-- The loop of `UnionPlan.Do` over `Distincts`, source `i + 1` going with flag `i`:
a missing source is an index panic, a different number of columns ends `Do` with an
error, and the error a source's `Do` returns is dropped. -/
def unionLoop {T Row E : Type} (tops : TempOps T Row E) (cast : Row → Except E Row)
    (colErr : E) (nfields : Nat) :
    List Bool → List (SrcPlan Row) → List Row × T → DoResult E × (List Row × T)
  | [], _, st => (DoResult.nil, st)
  | _ :: _, [], st => (DoResult.panic, st)
  | distinct :: ds, src :: srcs, st =>
    if src.nfields ≠ nfields then (DoResult.error colErr, st)
    else
      unionLoop tops cast colErr nfields ds srcs
        (srcDo (unionNextCallback tops cast distinct) src.rows st).2

/-- `UnionPlan.Do`. `createTemp` is the outcome of `memkv.CreateTemp(true)` and
`colErr` the error for SELECTs with different numbers of columns. The rows are handed
to `f` (with a nil row id) until it answers `more = false` or an error; the result is
nil then, whatever `f` or the deferred `Drop` returned. -/
def UnionPlan.Do {T Row σ E : Type} (Srcs : List (SrcPlan Row)) (Distincts : List Bool)
    (createTemp : Except E T) (tops : TempOps T Row E) (cast : Row → Except E Row)
    (colErr : E) (f : σ → Row → (Bool × Option E) × σ) (s : σ) : DoResult E × σ :=
  match Srcs with
  | [] => (DoResult.nil, s)
  | src :: srcs =>
    match createTemp with
    | .error err => (DoResult.error err, s)
    | .ok t =>
      let first := (srcDo (unionFirstCallback tops) src.rows ([], t)).2
      match unionLoop tops cast colErr src.nfields Distincts srcs first with
      | (DoResult.nil, st) => (DoResult.nil, (srcDo f st.1 s).2)
      | (r, _) => (r, s)

/-- A temporary table that keeps the rows it is given and finds them again. -/
def listTemp {Row E : Type} [DecidableEq Row] : TempOps (List Row) Row E where
  Set := fun t row => (none, row :: t)
  Get := fun t row => .ok (decide (row ∈ t))

end plans

/-! ## The codec (`util/codec`), as the specification describes it -/

namespace codec

/-- The errors of the codec. -/
inductive CodecError where
  | DecodeError
  | EncodeError
deriving DecidableEq, Repr

/-- Modelled from the spec: the type tags of the codec, whose implementation
(`util/codec`) is missing from the sources. The spec lets every encoded scalar start
with "a type tag" and fixes their order, not their values, so the values are kept
open here; the test `TestCodecKey` tells a decoded `string` from a decoded `[]byte`,
so strings have a tag of their own. -/
structure Tags where
  null : Nat
  int : Nat
  uint : Nat
  float : Nat
  bytes : Nat
  string : Nat
deriving DecidableEq, Repr

/-- The tags are bytes, pairwise different, and ordered as the spec orders the kinds:
"Null < Int64 < Uint64 < Bytes", with every non-null kind above Null. -/
def Tags.WellFormed (t : Tags) : Prop :=
  t.null < t.int ∧ t.int < t.uint ∧ t.uint < t.bytes ∧ t.bytes < 256 ∧
  t.null < t.float ∧ t.float < 256 ∧ t.null < t.string ∧ t.string < 256 ∧
  t.float ≠ t.int ∧ t.float ≠ t.uint ∧ t.float ≠ t.bytes ∧ t.float ≠ t.string ∧
  t.string ≠ t.int ∧ t.string ≠ t.uint ∧ t.string ≠ t.bytes

/-- The `n` low bytes of `u`, most significant first ("big-endian"). -/
def bigEndian : Nat → Nat → Bytes
  | 0, _ => []
  | n + 1, u => (u / 256 ^ n) % 256 :: bigEndian n u

/-- The number that a big-endian byte string spells. -/
def fromBigEndian (b : Bytes) : Nat := b.foldl (fun acc x => acc * 256 + x) 0

/-- The two's-complement 64-bit pattern of an `int64`. -/
def toUint64 (v : Int) : Nat := (v % 2 ^ 64).toNat

/-- The `int64` that a 64-bit pattern stands for. -/
def toInt64 (u : Nat) : Int := if u < 2 ^ 63 then (u : Int) else (u : Int) - 2 ^ 64

/-- Flipping the sign bit (bit 63) of a 64-bit pattern. -/
def flipSignBit (u : Nat) : Nat := if u < 2 ^ 63 then u + 2 ^ 63 else u - 2 ^ 63

/-- Modelled from the spec: the float transform of the missing codec, on the IEEE-754
bit pattern: "if the sign bit is set, bitwise-complement all bits, else set the sign
bit". -/
def floatToCmp (u : Nat) : Nat := if 2 ^ 63 ≤ u then 2 ^ 64 - 1 - u else u + 2 ^ 63

/-- Modelled from the spec: the reverse of the float transform of the missing codec
("decode reverses this"). -/
def cmpToFloat (e : Nat) : Nat := if 2 ^ 63 ≤ e then e - 2 ^ 63 else 2 ^ 64 - 1 - e

/-- Bitwise complement of every byte. -/
def complement (b : Bytes) : Bytes := b.map (fun x => 255 - x)

/-- Modelled from the spec: the group layout of the missing `EncodeBytes`: "fixed
groups (8 payload bytes + 1 trailer byte per group recording how many of the 8 are
significant in the final group), zero-padding the last group". The data is emitted
byte by byte, `i` counting the bytes already in the current group: a full group is
followed by the trailer 8 and another group; the last group holds the remaining 0 to 7
bytes, is padded with zeros and followed by the number of its significant bytes. -/
def encodeGroups : Nat → Bytes → Bytes
  | i, [] => List.replicate (8 - i) 0 ++ [i]
  | i, x :: xs => if i = 7 then x :: 8 :: encodeGroups 0 xs else x :: encodeGroups (i + 1) xs

/-- Modelled from the spec: reading the groups that the missing `DecodeBytes` reads:
nine bytes at a time, the payload and its trailer, up to the first group whose trailer
is below 8; truncated input or a trailer above 8 is a decode error. The result is the
remaining input and the data. -/
def decodeGroups : Nat → Bytes → Except CodecError (Bytes × Bytes)
  | fuel + 1, a :: b :: c :: d :: e :: f :: g :: h :: m :: rest =>
    if m = 8 then
      match decodeGroups fuel rest with
      | .ok (r, data) => .ok (r, a :: b :: c :: d :: e :: f :: g :: h :: data)
      | .error err => .error err
    else if m < 8 then .ok (rest, [a, b, c, d, e, f, g, h].take m)
    else .error CodecError.DecodeError
  | _, _ => .error CodecError.DecodeError

/-- Modelled from the spec: `EncodeInt` is missing from the sources; "flip the sign bit
of the two's-complement 64-bit value, emit 8 bytes big-endian after a type tag". -/
def EncodeInt (t : Tags) (b : Bytes) (v : Int) : Bytes :=
  b ++ t.int :: bigEndian 8 (flipSignBit (toUint64 v))

/-- Modelled from the spec: `EncodeUint` is missing from the sources; "emit the 8-byte
big-endian value directly (already monotonic) after a tag ordered above the signed-int
tag". -/
def EncodeUint (t : Tags) (b : Bytes) (v : Nat) : Bytes :=
  b ++ t.uint :: bigEndian 8 v

/-- Modelled from the spec: `EncodeFloat` is missing from the sources; the transformed
bit pattern, emitted like an unsigned integer after the float tag. -/
def EncodeFloat (t : Tags) (b : Bytes) (bits : Nat) : Bytes :=
  b ++ t.float :: bigEndian 8 (floatToCmp bits)

/-- Modelled from the spec: `EncodeBytes` is missing from the sources; the groups of
the data after the bytes tag. -/
def EncodeBytes (t : Tags) (b : Bytes) (v : Bytes) : Bytes :=
  b ++ t.bytes :: encodeGroups 0 v

/-- Modelled from the spec: the `Desc` encoders are missing from the sources; "encode
normally then bitwise-complement every output byte". -/
def EncodeIntDesc (t : Tags) (b : Bytes) (v : Int) : Bytes :=
  b ++ complement (EncodeInt t [] v)

def EncodeUintDesc (t : Tags) (b : Bytes) (v : Nat) : Bytes :=
  b ++ complement (EncodeUint t [] v)

def EncodeFloatDesc (t : Tags) (b : Bytes) (bits : Nat) : Bytes :=
  b ++ complement (EncodeFloat t [] bits)

def EncodeBytesDesc (t : Tags) (b : Bytes) (v : Bytes) : Bytes :=
  b ++ complement (EncodeBytes t [] v)

/-- The eight bytes after the expected tag and what follows them, or a decode error
on another tag or on truncated input. -/
def takeFixed (tag : Nat) (b : Bytes) : Except CodecError (Bytes × Bytes) :=
  match b with
  | x :: rest =>
    if x = tag ∧ 8 ≤ rest.length then .ok (rest.drop 8, rest.take 8)
    else .error CodecError.DecodeError
  | [] => .error CodecError.DecodeError

/-- Modelled from the spec: `DecodeInt` is missing from the sources; it reverses
`EncodeInt` and returns the remaining bytes with the value. -/
def DecodeInt (t : Tags) (b : Bytes) : Except CodecError (Bytes × Int) :=
  match takeFixed t.int b with
  | .ok (rest, p) => .ok (rest, toInt64 (flipSignBit (fromBigEndian p)))
  | .error err => .error err

/-- Modelled from the spec: `DecodeUint` is missing from the sources; it reverses
`EncodeUint`. -/
def DecodeUint (t : Tags) (b : Bytes) : Except CodecError (Bytes × Nat) :=
  match takeFixed t.uint b with
  | .ok (rest, p) => .ok (rest, fromBigEndian p)
  | .error err => .error err

/-- Modelled from the spec: `DecodeFloat` is missing from the sources; it reverses
`EncodeFloat` and returns the bit pattern of the float. -/
def DecodeFloat (t : Tags) (b : Bytes) : Except CodecError (Bytes × Nat) :=
  match takeFixed t.float b with
  | .ok (rest, p) => .ok (rest, cmpToFloat (fromBigEndian p))
  | .error err => .error err

/-- The groups after the expected tag. -/
def decodeTagged (tag : Nat) (b : Bytes) : Except CodecError (Bytes × Bytes) :=
  match b with
  | x :: rest =>
    if x = tag then decodeGroups (rest.length / 9 + 1) rest
    else .error CodecError.DecodeError
  | [] => .error CodecError.DecodeError

/-- Modelled from the spec: `DecodeBytes` is missing from the sources; it reverses
`EncodeBytes`. -/
def DecodeBytes (t : Tags) (b : Bytes) : Except CodecError (Bytes × Bytes) :=
  decodeTagged t.bytes b

/-- Modelled from the spec: the `Desc` decoders are missing from the sources;
"decode-desc complements first, then decodes normally". -/
def DecodeIntDesc (t : Tags) (b : Bytes) : Except CodecError (Bytes × Int) :=
  DecodeInt t (complement b)

def DecodeUintDesc (t : Tags) (b : Bytes) : Except CodecError (Bytes × Nat) :=
  DecodeUint t (complement b)

def DecodeFloatDesc (t : Tags) (b : Bytes) : Except CodecError (Bytes × Nat) :=
  DecodeFloat t (complement b)

def DecodeBytesDesc (t : Tags) (b : Bytes) : Except CodecError (Bytes × Bytes) :=
  DecodeBytes t (complement b)

/-- Three-way comparison of two numbers, as `-1`, `0` or `1`. -/
def cmpNat (a b : Nat) : Int := if a < b then -1 else if b < a then 1 else 0

def cmpInt (a b : Int) : Int := if a < b then -1 else if b < a then 1 else 0

/-- A set of tags for the examples. -/
def exampleTags : Tags := { null := 0, int := 1, uint := 2, float := 3, bytes := 4, string := 5 }

end codec

/-- Two byte strings that differ at a position both of them have. -/
inductive Diverge : Bytes → Bytes → Prop where
  | head (c d : Nat) (xs ys : Bytes) : c ≠ d → Diverge (c :: xs) (d :: ys)
  | cons (c : Nat) (xs ys : Bytes) : Diverge xs ys → Diverge (c :: xs) (c :: ys)

namespace codec

/-- Modelled from the spec: the closed variant of scalar kinds that the missing codec
decodes to, `{Null, Int64, Uint64, Float64, Bytes}`, a float being its IEEE-754 bit
pattern; the test `TestCodecKey` gets a `string` back as a `string`, so strings are a
kind of their own here. -/
inductive Value where
  | null
  | int (v : Int)
  | uint (v : Nat)
  | float (bits : Nat)
  | bytes (b : Bytes)
  | string (s : Bytes)
deriving DecidableEq, Repr

/-- The values a Go program can hold in these kinds: 64-bit numbers and strings of
bytes. -/
def Value.WellFormed : Value → Prop
  | .null => True
  | .int v => -(2 : Int) ^ 63 ≤ v ∧ v < (2 : Int) ^ 63
  | .uint v => v < 2 ^ 64
  | .float bits => bits < 2 ^ 64
  | .bytes b => ∀ x ∈ b, x ≤ 255
  | .string s => ∀ x ∈ s, x ≤ 255

/-- The type tag of a value's kind. -/
def Value.tag (t : Tags) : Value → Nat
  | .null => t.null
  | .int _ => t.int
  | .uint _ => t.uint
  | .float _ => t.float
  | .bytes _ => t.bytes
  | .string _ => t.string

/-- Modelled from the spec: the per-value encoding of the missing codec: the type tag
and then the encoding of the kind; Null is its tag alone, a string is encoded in
groups like a byte string. -/
def encodeValue (t : Tags) : Value → Bytes
  | .null => [t.null]
  | .int v => EncodeInt t [] v
  | .uint v => EncodeUint t [] v
  | .float bits => EncodeFloat t [] bits
  | .bytes b => EncodeBytes t [] b
  | .string s => t.string :: encodeGroups 0 s

/-- The concatenation of the per-value encodings. -/
def encodeValues (t : Tags) : List Value → Bytes
  | [] => []
  | v :: vs => encodeValue t v ++ encodeValues t vs

/-- The values that Go code hands to `EncodeKey` as `interface{}`: the types of the
test `TestCodecKey`, and `other` for any type the codec does not support. A float is
its bit pattern. -/
inductive GoValue where
  | nil
  | bool (b : Bool)
  | int (v : Int)
  | int8 (v : Int)
  | int16 (v : Int)
  | int32 (v : Int)
  | int64 (v : Int)
  | uint (v : Nat)
  | uint8 (v : Nat)
  | uint16 (v : Nat)
  | uint32 (v : Nat)
  | uint64 (v : Nat)
  | float32 (bits : Nat)
  | float64 (bits : Nat)
  | bytes (b : Bytes)
  | string (s : Bytes)
  | other
deriving DecidableEq, Repr

/-- The kind a supported Go value is encoded as: every signed width as int64, every
unsigned width as uint64, float32 widened to float64 (`widen` maps the 32-bit pattern
to the 64-bit pattern of the same number), a bool as the int64 1 or 0. -/
def normalise (widen : Nat → Nat) : GoValue → Option Value
  | .nil => some .null
  | .bool b => some (.int (if b then 1 else 0))
  | .int v => some (.int v)
  | .int8 v => some (.int v)
  | .int16 v => some (.int v)
  | .int32 v => some (.int v)
  | .int64 v => some (.int v)
  | .uint v => some (.uint v)
  | .uint8 v => some (.uint v)
  | .uint16 v => some (.uint v)
  | .uint32 v => some (.uint v)
  | .uint64 v => some (.uint v)
  | .float32 bits => some (.float (widen bits))
  | .float64 bits => some (.float bits)
  | .bytes b => some (.bytes b)
  | .string s => some (.string s)
  | .other => none

/-- Modelled from the spec: `EncodeKey` is missing from the sources; it "concatenates
per-value encodings", and "encoding an unsupported scalar type fails with
EncodeError". -/
def EncodeKey (t : Tags) (widen : Nat → Nat) : List GoValue → Except CodecError Bytes
  | [] => .ok []
  | v :: vs =>
    match normalise widen v with
    | none => .error CodecError.EncodeError
    | some x =>
      match EncodeKey t widen vs with
      | .ok b => .ok (encodeValue t x ++ b)
      | .error err => .error err

/-- Modelled from the spec: decoding one value of a key: the tag selects the decoder of
the kind; an unknown tag or a failing decoder is a decode error. -/
def decodeValue (t : Tags) (b : Bytes) : Except CodecError (Bytes × Value) :=
  match b with
  | [] => .error CodecError.DecodeError
  | tag :: rest =>
    if tag = t.null then .ok (rest, Value.null)
    else if tag = t.int then
      match DecodeInt t b with
      | .ok (r, v) => .ok (r, Value.int v)
      | .error err => .error err
    else if tag = t.uint then
      match DecodeUint t b with
      | .ok (r, v) => .ok (r, Value.uint v)
      | .error err => .error err
    else if tag = t.float then
      match DecodeFloat t b with
      | .ok (r, v) => .ok (r, Value.float v)
      | .error err => .error err
    else if tag = t.bytes then
      match DecodeBytes t b with
      | .ok (r, v) => .ok (r, Value.bytes v)
      | .error err => .error err
    else if tag = t.string then
      match decodeTagged t.string b with
      | .ok (r, v) => .ok (r, Value.string v)
      | .error err => .error err
    else .error CodecError.DecodeError

/-- Decoding value after value until the input is used up; one unit of fuel per
value. -/
def decodeAll (t : Tags) : Nat → Bytes → Except CodecError (List Value)
  | _, [] => .ok []
  | 0, _ :: _ => .error CodecError.DecodeError
  | fuel + 1, x :: xs =>
    match decodeValue t (x :: xs) with
    | .error err => .error err
    | .ok (rest, v) =>
      match decodeAll t fuel rest with
      | .ok vs => .ok (v :: vs)
      | .error err => .error err

/-- Modelled from the spec: `DecodeKey` is missing from the sources; it "repeatedly
decodes a prefix and returns the ordered list of typed values, failing with
DecodeError on truncated/malformed input". Every value takes at least one byte, so
the length of the input is enough fuel. -/
def DecodeKey (t : Tags) (b : Bytes) : Except CodecError (List Value) :=
  decodeAll t b.length b

/-- The order of two float bit patterns: a pattern with the sign bit set is below one
without, two patterns without it compare as numbers and two patterns with it the other
way round (the IEEE-754 total order: the numeric order of the floats, with `-0` below
`+0`). -/
def floatCmp (a b : Nat) : Int :=
  if 2 ^ 63 ≤ a then
    if 2 ^ 63 ≤ b then cmpNat b a else -1
  else
    if 2 ^ 63 ≤ b then 1 else cmpNat a b

/-- The three-way semantic comparison of two values: within a kind the comparison of
the kind (strings and byte strings as `bytes.Compare` does), across kinds the order of
the kinds, which the spec gives through the tags. -/
def Value.compare (t : Tags) : Value → Value → Int
  | .null, .null => 0
  | .int a, .int b => cmpInt a b
  | .uint a, .uint b => cmpNat a b
  | .float a, .float b => floatCmp a b
  | .bytes a, .bytes b => bytesCompare a b
  | .string a, .string b => bytesCompare a b
  | a, b => cmpNat (a.tag t) (b.tag t)

/-- Tuples compared field by field: the first field in which they differ decides, and
a tuple that runs out first is the smaller one. -/
def compareTuple (t : Tags) : List Value → List Value → Int
  | [], [] => 0
  | [], _ :: _ => -1
  | _ :: _, [] => 1
  | a :: as, b :: bs => if a = b then compareTuple t as bs else Value.compare t a b

end codec

/-! ## Expressions (`expression/expressions`) -/

namespace expressions

/-- What `case.go` and `istruth.go` call and what is not part of the sources at hand.
Expressions are values of `X`, evaluated values are values of `V` (`none` is the NULL
result `nil`), `σ` is whatever an evaluation may change. `Eval` is
`Expression.Eval(ctx, args)`, `EvalEQ target e` is the evaluation of
`NewBinaryOperation(opcode.EQ, &Value{target}, e)`, `ToBool` is `types.ToBool` and
`vTrue` the Go value `true`. -/
structure ExprOps (X V σ E : Type) where
  Eval : σ → X → Except E (Option V) × σ
  EvalEQ : σ → Option V → X → Except E (Option V) × σ
  ToBool : V → Except E Int
  vTrue : V

/-- An evaluation asked of the expression layer. -/
inductive EvalCall (X V : Type) where
  | Eval (e : X)
  | EvalEQ (target : Option V) (e : X)
deriving DecidableEq, Repr

/-- The expression layer given by evaluation functions that change nothing, keeping a
log of the evaluations asked of it (oldest first). -/
def ExprOps.traced {X V E : Type} (Eval : X → Except E (Option V))
    (EvalEQ : Option V → X → Except E (Option V)) (ToBool : V → Except E Int) (vTrue : V) :
    ExprOps X V (List (EvalCall X V)) E where
  Eval := fun log e => (Eval e, log ++ [EvalCall.Eval e])
  EvalEQ := fun log target e => (EvalEQ target e, log ++ [EvalCall.EvalEQ target e])
  ToBool := ToBool
  vTrue := vTrue

/-- The Go struct `WhenClause`. -/
structure WhenClause (X : Type) where
  Expr : X
  Result : X
deriving DecidableEq, Repr

/-- The Go struct `FunctionCase`; `none` is a `nil` expression. -/
structure FunctionCase (X : Type) where
  Value : Option X
  WhenClauses : List (WhenClause X)
  ElseClause : Option X
deriving DecidableEq, Repr

/-- `WhenClause.evalAndCheck`: the result value, whether the clause matched, and the
error. -/
def WhenClause.evalAndCheck {X V σ E : Type} (ops : ExprOps X V σ E) (w : WhenClause X)
    (s : σ) (target : Option V) : (Option V × Bool × Option E) × σ :=
  let r := ops.EvalEQ s target w.Expr
  match r.1 with
  | .error err => ((none, false, some err), r.2)
  | .ok none => ((none, false, none), r.2)
  | .ok (some eq) =>
    match ops.ToBool eq with
    | .error err => ((none, false, some err), r.2)
    | .ok beq =>
      if beq = 0 then ((none, false, none), r.2)
      else
        let rv := ops.Eval r.2 w.Result
        match rv.1 with
        | .error err => ((none, true, some err), rv.2)
        | .ok v => ((v, true, none), rv.2)

/-- The loop of `FunctionCase.Eval` over the WHEN clauses: `some` is what a `return`
inside the loop hands back, `none` means the loop ran to its end. -/
def FunctionCase.whenLoop {X V σ E : Type} (ops : ExprOps X V σ E) (target : Option V) :
    List (WhenClause X) → σ → Option (Except E (Option V)) × σ
  | [], s => (none, s)
  | w :: ws, s =>
    match w.evalAndCheck ops s target with
    | ((_, _, some err), s) => (some (.error err), s)
    | ((r, true, none), s) => (some (.ok r), s)
    | ((_, false, none), s) => whenLoop ops target ws s

/-- `FunctionCase.Eval`. -/
def FunctionCase.Eval {X V σ E : Type} (ops : ExprOps X V σ E) (f : FunctionCase X)
    (s : σ) : Except E (Option V) × σ :=
  let t : Except E (Option V) × σ :=
    match f.Value with
    | none => (.ok (some ops.vTrue), s)
    | some v => ops.Eval s v
  match t.1 with
  | .error err => (.error err, t.2)
  | .ok target =>
    match FunctionCase.whenLoop ops target f.WhenClauses t.2 with
    | (some r, s) => (r, s)
    | (none, s) =>
      match f.ElseClause with
      | some e => ops.Eval s e
      | none => (.ok none, s)

/-- The target that `FunctionCase.Eval` compares the conditions with: the evaluated
`Value`, or `true` when there is no `Value`. -/
def FunctionCase.target {X V E : Type} (Eval : X → Except E (Option V)) (vTrue : V)
    (f : FunctionCase X) : Except E (Option V) :=
  match f.Value with
  | none => .ok (some vTrue)
  | some v => Eval v

/-- The evaluation that computing the target asks for. -/
def FunctionCase.valueCalls {X V : Type} (f : FunctionCase X) : List (EvalCall X V) :=
  match f.Value with
  | none => []
  | some v => [EvalCall.Eval v]

/-- Whether the comparison of the clause's condition with the target evaluates, without
error, to a non-NULL value whose boolean conversion is non-zero. -/
def clauseMatches {X V E : Type} (EvalEQ : Option V → X → Except E (Option V))
    (ToBool : V → Except E Int) (target : Option V) (w : WhenClause X) : Bool :=
  match EvalEQ target w.Expr with
  | .ok (some eq) =>
    match ToBool eq with
    | .ok beq => !(beq == 0)
    | .error _ => false
  | _ => false

/-- Whether the comparison of the clause's condition with the target evaluates, without
error, to NULL or to a value whose boolean conversion is zero. -/
def clauseSkips {X V E : Type} (EvalEQ : Option V → X → Except E (Option V))
    (ToBool : V → Except E Int) (target : Option V) (w : WhenClause X) : Bool :=
  match EvalEQ target w.Expr with
  | .ok none => true
  | .ok (some eq) =>
    match ToBool eq with
    | .ok beq => beq == 0
    | .error _ => false
  | .error _ => false

/-- The error, if any, with which the comparison of the clause's condition with the
target, or the boolean conversion of its outcome, fails. -/
def clauseFails {X V E : Type} (EvalEQ : Option V → X → Except E (Option V))
    (ToBool : V → Except E Int) (target : Option V) (w : WhenClause X) : Option E :=
  match EvalEQ target w.Expr with
  | .error err => some err
  | .ok none => none
  | .ok (some eq) =>
    match ToBool eq with
    | .error err => some err
    | .ok _ => none

/-- The Go struct `IsTruth`; `True` is the `int8` the operand's truth is compared
with. -/
structure IsTruth (X : Type) where
  Expr : X
  Not : Bool
  True : Int
deriving DecidableEq, Repr

/-- `IsTruth.Eval`. -/
def IsTruth.Eval {X V σ E : Type} (ops : ExprOps X V σ E) (is : IsTruth X) (s : σ) :
    Except E Bool × σ :=
  let r := ops.Eval s is.Expr
  match r.1 with
  | .error err => (.error err, r.2)
  | .ok none => (.ok is.Not, r.2)
  | .ok (some val) =>
    match ops.ToBool val with
    | .error err => (.error err, r.2)
    | .ok b => if !is.Not then (.ok (b == is.True), r.2) else (.ok (b != is.True), r.2)

/-- An expression layer for examples: expression `n` evaluates to the value `n`, except
that `0` evaluates to NULL and `99` fails; the comparison with a target is `1` or `0`,
NULL when a side is NULL; the boolean conversion of a value tells whether it is
non-zero. -/
def exampleEval (e : Nat) : Except Error (Option Int) :=
  if e = 99 then .error (Error.other 7) else if e = 0 then .ok none else .ok (some (e : Int))

/-- The comparison of the example layer. -/
def exampleEvalEQ (target : Option Int) (e : Nat) : Except Error (Option Int) :=
  match target with
  | none => .ok none
  | some t =>
    if e = 99 then .error (Error.other 7) else if e = 0 then .ok none
    else .ok (some (if t = (e : Int) then 1 else 0))

/-- The boolean conversion of the example layer. -/
def exampleToBool (v : Int) : Except Error Int := .ok (if v = 0 then 0 else 1)

/-- The example layer, logging its calls. -/
def exampleOps : ExprOps Nat Int (List (EvalCall Nat Int)) Error :=
  ExprOps.traced exampleEval exampleEvalEQ exampleToBool 1

/-- `CASE 2 WHEN 1 THEN 10 WHEN NULL THEN <failing> WHEN 2 THEN 20 WHEN 2 THEN <failing>
ELSE 30 END` over the example layer. -/
def exampleCase : FunctionCase Nat :=
  { Value := some 2,
    WhenClauses := [⟨1, 10⟩, ⟨0, 99⟩, ⟨2, 20⟩, ⟨2, 99⟩],
    ElseClause := some 30 }

/-- `CASE WHEN NULL THEN <failing> END` over the example layer: no compare value, no
ELSE. -/
def exampleCaseNoElse : FunctionCase Nat :=
  { Value := none, WhenClauses := [⟨0, 99⟩], ElseClause := none }

end expressions

/-- The key an operation of a batch works on. -/
def BatchOp.key : BatchOp → Bytes
  | .Put k _ => k
  | .Delete k => k

/-- The operation that `doCommit` stages for one dirty entry: a delete for a tombstone,
a put otherwise. -/
def dbTxn.stageOp (e : Entry) : BatchOp :=
  if e.2.length = 0 then BatchOp.Delete e.1 else BatchOp.Put e.1 e.2

/-- An Active transaction (tID 1) that recorded `[1] ↦ [9]` and `[4] ↦ []` in its
read-set and whose overlay holds the write `[2] ↦ [5]` and a tombstone for `[3]`. -/
def stagingTxn : dbTxn UnionStore :=
  { UnionStore :=
      { Dirty := [([2], [5]), ([3], [])], Snapshot := [([1], [9])], released := false },
    tID := 1, valid := true, snapshotVals := some [([1], [9]), ([4], [])] }

namespace kv

/-- One pass through the body of the `for` loop of `updateCur`: whether the pass ends
the loop (`return` or `break`) and the iterator after it. -/
def UnionIter.pass (iter : UnionIter) : Bool × UnionIter :=
  if !iter.dirtyValid && !iter.snapshotValid then
    (true, { iter with isValid := false })
  else if !iter.dirtyValid then
    (true, { iter with curIsDirty := false })
  else if !iter.snapshotValid then
    let iter := { iter with curIsDirty := true }
    if iter.dirtyIt.Value.length = 0 then
      (false, iter.dirtyNext)
    else
      (true, iter)
  else if iter.snapshotValid && iter.dirtyValid then
    let snapshotKey := iter.snapshotIt.Key
    let dirtyKey := iter.dirtyIt.Key
    let cmp := bytesCompare dirtyKey snapshotKey
    if cmp = 0 then
      if iter.dirtyIt.Value.length = 0 then
        (false, iter.dirtyNext.snapshotNext)
      else
        (true, { iter.snapshotNext with curIsDirty := true })
    else if cmp > 0 then
      (true, { iter with curIsDirty := false })
    else
      if iter.dirtyIt.Value.length = 0 then
        (false, iter.dirtyNext)
      else
        (true, { iter with curIsDirty := true })
  else
    (false, iter)

/-- The number of passes the loop of `updateCur` makes when it is allowed `fuel` of
them. -/
def UnionIter.passCount : Nat → UnionIter → Nat
  | 0, _ => 0
  | n + 1, iter => if iter.pass.1 then 1 else passCount n iter.pass.2 + 1

/-- The entries the dirty sub-iterator can still show: the one it stands on, if it
stands on one, and those after it. -/
def UnionIter.dirtyRemaining (iter : UnionIter) : Nat :=
  if iter.dirtyValid then iter.dirtyIt.rest.length + 1 else 0

end kv

namespace kv

/-- The source of the entry under the cursor in the algorithm of the specification;
`both` is the outcome of step 4's non-tombstone branch, where the dirty entry is
emitted and the snapshot entry of the same key stays current, shadowed. -/
inductive SpecSource where
  | snapshot
  | dirty
  | both
deriving DecidableEq, Repr

/-- The union iterator as the specification words it, over two already-positioned
sub-iterators, each given by the entries it still holds (it stands on the head). -/
structure SpecUnionIter where
  dirty : List Entry
  snapshot : List Entry
  cur : SpecSource
  isValid : Bool
deriving DecidableEq, Repr

/-- The positioning algorithm of the specification, steps 1 to 6. -/
def specPosition : List Entry → List Entry → SpecUnionIter
  | [], [] => ⟨[], [], SpecSource.snapshot, false⟩
  | [], s :: S => ⟨[], s :: S, SpecSource.snapshot, true⟩
  | d :: D, [] =>
    if d.2.length = 0 then specPosition D [] else ⟨d :: D, [], SpecSource.dirty, true⟩
  | d :: D, s :: S =>
    if bytesCompare d.1 s.1 = 0 then
      if d.2.length = 0 then specPosition D S else ⟨d :: D, s :: S, SpecSource.both, true⟩
    else if bytesCompare d.1 s.1 < 0 then
      if d.2.length = 0 then specPosition D (s :: S)
      else ⟨d :: D, s :: S, SpecSource.dirty, true⟩
    else ⟨d :: D, s :: S, SpecSource.snapshot, true⟩

/-- `Next()` of the specification: advance whichever source produced the last-emitted
entry (both, after step 4's non-tombstone branch), then position again. -/
def SpecUnionIter.Next (it : SpecUnionIter) : SpecUnionIter :=
  match it.cur with
  | SpecSource.snapshot => specPosition it.dirty it.snapshot.tail
  | SpecSource.dirty => specPosition it.dirty.tail it.snapshot
  | SpecSource.both => specPosition it.dirty.tail it.snapshot.tail

def SpecUnionIter.Valid (it : SpecUnionIter) : Bool := it.isValid

/-- The raw key of the emitted entry. -/
def SpecUnionIter.rawKey (it : SpecUnionIter) : Bytes :=
  match it.cur with
  | SpecSource.snapshot => (SnapshotIterator.mk it.snapshot).Key
  | _ => (DirtyIterator.mk it.dirty.head? it.dirty.tail).Key

/-- The value of the emitted entry. -/
def SpecUnionIter.Value (it : SpecUnionIter) : Bytes :=
  match it.cur with
  | SpecSource.snapshot => (SnapshotIterator.mk it.snapshot).Value
  | _ => (DirtyIterator.mk it.dirty.head? it.dirty.tail).Value

/-- The caller's scan loop over the specified iterator, as `UnionIter.drainLoop` is
over the coded one: while `Valid()`, read the raw key and the value, then `Next()`. -/
def SpecUnionIter.drainLoop : Nat → SpecUnionIter → Option (List Entry)
  | 0, _ => none
  | n + 1, it =>
    if it.Valid then
      match drainLoop n it.Next with
      | none => none
      | some out => some ((it.rawKey, it.Value) :: out)
    else
      some []

/-- Position the specified iterator over the two sources and read it to the end. -/
def specScanUnion (dirty snapshot : List Entry) : Option (List Entry) :=
  (specPosition dirty snapshot).drainLoop (dirty.length + snapshot.length + 1)

end kv

namespace kv

/-- The Go struct `UnionIter` with its two sub-iterator fields as Go holds them: each
is a reference that may be `nil` (`none`), as both are in the zero value `&UnionIter{}`
and after `Close`. -/
structure NilableUnionIter where
  dirtyIt : Option DirtyIterator
  snapshotIt : Option SnapshotIterator
  curIsDirty : Bool
  dirtyValid : Bool
  snapshotValid : Bool
  isValid : Bool
deriving DecidableEq, Repr

/-- The zero value `&kv.UnionIter{}`. -/
def NilableUnionIter.zero : NilableUnionIter := ⟨none, none, false, false, false, false⟩

/-- An iterator built by `newUnionIter`: both sub-iterators are there. -/
def NilableUnionIter.ofIter (it : UnionIter) : NilableUnionIter :=
  ⟨some it.dirtyIt, some it.snapshotIt, it.curIsDirty, it.dirtyValid, it.snapshotValid,
    it.isValid⟩

/-- A sub-iterator handed back: `snapshotIt.Close()` or `dirtyIt.Release()`. -/
inductive ReleaseCall where
  | snapshotClose (it : SnapshotIterator)
  | dirtyRelease (it : DirtyIterator)
deriving DecidableEq, Repr

/-- `UnionIter.Valid`. -/
def NilableUnionIter.Valid (iter : NilableUnionIter) : Bool := iter.isValid

/-- The raw key under the cursor (a `nil` sub-iterator shows as the empty key). -/
def NilableUnionIter.rawKey (iter : NilableUnionIter) : Bytes :=
  if iter.curIsDirty == false then
    match iter.snapshotIt with
    | some s => s.Key
    | none => []
  else
    match iter.dirtyIt with
    | some d => d.Key
    | none => []

/-- `UnionIter.Close`, with the log of the sub-iterators handed back (oldest first). -/
def NilableUnionIter.Close (iter : NilableUnionIter) (log : List ReleaseCall) :
    NilableUnionIter × List ReleaseCall :=
  let r : NilableUnionIter × List ReleaseCall :=
    match iter.snapshotIt with
    | some s => ({ iter with snapshotIt := none }, log ++ [ReleaseCall.snapshotClose s])
    | none => (iter, log)
  match r.1.dirtyIt with
  | some d => ({ r.1 with dirtyIt := none }, r.2 ++ [ReleaseCall.dirtyRelease d])
  | none => r

/-- A number of `Close()` calls, one after the other. -/
def NilableUnionIter.closeTimes :
    Nat → NilableUnionIter × List ReleaseCall → NilableUnionIter × List ReleaseCall
  | 0, st => st
  | n + 1, st => closeTimes n (st.1.Close st.2)

end kv

/-- The union-store methods of `UnionStore.ops` with the iterators as Go holds them:
`Seek` hands out an iterator built by `newUnionIter`, and the zero iterator is
`&kv.UnionIter{}`. -/
def UnionStore.opsNilable (enc dec : Bytes → Bytes) : KVOps UnionStore kv.NilableUnionIter where
  EncodeKey := enc
  Get := UnionStore.Get
  Set := UnionStore.Set
  Delete := UnionStore.Delete
  Seek := fun us k =>
    match UnionStore.Seek us k with
    | (.ok it, us) => (.ok (kv.NilableUnionIter.ofIter it), us)
    | (.error err, us) => (.error err, us)
  Close := UnionStore.Close
  SnapshotGet := UnionStore.SnapshotGet
  DirtyEntries := fun us => us.Dirty
  iterValid := fun it => it.Valid
  iterKey := fun it => dec it.rawKey
  zeroIter := kv.NilableUnionIter.zero

/-- An iterator as `newUnionIter` leaves it over a dirty `[1] ↦ [5]` and a snapshot
`[2] ↦ [7]`, standing on the dirty entry. -/
def exampleNilableIter : kv.NilableUnionIter :=
  kv.NilableUnionIter.ofIter (kv.stateOf [([1], [5])] [([2], [7])] true true)

/-- The transaction `closedTxn` (closed by `Rollback`, its snapshot released) over a
union store that logs its calls. -/
def closedLoggedTxn : dbTxn (UnionStore × List KVCall) :=
  { UnionStore := (closedTxn.UnionStore, []), tID := closedTxn.tID,
    valid := closedTxn.valid, snapshotVals := closedTxn.snapshotVals }

/-- An Active transaction (tID 1) whose overlay holds `"abc"` (the bytes 97, 98, 99)
for the key `[1]`, over a union store that logs its calls. -/
def nonNumericTxn : dbTxn (UnionStore × List KVCall) :=
  { UnionStore := ({ Dirty := [([1], [97, 98, 99])], Snapshot := [], released := false }, []),
    tID := 1, valid := true, snapshotVals := some [] }

/-- Whether `tryConditionLockKey(tID, key, expected)` validates on the store as
specified: the key is unlocked or held by `tID`, and the engine's current value is the
expected one. -/
def dbStore.validates (s : dbStore) (tID : Int) (key expected : Bytes) : Bool :=
  (match s.keysLocked.lookup key with
   | some owner => decide (owner = tID)
   | none => true) && decide (engineGet s.db key = expected)

namespace plans

/-- A temporary table that keeps the rows it is given and finds them again, except
that `Set` fails on the row `bad`. -/
def failOnTemp {Row : Type} [DecidableEq Row] (bad : Row) : TempOps (List Row) Row Error where
  Set := fun t row => if row = bad then (some (Error.other 1), t) else (none, row :: t)
  Get := fun t row => .ok (decide (row ∈ t))

/-- A callback that records the rows it is given and returns an error at the row
`bad`. -/
def recordUntil {Row : Type} [DecidableEq Row] (bad : Row) :
    List Row → Row → (Bool × Option Error) × List Row :=
  fun log row =>
    if row = bad then ((false, some (Error.other 4)), log ++ [row])
    else ((true, none), log ++ [row])

end plans

/-! ## Facts about `bytes.Compare` -/

theorem bytesCompare_eq_zero_iff (a b : Bytes) : bytesCompare a b = 0 ↔ a = b := by
  induction a generalizing b with
  | nil => cases b <;> simp [bytesCompare]
  | cons x xs ih =>
    cases b with
    | nil => simp [bytesCompare]
    | cons y ys =>
      simp only [bytesCompare]
      split_ifs with h1 h2
      · simp; omega
      · simp; omega
      · have : x = y := by omega
        simp [ih, this]

theorem bytesCompare_pos_iff (a b : Bytes) : 0 < bytesCompare a b ↔ bytesCompare b a < 0 := by
  induction a generalizing b with
  | nil => cases b <;> simp [bytesCompare]
  | cons x xs ih =>
    cases b with
    | nil => simp [bytesCompare]
    | cons y ys =>
      simp only [bytesCompare]
      split_ifs <;> first | omega | simp | exact ih ys

theorem bytesCompare_lt_trans {a b c : Bytes} (h1 : bytesCompare a b < 0)
    (h2 : bytesCompare b c < 0) : bytesCompare a c < 0 := by
  induction a generalizing b c with
  | nil =>
    cases b with
    | nil => simp [bytesCompare] at h1
    | cons y ys =>
      cases c with
      | nil => simp [bytesCompare] at h2
      | cons z zs => simp [bytesCompare]
  | cons x xs ih =>
    cases b with
    | nil => simp [bytesCompare] at h1
    | cons y ys =>
      cases c with
      | nil => simp [bytesCompare] at h2
      | cons z zs =>
        simp only [bytesCompare] at h1 h2 ⊢
        split_ifs at h1 h2 ⊢ <;> first | omega | exact ih h1 h2

theorem bytesCompare_self (a : Bytes) : bytesCompare a a = 0 :=
  (bytesCompare_eq_zero_iff a a).2 rfl

/-! ## The iterator walks through `mergeView` -/

namespace kv

theorem stateOf_dirtyNext (d : Entry) (D S : List Entry) (c v : Bool) :
    (stateOf (d :: D) S c v).dirtyNext = stateOf D S c v := by
  cases D <;> rfl

theorem stateOf_snapshotNext (s : Entry) (D S : List Entry) (c v : Bool) :
    (stateOf D (s :: S) c v).snapshotNext = stateOf D S c v := by
  cases S <;> rfl

theorem updateCur_stateOf (D S : List Entry) (c v : Bool) :
    (stateOf D S c v).updateCur
      = UnionIter.updateCurLoop (D.tail.length + 2) (stateOf D S c true) := by
  cases D <;> rfl

theorem drainLoop_valid (n : Nat) (iter : UnionIter) (h : iter.isValid = true) :
    UnionIter.drainLoop (n + 1) iter
      = ((iter.Next.bind (UnionIter.drainLoop n)).map
          (fun out => (iter.rawKey, iter.Value) :: out)) := by
  simp only [UnionIter.drainLoop, UnionIter.Valid, h, if_true]
  cases iter.Next with
  | none => rfl
  | some it =>
    simp only [Option.bind]
    cases UnionIter.drainLoop n it <;> rfl

/-- Emitting the snapshot head: the scan continues from the snapshot tail. -/
theorem drain_emit_snapshot (n : Nat) (s : Entry) (D S : List Entry) :
    UnionIter.drainLoop (n + 1) (stateOf D (s :: S) false true)
      = (((UnionIter.updateCurLoop (D.tail.length + 2) (stateOf D S false true)).bind
          (UnionIter.drainLoop n)).map (fun out => s :: out)) := by
  rw [drainLoop_valid _ _ rfl]
  have h : (stateOf D (s :: S) false true).Next
      = UnionIter.updateCurLoop (D.tail.length + 2) (stateOf D S false true) := by
    simp only [UnionIter.Next]
    rw [if_pos (by rfl), stateOf_snapshotNext, updateCur_stateOf]
  rw [h]
  rfl

/-- Emitting the dirty head: the scan continues from the dirty tail. -/
theorem drain_emit_dirty (n : Nat) (d : Entry) (D S : List Entry) :
    UnionIter.drainLoop (n + 1) (stateOf (d :: D) S true true)
      = (((UnionIter.updateCurLoop (D.tail.length + 2) (stateOf D S true true)).bind
          (UnionIter.drainLoop n)).map (fun out => d :: out)) := by
  rw [drainLoop_valid _ _ rfl]
  have h : (stateOf (d :: D) S true true).Next
      = UnionIter.updateCurLoop (D.tail.length + 2) (stateOf D S true true) := by
    simp only [UnionIter.Next]
    rw [if_neg (by simp [stateOf]), stateOf_dirtyNext, updateCur_stateOf]
  rw [h]
  rfl

theorem updateCurLoop_nil_nil (n : Nat) (c : Bool) :
    UnionIter.updateCurLoop (n + 1) (stateOf [] [] c true) = some (stateOf [] [] c false) := by
  rfl

theorem updateCurLoop_nil_cons (n : Nat) (c : Bool) (s : Entry) (S : List Entry) :
    UnionIter.updateCurLoop (n + 1) (stateOf [] (s :: S) c true)
      = some (stateOf [] (s :: S) false true) := by
  rfl

theorem updateCurLoop_cons_nil (n : Nat) (c : Bool) (d : Entry) (D : List Entry) :
    UnionIter.updateCurLoop (n + 1) (stateOf (d :: D) [] c true)
      = if d.2.length = 0 then UnionIter.updateCurLoop n (stateOf D [] true true)
        else some (stateOf (d :: D) [] true true) := by
  rw [← stateOf_dirtyNext d D [] true true]
  simp [UnionIter.updateCurLoop, stateOf, DirtyIterator.Value]

theorem updateCurLoop_cons_cons (n : Nat) (c : Bool) (d s : Entry) (D S : List Entry) :
    UnionIter.updateCurLoop (n + 1) (stateOf (d :: D) (s :: S) c true)
      = if bytesCompare d.1 s.1 = 0 then
          (if d.2.length = 0 then UnionIter.updateCurLoop n (stateOf D S c true)
           else some (stateOf (d :: D) S true true))
        else if bytesCompare d.1 s.1 > 0 then some (stateOf (d :: D) (s :: S) false true)
        else if d.2.length = 0 then UnionIter.updateCurLoop n (stateOf D (s :: S) c true)
        else some (stateOf (d :: D) (s :: S) true true) := by
  rw [← stateOf_snapshotNext s D S c true, ← stateOf_dirtyNext d D (s :: S) c true,
    ← stateOf_snapshotNext s (d :: D) S true true]
  simp [UnionIter.updateCurLoop, stateOf, DirtyIterator.Value, DirtyIterator.Key,
    SnapshotIterator.Key, UnionIter.snapshotNext]

/-- From any positioning state, positioning and then reading to the end yields
`mergeView`, provided the fuel covers the remaining entries. -/
theorem run_stateOf (D : List Entry) : ∀ (S : List Entry) (c : Bool) (f1 f2 : Nat),
    D.length + 1 ≤ f1 → D.length + S.length + 1 ≤ f2 →
    (UnionIter.updateCurLoop f1 (stateOf D S c true)).bind (UnionIter.drainLoop f2)
      = some (mergeView D S) := by
  induction D with
  | nil =>
    intro S
    induction S with
    | nil =>
      intro c f1 f2 h1 h2
      obtain ⟨n, rfl⟩ : ∃ n, f1 = n + 1 := ⟨f1 - 1, by omega⟩
      obtain ⟨m, rfl⟩ : ∃ m, f2 = m + 1 := ⟨f2 - 1, by omega⟩
      rw [updateCurLoop_nil_nil]
      simp [UnionIter.drainLoop, UnionIter.Valid, stateOf, mergeView]
    | cons s S ih =>
      intro c f1 f2 h1 h2
      obtain ⟨n, rfl⟩ : ∃ n, f1 = n + 1 := ⟨f1 - 1, by omega⟩
      obtain ⟨m, rfl⟩ : ∃ m, f2 = m + 1 := ⟨f2 - 1, by omega⟩
      rw [updateCurLoop_nil_cons, Option.some_bind, drain_emit_snapshot,
        ih false _ m (by simp) (by simp at h2 ⊢; omega)]
      simp [mergeView]
  | cons d D ihD =>
    intro S
    induction S with
    | nil =>
      intro c f1 f2 h1 h2
      obtain ⟨n, rfl⟩ : ∃ n, f1 = n + 1 := ⟨f1 - 1, by omega⟩
      obtain ⟨m, rfl⟩ : ∃ m, f2 = m + 1 := ⟨f2 - 1, by omega⟩
      simp only [List.length_cons, List.length_nil] at h1 h2
      rw [updateCurLoop_cons_nil]
      by_cases hd : d.2.length = 0
      · rw [if_pos hd, ihD [] true n (m + 1) (by omega) (by simp; omega)]
        simp [mergeView, hd]
      · rw [if_neg hd, Option.some_bind, drain_emit_dirty,
          ihD [] true _ m (by cases D <;> simp) (by simp; omega)]
        simp [mergeView, hd]
    | cons s S ihS =>
      intro c f1 f2 h1 h2
      obtain ⟨n, rfl⟩ : ∃ n, f1 = n + 1 := ⟨f1 - 1, by omega⟩
      obtain ⟨m, rfl⟩ : ∃ m, f2 = m + 1 := ⟨f2 - 1, by omega⟩
      simp only [List.length_cons] at h1 h2
      rw [updateCurLoop_cons_cons]
      by_cases hd : d.2.length = 0 <;> by_cases he : bytesCompare d.1 s.1 = 0
      · rw [if_pos he, if_pos hd, ihD S c n (m + 1) (by omega) (by omega)]
        simp [mergeView, hd, he]
      · rw [if_neg he]
        by_cases hg : bytesCompare d.1 s.1 > 0
        · rw [if_pos hg, Option.some_bind, drain_emit_snapshot,
            ihS false _ m (by simp) (by simp; omega)]
          simp [mergeView, he, hg]
        · rw [if_neg hg, if_pos hd,
            ihD (s :: S) c n (m + 1) (by omega) (by simp; omega)]
          simp [mergeView, hd, he, hg]
      · rw [if_pos he, if_neg hd, Option.some_bind, drain_emit_dirty,
          ihD S true _ m (by cases D <;> simp) (by omega)]
        simp [mergeView, hd, he]
      · rw [if_neg he]
        by_cases hg : bytesCompare d.1 s.1 > 0
        · rw [if_pos hg, Option.some_bind, drain_emit_snapshot,
            ihS false _ m (by simp) (by simp; omega)]
          simp [mergeView, he, hg]
        · rw [if_neg hg, if_neg hd, Option.some_bind, drain_emit_dirty,
            ihD (s :: S) true _ m (by cases D <;> simp) (by simp; omega)]
          simp [mergeView, hd, he, hg]

/-- A full scan of the union iterator returns and yields `mergeView`. -/
theorem scanUnion_eq_mergeView (dirty snapshot : List Entry) :
    scanUnion dirty snapshot = some (mergeView dirty snapshot) := by
  have h := run_stateOf dirty snapshot false (dirty.tail.length + 2)
    (dirty.length + snapshot.length + 1) (by cases dirty <;> simp) (le_refl _)
  have e : newUnionIter (DirtyIterator.ofList dirty) ⟨snapshot⟩
      = UnionIter.updateCurLoop (dirty.tail.length + 2) (stateOf dirty snapshot false true) := by
    cases dirty <;> rfl
  unfold scanUnion
  rw [e]
  cases hu : UnionIter.updateCurLoop (dirty.tail.length + 2) (stateOf dirty snapshot false true) with
  | none => rw [hu] at h; simp at h
  | some it => rw [hu] at h; simpa using h

end kv

/-! ## `mergeView` lists the overlay map in ascending key order -/

theorem bytesCompare_ne_of_lt {a b : Bytes} (h : bytesCompare a b < 0) : a ≠ b := by
  intro e
  rw [e, bytesCompare_self] at h
  exact lt_irrefl _ h

theorem KeysAscending.head_lt {d : Entry} {D : List Entry} (h : KeysAscending (d :: D)) :
    ∀ e ∈ D, bytesCompare d.1 e.1 < 0 :=
  (List.pairwise_cons.1 h).1

theorem KeysAscending.tail {d : Entry} {D : List Entry} (h : KeysAscending (d :: D)) :
    KeysAscending D :=
  (List.pairwise_cons.1 h).2

/-- A key below the head of an ascending list does not occur in it. -/
theorem not_mem_of_lt_head {k : Bytes} {d : Entry} {D : List Entry}
    (h : KeysAscending (d :: D)) (hk : bytesCompare k d.1 < 0 ∨ k = d.1) :
    ∀ w, (k, w) ∉ D := by
  intro w hw
  have h1 := h.head_lt _ hw
  rcases hk with hk | hk
  · exact bytesCompare_ne_of_lt (bytesCompare_lt_trans hk h1) rfl
  · exact bytesCompare_ne_of_lt h1 hk.symm

theorem mem_mergeView (D : List Entry) : ∀ (S : List Entry),
    KeysAscending D → KeysAscending S → ∀ (k v : Bytes),
    ((k, v) ∈ mergeView D S ↔
      ((k, v) ∈ D ∧ v.length ≠ 0) ∨ ((∀ w, (k, w) ∉ D) ∧ (k, v) ∈ S)) := by
  induction D with
  | nil => intro S _ _ k v; simp [mergeView]
  | cons d D ihD =>
    intro S
    induction S with
    | nil =>
      intro hD hS k v
      obtain ⟨dk, dv⟩ := d
      have nd := not_mem_of_lt_head hD (Or.inr rfl)
      have ih := ihD [] hD.tail hS k v
      simp only [mergeView]
      split_ifs with hd
      · rw [ih]
        simp only [List.mem_cons, Prod.mk.injEq, List.not_mem_nil, and_false, or_false]
        constructor
        · rintro ⟨h1, h2⟩; exact ⟨Or.inr h1, h2⟩
        · rintro ⟨⟨rfl, rfl⟩ | h1, h2⟩
          · exact absurd hd h2
          · exact ⟨h1, h2⟩
      · rw [List.mem_cons, ih]
        simp only [List.mem_cons, Prod.mk.injEq, List.not_mem_nil, and_false, or_false]
        constructor
        · rintro (⟨rfl, rfl⟩ | ⟨h1, h2⟩)
          · exact ⟨Or.inl ⟨rfl, rfl⟩, hd⟩
          · exact ⟨Or.inr h1, h2⟩
        · rintro ⟨⟨rfl, rfl⟩ | h1, h2⟩
          · exact Or.inl ⟨rfl, rfl⟩
          · exact Or.inr ⟨h1, h2⟩
    | cons s S ihS =>
      intro hD hS k v
      obtain ⟨dk, dv⟩ := d
      obtain ⟨sk, sv⟩ := s
      have nd := not_mem_of_lt_head hD (Or.inr rfl)
      have ns := not_mem_of_lt_head hS (Or.inr rfl)
      simp only [mergeView]
      by_cases he : bytesCompare dk sk = 0
      · have hk : dk = sk := (bytesCompare_eq_zero_iff _ _).1 he
        subst hk
        have ih := ihD S hD.tail hS.tail k v
        rw [if_pos he]
        split_ifs with hd
        · rw [ih]
          simp only [List.mem_cons, Prod.mk.injEq]
          constructor
          · rintro (⟨h1, h2⟩ | ⟨h1, h2⟩)
            · exact Or.inl ⟨Or.inr h1, h2⟩
            · refine Or.inr ⟨fun w hw => ?_, Or.inr h2⟩
              rcases hw with ⟨rfl, _⟩ | hw
              · exact ns _ h2
              · exact h1 _ hw
          · rintro (⟨⟨rfl, rfl⟩ | h1, h2⟩ | ⟨h1, h2⟩)
            · exact absurd hd h2
            · exact Or.inl ⟨h1, h2⟩
            · refine Or.inr ⟨fun w hw => h1 w (Or.inr hw), ?_⟩
              rcases h2 with ⟨rfl, _⟩ | h2
              · exact absurd (Or.inl ⟨rfl, rfl⟩) (h1 dv)
              · exact h2
        · rw [List.mem_cons, ih]
          simp only [List.mem_cons, Prod.mk.injEq]
          constructor
          · rintro (⟨rfl, rfl⟩ | ⟨h1, h2⟩ | ⟨h1, h2⟩)
            · exact Or.inl ⟨Or.inl ⟨rfl, rfl⟩, hd⟩
            · exact Or.inl ⟨Or.inr h1, h2⟩
            · refine Or.inr ⟨fun w hw => ?_, Or.inr h2⟩
              rcases hw with ⟨rfl, _⟩ | hw
              · exact ns _ h2
              · exact h1 _ hw
          · rintro (⟨⟨rfl, rfl⟩ | h1, h2⟩ | ⟨h1, h2⟩)
            · exact Or.inl ⟨rfl, rfl⟩
            · exact Or.inr (Or.inl ⟨h1, h2⟩)
            · refine Or.inr (Or.inr ⟨fun w hw => h1 w (Or.inr hw), ?_⟩)
              rcases h2 with ⟨rfl, _⟩ | h2
              · exact absurd (Or.inl ⟨rfl, rfl⟩) (h1 dv)
              · exact h2
      · rw [if_neg he]
        by_cases hg : bytesCompare dk sk > 0
        · have hlt : bytesCompare sk dk < 0 := (bytesCompare_pos_iff _ _).1 hg
          have hne : sk ≠ dk := bytesCompare_ne_of_lt hlt
          have nsD := not_mem_of_lt_head hD (Or.inl hlt)
          have ih := ihS hD hS.tail k v
          rw [if_pos hg, List.mem_cons, ih]
          simp only [List.mem_cons, Prod.mk.injEq]
          constructor
          · rintro (⟨rfl, rfl⟩ | ⟨h1, h2⟩ | ⟨h1, h2⟩)
            · refine Or.inr ⟨fun w hw => ?_, Or.inl ⟨rfl, rfl⟩⟩
              rcases hw with ⟨h, _⟩ | hw
              · exact hne h
              · exact nsD _ hw
            · exact Or.inl ⟨h1, h2⟩
            · exact Or.inr ⟨h1, Or.inr h2⟩
          · rintro (⟨h1, h2⟩ | ⟨h1, ⟨rfl, rfl⟩ | h2⟩)
            · exact Or.inr (Or.inl ⟨h1, h2⟩)
            · exact Or.inl ⟨rfl, rfl⟩
            · exact Or.inr (Or.inr ⟨h1, h2⟩)
        · have hlt : bytesCompare dk sk < 0 := by omega
          have hne : dk ≠ sk := bytesCompare_ne_of_lt hlt
          have ndS := not_mem_of_lt_head hS (Or.inl hlt)
          have ih := ihD ((sk, sv) :: S) hD.tail hS k v
          rw [if_neg hg]
          split_ifs with hd
          · rw [ih]
            simp only [List.mem_cons, Prod.mk.injEq]
            constructor
            · rintro (⟨h1, h2⟩ | ⟨h1, h2⟩)
              · exact Or.inl ⟨Or.inr h1, h2⟩
              · refine Or.inr ⟨fun w hw => ?_, h2⟩
                rcases hw with ⟨rfl, _⟩ | hw
                · rcases h2 with ⟨h, _⟩ | h2
                  · exact hne h
                  · exact ndS _ h2
                · exact h1 _ hw
            · rintro (⟨⟨rfl, rfl⟩ | h1, h2⟩ | ⟨h1, h2⟩)
              · exact absurd hd h2
              · exact Or.inl ⟨h1, h2⟩
              · exact Or.inr ⟨fun w hw => h1 w (Or.inr hw), h2⟩
          · rw [List.mem_cons, ih]
            simp only [List.mem_cons, Prod.mk.injEq]
            constructor
            · rintro (⟨rfl, rfl⟩ | ⟨h1, h2⟩ | ⟨h1, h2⟩)
              · exact Or.inl ⟨Or.inl ⟨rfl, rfl⟩, hd⟩
              · exact Or.inl ⟨Or.inr h1, h2⟩
              · refine Or.inr ⟨fun w hw => ?_, h2⟩
                rcases hw with ⟨rfl, _⟩ | hw
                · rcases h2 with ⟨h, _⟩ | h2
                  · exact hne h
                  · exact ndS _ h2
                · exact h1 _ hw
            · rintro (⟨⟨rfl, rfl⟩ | h1, h2⟩ | ⟨h1, h2⟩)
              · exact Or.inl ⟨rfl, rfl⟩
              · exact Or.inr (Or.inl ⟨h1, h2⟩)
              · exact Or.inr (Or.inr ⟨fun w hw => h1 w (Or.inr hw), h2⟩)

theorem mergeView_ascending (D : List Entry) : ∀ (S : List Entry),
    KeysAscending D → KeysAscending S → KeysAscending (mergeView D S) := by
  induction D with
  | nil => intro S _ hS; simpa [mergeView] using hS
  | cons d D ihD =>
    intro S
    induction S with
    | nil =>
      intro hD hS
      have ih := ihD [] hD.tail hS
      simp only [mergeView]
      split_ifs with hd
      · exact ih
      · refine List.pairwise_cons.2 ⟨fun e he => ?_, ih⟩
        rcases (mem_mergeView D [] hD.tail hS e.1 e.2).1 he with ⟨h, _⟩ | ⟨_, h⟩
        · exact hD.head_lt _ h
        · simp at h
    | cons s S ihS =>
      intro hD hS
      simp only [mergeView]
      by_cases he : bytesCompare d.1 s.1 = 0
      · have hk : d.1 = s.1 := (bytesCompare_eq_zero_iff _ _).1 he
        have ih := ihD S hD.tail hS.tail
        have hhead : ∀ e ∈ mergeView D S, bytesCompare d.1 e.1 < 0 := by
          intro e hm
          rcases (mem_mergeView D S hD.tail hS.tail e.1 e.2).1 hm with ⟨h, _⟩ | ⟨_, h⟩
          · exact hD.head_lt _ h
          · rw [hk]; exact hS.head_lt _ h
        rw [if_pos he]
        split_ifs with hd
        · exact ih
        · exact List.pairwise_cons.2 ⟨hhead, ih⟩
      · rw [if_neg he]
        by_cases hg : bytesCompare d.1 s.1 > 0
        · have hlt : bytesCompare s.1 d.1 < 0 := (bytesCompare_pos_iff _ _).1 hg
          rw [if_pos hg]
          refine List.pairwise_cons.2 ⟨fun e hm => ?_, ihS hD hS.tail⟩
          rcases (mem_mergeView (d :: D) S hD hS.tail e.1 e.2).1 hm with ⟨h, _⟩ | ⟨_, h⟩
          · rcases List.mem_cons.1 h with h | h
            · rw [← h] at hlt; exact hlt
            · exact bytesCompare_lt_trans hlt (hD.head_lt _ h)
          · exact hS.head_lt _ h
        · have hlt : bytesCompare d.1 s.1 < 0 := by omega
          have ih := ihD (s :: S) hD.tail hS
          have hhead : ∀ e ∈ mergeView D (s :: S), bytesCompare d.1 e.1 < 0 := by
            intro e hm
            rcases (mem_mergeView D (s :: S) hD.tail hS e.1 e.2).1 hm with ⟨h, _⟩ | ⟨_, h⟩
            · exact hD.head_lt _ h
            · rcases List.mem_cons.1 h with h | h
              · rw [← h] at hlt; exact hlt
              · exact bytesCompare_lt_trans hlt (hS.head_lt _ h)
          rw [if_neg hg]
          split_ifs with hd
          · exact ih
          · exact List.pairwise_cons.2 ⟨hhead, ih⟩

/-- In a list with ascending keys, `lookup` finds exactly the pairs of the list. -/
theorem lookup_eq_some_iff_mem (l : List Entry) (h : KeysAscending l) (k v : Bytes) :
    l.lookup k = some v ↔ (k, v) ∈ l := by
  induction l with
  | nil => simp
  | cons e l ih =>
    obtain ⟨ek, ev⟩ := e
    have nd := not_mem_of_lt_head h (Or.inr rfl)
    by_cases hk : k = ek
    · subst hk
      simp only [List.lookup_cons, beq_self_eq_true, Option.some.injEq, List.mem_cons,
        Prod.mk.injEq, true_and]
      constructor
      · intro h1; exact Or.inl h1.symm
      · rintro (h1 | h1)
        · exact h1.symm
        · exact absurd h1 (nd v)
    · have hb : (k == ek) = false := by simpa using hk
      simp only [List.lookup_cons, hb, List.mem_cons, Prod.mk.injEq, hk, false_and, false_or]
      exact ih h.tail

theorem lookup_eq_none_iff_not_mem (l : List Entry) (k : Bytes) :
    l.lookup k = none ↔ ∀ w, (k, w) ∉ l := by
  induction l with
  | nil => simp
  | cons e l ih =>
    obtain ⟨ek, ev⟩ := e
    by_cases hk : k = ek
    · subst hk
      simp only [List.lookup_cons, beq_self_eq_true, List.mem_cons, Prod.mk.injEq, true_and]
      constructor
      · intro h; cases h
      · intro h; exact absurd (Or.inl rfl) (h ev)
    · have hb : (k == ek) = false := by simpa using hk
      simp only [List.lookup_cons, hb, List.mem_cons, Prod.mk.injEq, hk, false_and, false_or]
      exact ih

/-- `mergeView` holds exactly the bindings of the overlay map. -/
theorem mem_mergeView_iff_overlayLookup (D S : List Entry)
    (hD : KeysAscending D) (hS : KeysAscending S) (k v : Bytes) :
    (k, v) ∈ mergeView D S ↔ overlayLookup D S k = some v := by
  rw [mem_mergeView D S hD hS]
  unfold overlayLookup
  cases hl : D.lookup k with
  | none =>
    have hn := (lookup_eq_none_iff_not_mem D k).1 hl
    simp only [lookup_eq_some_iff_mem S hS]
    constructor
    · rintro (⟨h1, _⟩ | ⟨_, h2⟩)
      · exact absurd h1 (hn v)
      · exact h2
    · intro h; exact Or.inr ⟨hn, h⟩
  | some w =>
    have hm := (lookup_eq_some_iff_mem D hD k w).1 hl
    constructor
    · rintro (⟨h1, h2⟩ | ⟨h1, _⟩)
      · have : w = v := by
          have := (lookup_eq_some_iff_mem D hD k v).2 h1
          rw [hl] at this
          exact Option.some.inj this
        subst this
        simp [h2]
      · exact absurd hm (h1 w)
    · intro h
      by_cases hw : w.length = 0
      · simp [hw] at h
      · simp only [hw, if_false, Option.some.injEq] at h
        subst h
        exact Or.inl ⟨hm, hw⟩

/-- C1. For all finite dirty-overlay and snapshot sources with strictly ascending raw
keys, building the UnionIter with newUnionIter and reading (raw key, value) pairs with
Next() until Valid() is false terminates, and what is read is exactly the ascending-key
listing of the map "snapshot overridden by dirty" with the keys whose dirty value is
empty (tombstones) removed. -/
theorem unionIter_scan_lists_overlay_map (dirty snapshot : List Entry)
    (hd : KeysAscending dirty) (hs : KeysAscending snapshot) :
    ∃ out, kv.scanUnion dirty snapshot = some out ∧ KeysAscending out ∧
      ∀ k v, (k, v) ∈ out ↔ overlayLookup dirty snapshot k = some v :=
  ⟨mergeView dirty snapshot, kv.scanUnion_eq_mergeView dirty snapshot,
    mergeView_ascending dirty snapshot hd hs,
    mem_mergeView_iff_overlayLookup dirty snapshot hd hs⟩

/-- The example of the specification: dirty `{k1: tombstone, k2: v2}` over snapshot
`{k1: sv1, k2: sv2, k3: sv3}` reads as `(k2, v2), (k3, sv3)`. -/
theorem unionIter_scan_lists_overlay_map_witness :
    KeysAscending [([1], []), ([2], [20])] ∧
    KeysAscending [([1], [11]), ([2], [12]), ([3], [13])] ∧
    kv.scanUnion [([1], []), ([2], [20])] [([1], [11]), ([2], [12]), ([3], [13])]
      = some [([2], [20]), ([3], [13])] ∧
    ∃ out, kv.scanUnion [([1], []), ([2], [20])] [([1], [11]), ([2], [12]), ([3], [13])]
        = some out ∧ KeysAscending out ∧
      ∀ k v, (k, v) ∈ out ↔
        overlayLookup [([1], []), ([2], [20])] [([1], [11]), ([2], [12]), ([3], [13])] k
          = some v :=
  ⟨by simp [KeysAscending, bytesCompare], by simp [KeysAscending, bytesCompare], by decide,
    unionIter_scan_lists_overlay_map _ _ (by simp [KeysAscending, bytesCompare])
      (by simp [KeysAscending, bytesCompare])⟩

/-! ## `doCommit`: validation gates the write -/

namespace dbTxn

variable {U I S : Type}

/-- The deferred unlocking logs one `unLockKeys` call per locked key. -/
theorem unlockAll_logged (sops : StoreOps S) (keys : List Bytes) (s : S)
    (log : List StoreCall) :
    unlockAll sops.logged keys (s, log)
      = (unlockAll sops keys s, log ++ keys.map StoreCall.unLockKeys) := by
  induction keys generalizing s log with
  | nil => simp [unlockAll]
  | cons k ks ih =>
    simp only [unlockAll, List.foldl_cons, List.map_cons] at ih ⊢
    rw [show (sops.logged.unLockKeys (s, log) k)
        = (sops.unLockKeys s k, log ++ [StoreCall.unLockKeys k]) from rfl, ih]
    simp

/-- The shape of the log that the validation loop leaves: successful calls on a prefix
of the visited pairs, followed by at most one failing call, which ends the loop. -/
theorem lockLoop_logged_shape (sops : StoreOps S) (tID : Int) :
    ∀ (order : List (Bytes × Bytes)) (s : S) (log : List StoreCall) (locked : List Bytes),
    ((lockLoop sops.logged tID order (s, log) locked).1 = none ∧
      (lockLoop sops.logged tID order (s, log) locked).2.1.2
        = log ++ order.map (fun kv => StoreCall.tryConditionLockKey tID kv.1 kv.2 none)) ∨
    (∃ (e : Error) (pre : List (Bytes × Bytes)) (k v : Bytes), (lockLoop sops.logged tID order (s, log) locked).1 = some e ∧
      (k, v) ∈ order ∧
      (lockLoop sops.logged tID order (s, log) locked).2.1.2
        = log ++ pre.map (fun kv => StoreCall.tryConditionLockKey tID kv.1 kv.2 none)
            ++ [StoreCall.tryConditionLockKey tID k v (some e)]) := by
  intro order
  induction order with
  | nil => intro s log locked; left; simp [lockLoop]
  | cons kv rest ih =>
    intro s log locked
    obtain ⟨k, v⟩ := kv
    have hstep : sops.logged.tryConditionLockKey (s, log) tID k v
        = ((sops.tryConditionLockKey s tID k v).1, ((sops.tryConditionLockKey s tID k v).2,
            log ++ [StoreCall.tryConditionLockKey tID k v
              (sops.tryConditionLockKey s tID k v).1])) := rfl
    cases hr : (sops.tryConditionLockKey s tID k v).1 with
    | some e =>
      right
      refine ⟨e, [], k, v, ?_, by simp, ?_⟩
      · simp only [lockLoop, hstep, hr, Trace]
      · simp only [lockLoop, hstep, hr, List.map_nil, List.append_nil]
    | none =>
      have hl : lockLoop sops.logged tID ((k, v) :: rest) (s, log) locked
          = lockLoop sops.logged tID rest ((sops.tryConditionLockKey s tID k v).2,
              log ++ [StoreCall.tryConditionLockKey tID k v none]) (locked ++ [k]) := by
        simp only [lockLoop, hstep, hr]
      rw [hl]
      rcases ih (sops.tryConditionLockKey s tID k v).2
          (log ++ [StoreCall.tryConditionLockKey tID k v none]) (locked ++ [k]) with
        ⟨h1, h2⟩ | ⟨e, pre, k', v', h1, h2, h3⟩
      · left
        refine ⟨h1, ?_⟩
        rw [h2]; simp
      · right
        refine ⟨e, (k, v) :: pre, k', v', h1, List.mem_cons_of_mem _ h2, ?_⟩
        rw [h3]; simp

/-- The log of a whole `doCommit`: either validation fails and the log ends with the
failing call and the unlocking, or every visited pair validates and the staged batch is
written once. -/
theorem doCommit_logged_shape (ops : KVOps U I) (sops : StoreOps S) (txn : dbTxn U)
    (s : S) (order : List (Bytes × Bytes)) :
    (∃ (e : Error) (pre : List (Bytes × Bytes)) (k v : Bytes) (kl : List Bytes),
      (doCommit ops sops.logged txn (s, []) order).1 = some e ∧ (k, v) ∈ order ∧
      (doCommit ops sops.logged txn (s, []) order).2.2
        = [StoreCall.newBatch (sops.newBatch s).1]
          ++ pre.map (fun kv => StoreCall.tryConditionLockKey txn.tID kv.1 kv.2 none)
          ++ [StoreCall.tryConditionLockKey txn.tID k v (some e)]
          ++ kl.map StoreCall.unLockKeys) ∨
    (∃ (r : Option Error) (kl : List Bytes),
      (doCommit ops sops.logged txn (s, []) order).1 = r ∧
      (doCommit ops sops.logged txn (s, []) order).2.2
        = [StoreCall.newBatch (sops.newBatch s).1]
          ++ order.map (fun kv => StoreCall.tryConditionLockKey txn.tID kv.1 kv.2 none)
          ++ [StoreCall.writeBatch
                (stageBatch (sops.newBatch s).1 (ops.DirtyEntries txn.UnionStore)) r]
          ++ kl.map StoreCall.unLockKeys) := by
  have hnb : sops.logged.newBatch (s, [])
      = ((sops.newBatch s).1, ((sops.newBatch s).2, [StoreCall.newBatch (sops.newBatch s).1])) :=
    rfl
  have hshape := lockLoop_logged_shape sops txn.tID order (sops.newBatch s).2
    [StoreCall.newBatch (sops.newBatch s).1] []
  rcases hL : lockLoop sops.logged txn.tID order
      ((sops.newBatch s).2, [StoreCall.newBatch (sops.newBatch s).1]) [] with ⟨err, ⟨st, lg⟩, kl⟩
  rw [hL] at hshape
  simp only at hshape
  rcases hshape with ⟨h1, h2⟩ | ⟨e, pre, k, v, h1, h2, h3⟩
  · right
    subst h1
    refine ⟨(sops.writeBatch st
      (stageBatch (sops.newBatch s).1 (ops.DirtyEntries txn.UnionStore))).1, kl, ?_, ?_⟩
    · simp only [doCommit, hnb, hL]
      rfl
    · simp only [doCommit, hnb, hL]
      rw [show sops.logged.writeBatch (st, lg)
            (stageBatch (sops.newBatch s).1 (ops.DirtyEntries txn.UnionStore))
          = ((sops.writeBatch st
                (stageBatch (sops.newBatch s).1 (ops.DirtyEntries txn.UnionStore))).1,
             ((sops.writeBatch st
                (stageBatch (sops.newBatch s).1 (ops.DirtyEntries txn.UnionStore))).2,
              lg ++ [StoreCall.writeBatch
                (stageBatch (sops.newBatch s).1 (ops.DirtyEntries txn.UnionStore))
                (sops.writeBatch st
                  (stageBatch (sops.newBatch s).1 (ops.DirtyEntries txn.UnionStore))).1])) from rfl]
      simp only [unlockAll_logged, h2]
  · left
    subst h1
    refine ⟨e, pre, k, v, kl, ?_, h2, ?_⟩
    · simp only [doCommit, hnb, hL]
    · simp only [doCommit, hnb, hL, unlockAll_logged, h3]

/-- C2. For a transaction whose read-set pairs are visited in any order by `doCommit`,
run on a store that logs its calls: if some `tryConditionLockKey` call returns an
error, `doCommit` returns an error and `writeBatch` is never called; if no such call
fails, every read-set pair has been validated and `writeBatch` is called exactly once,
with the batch staged from the dirty overlay, and `doCommit` returns its result. -/
theorem doCommit_validation_gates_writeBatch (ops : KVOps U I) (sops : StoreOps S)
    (txn : dbTxn U) (s : S) (order : List (Bytes × Bytes))
    (hperm : order.Perm (txn.snapshotVals.getD [])) :
    ((∃ k v e, StoreCall.tryConditionLockKey txn.tID k v (some e)
          ∈ (doCommit ops sops.logged txn (s, []) order).2.2) →
      (doCommit ops sops.logged txn (s, []) order).1 ≠ none ∧
      ∀ b r, StoreCall.writeBatch b r ∉ (doCommit ops sops.logged txn (s, []) order).2.2) ∧
    ((∀ k v r, StoreCall.tryConditionLockKey txn.tID k v r
          ∈ (doCommit ops sops.logged txn (s, []) order).2.2 → r = none) →
      (∀ kv ∈ txn.snapshotVals.getD [], StoreCall.tryConditionLockKey txn.tID kv.1 kv.2 none
          ∈ (doCommit ops sops.logged txn (s, []) order).2.2) ∧
      (doCommit ops sops.logged txn (s, []) order).2.2.filter StoreCall.isWriteBatch
        = [StoreCall.writeBatch
            (stageBatch (sops.newBatch s).1 (ops.DirtyEntries txn.UnionStore))
            (doCommit ops sops.logged txn (s, []) order).1]) := by
  have hfilter : ∀ (l : List (Bytes × Bytes)),
      (l.map (fun kv => StoreCall.tryConditionLockKey txn.tID kv.1 kv.2 none)).filter
        StoreCall.isWriteBatch = [] := by
    intro l; induction l with
    | nil => rfl
    | cons a l ih => simpa [List.filter, StoreCall.isWriteBatch] using ih
  have hfilter2 : ∀ (l : List Bytes),
      (l.map StoreCall.unLockKeys).filter StoreCall.isWriteBatch = [] := by
    intro l; induction l with
    | nil => rfl
    | cons a l ih => simp [List.filter, StoreCall.isWriteBatch]
  rcases doCommit_logged_shape ops sops txn s order with
    ⟨e, pre, k, v, kl, h1, h2, h3⟩ | ⟨r, kl, h1, h3⟩
  · rw [h1, h3]
    constructor
    · intro _
      refine ⟨by simp, ?_⟩
      intro b r hm
      simp at hm
    · intro h
      have := h k v (some e) (by simp)
      cases this
  · rw [h1, h3]
    constructor
    · rintro ⟨k, v, e, hm⟩
      simp at hm
    · intro _
      constructor
      · intro kv hkv
        have : kv ∈ order := hperm.mem_iff.2 hkv
        simp only [List.mem_append, List.mem_map]
        exact Or.inl (Or.inl (Or.inr ⟨kv, this, rfl⟩))
      · simp [List.filter_append, hfilter, hfilter2, List.filter, StoreCall.isWriteBatch]


/-- The instance of C2 on `exampleTxn` over the logging `exampleStore`. -/
theorem doCommit_validation_gates_writeBatch_witness :
    ([([1], [9])] : List (Bytes × Bytes)).Perm (exampleTxn.snapshotVals.getD []) ∧
    (((∃ k v e, StoreCall.tryConditionLockKey exampleTxn.tID k v (some e)
          ∈ (doCommit (UnionStore.ops id id) dbStore.ops.logged exampleTxn
              (exampleStore, []) [([1], [9])]).2.2) →
      (doCommit (UnionStore.ops id id) dbStore.ops.logged exampleTxn
          (exampleStore, []) [([1], [9])]).1 ≠ none ∧
      ∀ b r, StoreCall.writeBatch b r ∉ (doCommit (UnionStore.ops id id)
          dbStore.ops.logged exampleTxn (exampleStore, []) [([1], [9])]).2.2) ∧
    ((∀ k v r, StoreCall.tryConditionLockKey exampleTxn.tID k v r
          ∈ (doCommit (UnionStore.ops id id) dbStore.ops.logged exampleTxn
              (exampleStore, []) [([1], [9])]).2.2 → r = none) →
      (∀ kv ∈ exampleTxn.snapshotVals.getD [],
        StoreCall.tryConditionLockKey exampleTxn.tID kv.1 kv.2 none
          ∈ (doCommit (UnionStore.ops id id) dbStore.ops.logged exampleTxn
              (exampleStore, []) [([1], [9])]).2.2) ∧
      (doCommit (UnionStore.ops id id) dbStore.ops.logged exampleTxn
          (exampleStore, []) [([1], [9])]).2.2.filter StoreCall.isWriteBatch
        = [StoreCall.writeBatch
            (stageBatch (dbStore.ops.newBatch exampleStore).1
              ((UnionStore.ops id id).DirtyEntries exampleTxn.UnionStore))
            (doCommit (UnionStore.ops id id) dbStore.ops.logged exampleTxn
              (exampleStore, []) [([1], [9])]).1])) :=
  ⟨List.Perm.refl _,
    doCommit_validation_gates_writeBatch (UnionStore.ops id id) dbStore.ops exampleTxn
      exampleStore [([1], [9])] (List.Perm.refl _)⟩

/-- C3, evaluated at the failing input. The read-set holds `[1] ↦ [7]` while the
store holds `[1] ↦ [9]`: `tryConditionLockKey` takes the lock for tID 1 and reports the
mismatch, `doCommit` returns the Conflict error, and since the key was never added to
`keysLocked` the deferred unlocking skips it: the lock table still names tID 1 as the
owner of `[1]` after `doCommit` has returned. -/
theorem doCommit_leaves_failed_key_locked :
    doCommit (UnionStore.ops id id) dbStore.ops staleTxn exampleStore [([1], [7])]
      = (some Error.ErrConflict,
          { db := [([1], [9])], lastID := 1, keysLocked := [([1], 1)] }) := by
  decide


/-! ## Conflicts on recorded keys -/

theorem lookup_append_new (m : List (Bytes × Bytes)) (k v : Bytes)
    (h : m.lookup k = none) : (m ++ [(k, v)]).lookup k = some v := by
  induction m with
  | nil => simp [List.lookup]
  | cons e m ih =>
    obtain ⟨ek, ev⟩ := e
    by_cases hk : k = ek
    · subst hk; simp [List.lookup] at h
    · have hb : (k == ek) = false := by simpa using hk
      simp only [List.cons_append, List.lookup_cons, hb] at h ⊢
      exact ih h

/-- `markOrigin` keeps the Active flag, and when it returns nil on a transaction whose
read-set map exists, the key is in the read-set afterwards. -/
theorem markOrigin_records (ops : KVOps U I) (txn : dbTxn U) (k : Bytes) :
    (markOrigin ops txn k).2.valid = txn.valid ∧
    (txn.snapshotVals ≠ none → (markOrigin ops txn k).1 = none →
      ∃ v, ((markOrigin ops txn k).2.snapshotVals.getD []).lookup k = some v) := by
  unfold markOrigin
  cases hl : (txn.snapshotVals.getD []).lookup k with
  | some v => exact ⟨rfl, fun _ _ => ⟨v, hl⟩⟩
  | none =>
    cases hm : txn.snapshotVals with
    | none =>
      refine ⟨?_, fun h => absurd rfl h⟩
      simp only
      cases (ops.SnapshotGet txn.UnionStore k).1 with
      | error err => by_cases he : IsErrNotFound err <;> simp [he, hm]
      | ok val => simp [hm]
    | some m =>
      have hl' : m.lookup k = none := by simpa [hm] using hl
      simp only
      cases (ops.SnapshotGet txn.UnionStore k).1 with
      | error err =>
        by_cases he : IsErrNotFound err
        · simp only [he, Bool.not_true, Bool.false_eq_true, if_false, hm]
          exact ⟨trivial, fun _ _ => ⟨[], by simpa using lookup_append_new m k [] hl'⟩⟩
        · simp only [he, Bool.not_false, if_true]
          exact ⟨trivial, fun _ h => by cases h⟩
      | ok val =>
        simp only [hm]
        exact ⟨trivial, fun _ _ => ⟨val, by simpa using lookup_append_new m k val hl'⟩⟩


/-- `Inc` touches the read-set and the Active flag only through its `markOrigin`
call, and it returns a nil error only if that call did. -/
theorem Inc_readSet (ops : KVOps U I) (txn : dbTxn U) (k : Bytes) (step : Int) :
    (Inc ops txn k step).2.valid = (markOrigin ops txn (ops.EncodeKey k)).2.valid ∧
    (Inc ops txn k step).2.snapshotVals
      = (markOrigin ops txn (ops.EncodeKey k)).2.snapshotVals ∧
    ((Inc ops txn k step).1.2 = none → (markOrigin ops txn (ops.EncodeKey k)).1 = none) := by
  unfold Inc
  rcases hmo : markOrigin ops txn (ops.EncodeKey k) with ⟨err, t⟩
  cases err with
  | some e => simp [hmo]
  | none =>
    simp only [hmo]
    split
    · split
      · split <;> simp
      · simp
    · split
      · simp
      · split <;> simp

/-- `LockKeys` on a single key is its `markOrigin` call. -/
theorem LockKeys_single (ops : KVOps U I) (txn : dbTxn U) (k : Bytes) :
    LockKeys ops txn [k] = markOrigin ops txn (ops.EncodeKey k) := by
  unfold LockKeys
  rcases hmo : markOrigin ops txn (ops.EncodeKey k) with ⟨err, t⟩
  cases err <;> simp [LockKeys, hmo]

/-! ### The specified store under validation -/

theorem tryConditionLockKey_db (s : dbStore) (tID : Int) (k v : Bytes) :
    (dbStore.tryConditionLockKey s tID k v).2.db = s.db ∧
    ((dbStore.tryConditionLockKey s tID k v).1 = none ∨
      (dbStore.tryConditionLockKey s tID k v).1 = some Error.ErrConflict) ∧
    (engineGet s.db k ≠ v →
      (dbStore.tryConditionLockKey s tID k v).1 = some Error.ErrConflict) := by
  unfold dbStore.tryConditionLockKey
  cases s.keysLocked.lookup k with
  | none =>
    simp only
    by_cases h : engineGet s.db k = v <;> simp [h]
  | some owner =>
    simp only
    by_cases ho : owner = tID <;> by_cases h : engineGet s.db k = v <;> simp [ho, h]

theorem unlockAll_db (keys : List Bytes) (s : dbStore) :
    (unlockAll dbStore.ops keys s).db = s.db := by
  induction keys generalizing s with
  | nil => rfl
  | cons k ks ih =>
    simp only [unlockAll, List.foldl_cons] at ih ⊢
    rw [ih]
    rfl

/-- On the specified store the validation loop never changes the engine, fails only
with Conflict, and does fail when a visited pair no longer matches the engine. -/
theorem lockLoop_dbStore (tID : Int) :
    ∀ (order : List (Bytes × Bytes)) (s : dbStore) (locked : List Bytes),
    (lockLoop dbStore.ops tID order s locked).2.1.db = s.db ∧
    ((lockLoop dbStore.ops tID order s locked).1 = none ∨
      (lockLoop dbStore.ops tID order s locked).1 = some Error.ErrConflict) ∧
    ((∃ kv ∈ order, engineGet s.db kv.1 ≠ kv.2) →
      (lockLoop dbStore.ops tID order s locked).1 = some Error.ErrConflict) := by
  intro order
  induction order with
  | nil => intro s locked; simp [lockLoop]
  | cons kv rest ih =>
    intro s locked
    obtain ⟨k, v⟩ := kv
    obtain ⟨h1, h2, h3⟩ := tryConditionLockKey_db s tID k v
    have hops : dbStore.ops.tryConditionLockKey s tID k v
        = dbStore.tryConditionLockKey s tID k v := rfl
    rcases hr : dbStore.tryConditionLockKey s tID k v with ⟨err, s'⟩
    rw [hr] at h1 h2 h3
    simp only at h1 h2 h3
    cases err with
    | some e =>
      have he : e = Error.ErrConflict := by
        rcases h2 with h | h
        · cases h
        · exact Option.some.inj h
      subst he
      simp only [lockLoop, hops, hr, Trace]
      exact ⟨h1, Or.inr trivial, fun _ => trivial⟩
    | none =>
      simp only [lockLoop, hops, hr]
      obtain ⟨i1, i2, i3⟩ := ih s' (locked ++ [k])
      refine ⟨i1.trans h1, i2, ?_⟩
      rintro ⟨kv, hmem, hne⟩
      rcases List.mem_cons.1 hmem with rfl | hmem
      · exact absurd (h3 hne) (by simp)
      · exact i3 ⟨kv, hmem, by rw [h1]; exact hne⟩

/-- On the specified store, a `Commit` of an Active transaction whose visited read-set
pairs include one that no longer matches the engine returns Conflict and leaves the
engine as it was. -/
theorem Commit_conflict_of_stale (ops : KVOps U I) (txn : dbTxn U) (s : dbStore)
    (order : List (Bytes × Bytes)) (hvalid : txn.valid = true)
    (hstale : ∃ kv ∈ order, engineGet s.db kv.1 ≠ kv.2) :
    (Commit ops dbStore.ops txn s order).1 = some Error.ErrConflict ∧
    (Commit ops dbStore.ops txn s order).2.2.db = s.db := by
  obtain ⟨h1, _, h3⟩ := lockLoop_dbStore txn.tID order s []
  have h3 := h3 hstale
  have hnb : dbStore.ops.newBatch s = ([], s) := rfl
  rcases hL : lockLoop dbStore.ops txn.tID order s [] with ⟨err, s', kl⟩
  rw [hL] at h1 h3
  simp only at h1 h3
  subst h3
  simp only [Commit, hvalid, Bool.not_true, Bool.false_eq_true, if_false, doCommit, hnb, hL]
  exact ⟨trivial, (unlockAll_db kl s').trans h1⟩

/-- C4. If an Active transaction records key k in its read-set through LockKeys(k) or
through Inc(k, step), the transaction stays Active with k in the read-set; and whenever
the read-set of an Active transaction holds a value for the encoded k that differs from
the store's current value at commit time, Commit returns the Conflict error and the
engine is left unchanged (none of the overlay writes is applied), in whatever order the
read-set is visited. -/
theorem commit_conflict_on_changed_recorded_key (ops : KVOps U I) (txn : dbTxn U)
    (k : Bytes) (step : Int) (hvalid : txn.valid = true) (hmap : txn.snapshotVals ≠ none) :
    ((LockKeys ops txn [k]).1 = none →
      (LockKeys ops txn [k]).2.valid = true ∧
      ∃ v, ((LockKeys ops txn [k]).2.snapshotVals.getD []).lookup (ops.EncodeKey k)
        = some v) ∧
    ((Inc ops txn k step).1.2 = none →
      (Inc ops txn k step).2.valid = true ∧
      ∃ v, ((Inc ops txn k step).2.snapshotVals.getD []).lookup (ops.EncodeKey k)
        = some v) ∧
    (∀ (t : dbTxn U) (v : Bytes) (s : dbStore) (order : List (Bytes × Bytes)),
      t.valid = true → (t.snapshotVals.getD []).lookup (ops.EncodeKey k) = some v →
      order.Perm (t.snapshotVals.getD []) → engineGet s.db (ops.EncodeKey k) ≠ v →
      (Commit ops dbStore.ops t s order).1 = some Error.ErrConflict ∧
      (Commit ops dbStore.ops t s order).2.2.db = s.db) := by
  obtain ⟨m1, m2⟩ := markOrigin_records ops txn (ops.EncodeKey k)
  obtain ⟨i1, i2, i3⟩ := Inc_readSet ops txn k step
  refine ⟨?_, ?_, ?_⟩
  · rw [LockKeys_single]
    intro h
    exact ⟨m1.trans hvalid, m2 hmap h⟩
  · intro h
    rw [i1, i2]
    exact ⟨m1.trans hvalid, m2 hmap (i3 h)⟩
  · intro t v s order hv hl hperm hne
    refine Commit_conflict_of_stale ops t s order hv ⟨(ops.EncodeKey k, v), ?_, hne⟩
    refine hperm.mem_iff.2 ?_
    generalize t.snapshotVals.getD [] = m at hl
    induction m with
    | nil => simp at hl
    | cons e m ih =>
      obtain ⟨ek, ev⟩ := e
      by_cases hk : ops.EncodeKey k = ek
      · subst hk
        simp only [List.lookup_cons, beq_self_eq_true, Option.some.injEq] at hl
        subst hl
        exact List.mem_cons_self _ _
      · have hb : (ops.EncodeKey k == ek) = false := by simpa using hk
        simp only [List.lookup_cons, hb] at hl
        exact List.mem_cons_of_mem _ (ih hl)


/-- The instance of C4 on `freshTxn`, key `[1]` and step 1, together with the
specification's scenario run with `LockKeys`: T2's commit fails with Conflict and the
unrelated key `[2]` is absent from the store afterwards. -/
theorem commit_conflict_on_changed_recorded_key_witness :
    freshTxn.valid = true ∧ freshTxn.snapshotVals ≠ none ∧
    lockKeysScenario.2.1 = some Error.ErrConflict ∧
    engineGet lockKeysScenario.2.2.db [2] = [] ∧
    (((LockKeys (UnionStore.ops id id) freshTxn [[1]]).1 = none →
      (LockKeys (UnionStore.ops id id) freshTxn [[1]]).2.valid = true ∧
      ∃ v, ((LockKeys (UnionStore.ops id id) freshTxn [[1]]).2.snapshotVals.getD []).lookup
        ((UnionStore.ops id id).EncodeKey [1]) = some v) ∧
    ((Inc (UnionStore.ops id id) freshTxn [1] 1).1.2 = none →
      (Inc (UnionStore.ops id id) freshTxn [1] 1).2.valid = true ∧
      ∃ v, ((Inc (UnionStore.ops id id) freshTxn [1] 1).2.snapshotVals.getD []).lookup
        ((UnionStore.ops id id).EncodeKey [1]) = some v) ∧
    (∀ (t : dbTxn AlloyDB.UnionStore) (v : Bytes) (s : dbStore) (order : List (Bytes × Bytes)),
      t.valid = true →
      (t.snapshotVals.getD []).lookup ((UnionStore.ops id id).EncodeKey [1]) = some v →
      order.Perm (t.snapshotVals.getD []) →
      engineGet s.db ((UnionStore.ops id id).EncodeKey [1]) ≠ v →
      (Commit (UnionStore.ops id id) dbStore.ops t s order).1 = some Error.ErrConflict ∧
      (Commit (UnionStore.ops id id) dbStore.ops t s order).2.2.db = s.db)) :=
  ⟨rfl, by decide, by decide, by decide,
    commit_conflict_on_changed_recorded_key (UnionStore.ops id id) freshTxn [1] 1 rfl
      (by decide)⟩

/-! ## Reads through `Get` are not validated -/

/-- C5, refuted at the specification's scenario: with T2 having read the key through
`Get` only, T1's commit succeeds, and then T2's commit also returns nil instead of
the Conflict error, and the unrelated key `[2]` that T2 wrote is present in the
store afterwards (as is T2's value for the contended key). -/
theorem get_only_scenario_commits :
    getOnlyScenario.1 = none ∧ getOnlyScenario.2.1 = none ∧
    getOnlyScenario.2.1 ≠ some Error.ErrConflict ∧
    engineGet getOnlyScenario.2.2.db [2] = [99] ∧
    engineGet getOnlyScenario.2.2.db [1] = [98] := by
  decide

/-- On the specified store, an empty validation loop followed by the deferred
unlocking leaves the store as it was. -/
theorem doCommit_empty_readSet (ops : KVOps U I) (t : dbTxn U) (s : dbStore) :
    doCommit ops dbStore.ops t s []
      = (none, { s with db := (engineWrite s.db (stageBatch [] (ops.DirtyEntries t.UnionStore))) }) := by
  rfl

/-- C5, amended. `Get` and `Set` leave the read-set and the Active flag as they are,
so a transaction that has only used them still has the empty read-set it began with;
the Commit of an Active transaction with an empty read-set validates nothing: on the
specified store it returns nil, whatever other transactions have committed meanwhile,
closes the transaction and applies exactly the staged overlay to the engine. -/
theorem commit_with_empty_readSet_succeeds (ops : KVOps U I) (t : dbTxn U) (s : dbStore)
    (order : List (Bytes × Bytes)) (k : Bytes)
    (hvalid : t.valid = true) (hrs : t.snapshotVals = some [])
    (hperm : order.Perm (t.snapshotVals.getD [])) :
    (Get ops t k).2.snapshotVals = some [] ∧ (Get ops t k).2.valid = true ∧
    (∀ data, (Set ops t k data).2.snapshotVals = some [] ∧
      (Set ops t k data).2.valid = true) ∧
    Commit ops dbStore.ops t s order
      = (none, close ops t,
          { s with db := (engineWrite s.db (stageBatch [] (ops.DirtyEntries t.UnionStore))) }) := by
  have ho : order = [] := by
    rw [hrs] at hperm
    exact List.Perm.eq_nil hperm
  subst ho
  refine ⟨?_, ?_, ?_, ?_⟩
  · unfold Get
    simp only
    split
    · split <;> exact hrs
    · split <;> exact hrs
  · unfold Get
    simp only
    split
    · split <;> exact hvalid
    · split <;> exact hvalid
  · intro data
    unfold Set
    split
    · exact ⟨hrs, hvalid⟩
    · exact ⟨hrs, hvalid⟩
  · simp only [Commit, hvalid, Bool.not_true, Bool.false_eq_true, if_false,
      doCommit_empty_readSet]

/-- The instance of the amended C5 on `freshTxn`. -/
theorem commit_with_empty_readSet_succeeds_witness :
    freshTxn.valid = true ∧ freshTxn.snapshotVals = some [] ∧
    ([] : List (Bytes × Bytes)).Perm (freshTxn.snapshotVals.getD []) ∧
    ((Get (UnionStore.ops id id) freshTxn [1]).2.snapshotVals = some [] ∧
    (Get (UnionStore.ops id id) freshTxn [1]).2.valid = true ∧
    (∀ data, (Set (UnionStore.ops id id) freshTxn [1] data).2.snapshotVals = some [] ∧
      (Set (UnionStore.ops id id) freshTxn [1] data).2.valid = true) ∧
    Commit (UnionStore.ops id id) dbStore.ops freshTxn exampleStore []
      = (none, close (UnionStore.ops id id) freshTxn,
          { exampleStore with db := (engineWrite exampleStore.db
              (stageBatch [] ((UnionStore.ops id id).DirtyEntries freshTxn.UnionStore))) })) :=
  ⟨rfl, rfl, List.Perm.refl _,
    commit_with_empty_readSet_succeeds (UnionStore.ops id id) freshTxn exampleStore [] [1]
      rfl rfl (List.Perm.refl _)⟩


/-! ## The Closed state -/

/-- `markOrigin` does not read the `valid` flag. -/
theorem markOrigin_valid_irrelevant (ops : KVOps U I) (txn : dbTxn U) (k : Bytes) (b : Bool) :
    markOrigin ops { txn with valid := b } k
      = ((markOrigin ops txn k).1, { (markOrigin ops txn k).2 with valid := b }) := by
  unfold markOrigin
  simp only
  cases (txn.snapshotVals.getD []).lookup k with
  | some v => rfl
  | none =>
    simp only
    cases (ops.SnapshotGet txn.UnionStore k).1 with
    | error err =>
      simp only
      by_cases he : IsErrNotFound err
      · simp only [he, Bool.not_true, Bool.false_eq_true, if_false]
        cases txn.snapshotVals <;> rfl
      · simp only [he, Bool.not_false, if_true]
    | ok val =>
      simp only
      cases txn.snapshotVals <;> rfl

/-- `LockKeys` does not read the `valid` flag. -/
theorem LockKeys_valid_irrelevant (ops : KVOps U I) (keys : List Bytes) :
    ∀ (txn : dbTxn U) (b : Bool), LockKeys ops { txn with valid := b } keys
      = ((LockKeys ops txn keys).1, { (LockKeys ops txn keys).2 with valid := b }) := by
  induction keys with
  | nil => intro txn b; rfl
  | cons key keys ih =>
    intro txn b
    simp only [LockKeys]
    rw [markOrigin_valid_irrelevant]
    rcases markOrigin ops txn (ops.EncodeKey key) with ⟨err, t⟩
    cases err with
    | some e => rfl
    | none => exact ih t b

/-- `Inc` does not read the `valid` flag. -/
theorem Inc_valid_irrelevant (ops : KVOps U I) (txn : dbTxn U) (k : Bytes) (step : Int)
    (b : Bool) :
    Inc ops { txn with valid := b } k step
      = ((Inc ops txn k step).1, { (Inc ops txn k step).2 with valid := b }) := by
  unfold Inc
  simp only
  rw [markOrigin_valid_irrelevant]
  rcases markOrigin ops txn (ops.EncodeKey k) with ⟨err, t⟩
  cases err with
  | some e => rfl
  | none =>
    simp only
    split
    · split
      · split <;> rfl
      · rfl
    · split
      · rfl
      · split <;> rfl

/-- `Get`, `Set`, `Delete` and `Seek` do not read the `valid` flag. -/
theorem Get_valid_irrelevant (ops : KVOps U I) (txn : dbTxn U) (k : Bytes) (b : Bool) :
    Get ops { txn with valid := b } k
      = ((Get ops txn k).1, { (Get ops txn k).2 with valid := b }) := by
  unfold Get
  simp only
  split
  · split <;> rfl
  · split <;> rfl

theorem Set_valid_irrelevant (ops : KVOps U I) (txn : dbTxn U) (k data : Bytes) (b : Bool) :
    Set ops { txn with valid := b } k data
      = ((Set ops txn k data).1, { (Set ops txn k data).2 with valid := b }) := by
  unfold Set
  split <;> rfl

theorem Delete_valid_irrelevant (ops : KVOps U I) (txn : dbTxn U) (k : Bytes) (b : Bool) :
    Delete ops { txn with valid := b } k
      = ((Delete ops txn k).1, { (Delete ops txn k).2 with valid := b }) := by
  rfl

theorem Seek_valid_irrelevant (ops : KVOps U I) (txn : dbTxn U) (k : Bytes)
    (f : Option (Bytes → Bool)) (b : Bool) :
    Seek ops { txn with valid := b } k f
      = ((Seek ops txn k f).1, { (Seek ops txn k f).2 with valid := b }) := by
  unfold Seek
  simp only
  split
  · rfl
  · split
    · rfl
    · split
      · rfl
      · split
        · rfl
        · split <;> rfl


/-- C6, refuted on a transaction closed by `Rollback`: `Set` with empty data still
returns `ErrCannotSetNilValue`, not `ErrInvalidTxn`, and `LockKeys` without keys returns
nil. -/
theorem closed_txn_set_is_not_invalid_state :
    (Rollback (UnionStore.ops id id) freshTxn).1 = none ∧ closedTxn.valid = false ∧
    (Set (UnionStore.ops id id) closedTxn [1] []).1 = some Error.ErrCannotSetNilValue ∧
    (Set (UnionStore.ops id id) closedTxn [1] []).1 ≠ some Error.ErrInvalidTxn ∧
    (LockKeys (UnionStore.ops id id) closedTxn []).1 = none := by
  decide

/-- C6, amended. On a Closed transaction `Commit` and `Rollback` return
`ErrInvalidTxn` and change nothing, while `Get`, `Set`, `Delete`, `Inc`, `Seek` and
`LockKeys` never look at the Closed state: each returns what it returns on the
transaction with the same fields and the flag set, and leaves the flag cleared; in
particular `Set` with empty data returns `ErrCannotSetNilValue`. -/
theorem closed_state_checked_only_by_commit_and_rollback (ops : KVOps U I)
    (sops : StoreOps S) (txn : dbTxn U) (s : S) (order : List (Bytes × Bytes))
    (k data : Bytes) (step : Int) (keys : List Bytes) (f : Option (Bytes → Bool)) :
    Commit ops sops { txn with valid := false } s order
      = (some Error.ErrInvalidTxn, { txn with valid := false }, s) ∧
    Rollback ops { txn with valid := false }
      = (some Error.ErrInvalidTxn, { txn with valid := false }) ∧
    Get ops { txn with valid := false } k
      = ((Get ops { txn with valid := true } k).1,
          { (Get ops { txn with valid := true } k).2 with valid := false }) ∧
    Set ops { txn with valid := false } k data
      = ((Set ops { txn with valid := true } k data).1,
          { (Set ops { txn with valid := true } k data).2 with valid := false }) ∧
    Delete ops { txn with valid := false } k
      = ((Delete ops { txn with valid := true } k).1,
          { (Delete ops { txn with valid := true } k).2 with valid := false }) ∧
    Inc ops { txn with valid := false } k step
      = ((Inc ops { txn with valid := true } k step).1,
          { (Inc ops { txn with valid := true } k step).2 with valid := false }) ∧
    Seek ops { txn with valid := false } k f
      = ((Seek ops { txn with valid := true } k f).1,
          { (Seek ops { txn with valid := true } k f).2 with valid := false }) ∧
    LockKeys ops { txn with valid := false } keys
      = ((LockKeys ops { txn with valid := true } keys).1,
          { (LockKeys ops { txn with valid := true } keys).2 with valid := false }) ∧
    (Set ops { txn with valid := false } k []).1 = some Error.ErrCannotSetNilValue := by
  refine ⟨rfl, rfl, ?_, ?_, ?_, ?_, ?_, ?_, rfl⟩
  · rw [Get_valid_irrelevant ops txn k false, Get_valid_irrelevant ops txn k true]
  · rw [Set_valid_irrelevant ops txn k data false, Set_valid_irrelevant ops txn k data true]
  · rfl
  · rw [Inc_valid_irrelevant ops txn k step false, Inc_valid_irrelevant ops txn k step true]
  · rw [Seek_valid_irrelevant ops txn k f false, Seek_valid_irrelevant ops txn k f true]
  · rw [LockKeys_valid_irrelevant ops keys txn false, LockKeys_valid_irrelevant ops keys txn true]

/-- C7. On a transaction that is already Closed, `Commit` and `Rollback` each return
`ErrInvalidTxn` and hand back the transaction and the store exactly as they were; run
over a logging store and a logging union store, neither log grows: no lock is taken,
no batch is created or written and `UnionStore.Close` is not called again. -/
theorem commit_rollback_on_closed_change_nothing (ops : KVOps U I) (sops : StoreOps S)
    (txn : dbTxn U) (s : S) (order : List (Bytes × Bytes)) (ulog : List KVCall)
    (slog : List StoreCall) (hclosed : txn.valid = false) :
    Commit ops sops txn s order = (some Error.ErrInvalidTxn, txn, s) ∧
    Rollback ops txn = (some Error.ErrInvalidTxn, txn) ∧
    Commit ops.logged sops.logged
        { UnionStore := (txn.UnionStore, ulog), tID := txn.tID, valid := txn.valid,
          snapshotVals := txn.snapshotVals } (s, slog) order
      = (some Error.ErrInvalidTxn,
          { UnionStore := (txn.UnionStore, ulog), tID := txn.tID, valid := txn.valid,
            snapshotVals := txn.snapshotVals }, (s, slog)) ∧
    Rollback ops.logged
        { UnionStore := (txn.UnionStore, ulog), tID := txn.tID, valid := txn.valid,
          snapshotVals := txn.snapshotVals }
      = (some Error.ErrInvalidTxn,
          { UnionStore := (txn.UnionStore, ulog), tID := txn.tID, valid := txn.valid,
            snapshotVals := txn.snapshotVals }) := by
  simp [Commit, Rollback, hclosed]

/-- The instance of C7 on `closedTxn` and `exampleStore`. -/
theorem commit_rollback_on_closed_change_nothing_witness :
    closedTxn.valid = false ∧
    Commit (UnionStore.ops id id) dbStore.ops closedTxn exampleStore []
      = (some Error.ErrInvalidTxn, closedTxn, exampleStore) ∧
    Rollback (UnionStore.ops id id) closedTxn = (some Error.ErrInvalidTxn, closedTxn) :=
  ⟨rfl,
    (commit_rollback_on_closed_change_nothing (UnionStore.ops id id) dbStore.ops closedTxn
      exampleStore [] [] [] rfl).1,
    (commit_rollback_on_closed_change_nothing (UnionStore.ops id id) dbStore.ops closedTxn
      exampleStore [] [] [] rfl).2.1⟩

/-- C8. For every Active transaction, over any store and any union store (logging its
calls), after `Commit` the transaction is Closed: `valid` is false, the read-set is
the nil map, and the union store received exactly one call, `Close`; the error and the
store that `Commit` returns are exactly those of `doCommit`. -/
theorem commit_always_closes (ops : KVOps U I) (sops : StoreOps S)
    (txn : dbTxn (U × List KVCall)) (s : S) (order : List (Bytes × Bytes))
    (hactive : txn.valid = true) :
    (Commit ops.logged sops txn s order).2.1.valid = false ∧
    (Commit ops.logged sops txn s order).2.1.snapshotVals = none ∧
    (Commit ops.logged sops txn s order).2.1.UnionStore
      = (ops.Close txn.UnionStore.1, txn.UnionStore.2 ++ [KVCall.Close]) ∧
    (Commit ops.logged sops txn s order).1 = (doCommit ops.logged sops txn s order).1 ∧
    (Commit ops.logged sops txn s order).2.2 = (doCommit ops.logged sops txn s order).2 := by
  have hc : Commit ops.logged sops txn s order
      = ((doCommit ops.logged sops txn s order).1, close ops.logged txn,
          (doCommit ops.logged sops txn s order).2) := by
    simp [Commit, hactive]
  rw [hc]
  exact ⟨rfl, rfl, rfl, rfl, rfl⟩

/-- The instance of C8 on `exampleTxn`, whose commit succeeds, and on `staleTxn`,
whose commit fails with Conflict: both end Closed after a single `Close`. -/
theorem commit_always_closes_witness :
    exampleTxn.valid = true ∧
    (Commit (UnionStore.ops id id).logged dbStore.ops
      { UnionStore := (exampleTxn.UnionStore, []), tID := 1, valid := true,
        snapshotVals := exampleTxn.snapshotVals } exampleStore [([1], [9])]).1 = none ∧
    (Commit (UnionStore.ops id id).logged dbStore.ops
      { UnionStore := (staleTxn.UnionStore, []), tID := 1, valid := true,
        snapshotVals := staleTxn.snapshotVals } exampleStore [([1], [7])]).1
      = some Error.ErrConflict ∧
    (Commit (UnionStore.ops id id).logged dbStore.ops
      { UnionStore := (exampleTxn.UnionStore, []), tID := 1, valid := true,
        snapshotVals := exampleTxn.snapshotVals } exampleStore [([1], [9])]).2.1.valid
      = false ∧
    (Commit (UnionStore.ops id id).logged dbStore.ops
      { UnionStore := (staleTxn.UnionStore, []), tID := 1, valid := true,
        snapshotVals := staleTxn.snapshotVals } exampleStore [([1], [7])]).2.1.UnionStore.2
      = [KVCall.Close] :=
  ⟨rfl, by decide, by decide,
    (commit_always_closes (UnionStore.ops id id) dbStore.ops
      { UnionStore := (exampleTxn.UnionStore, []), tID := 1, valid := true,
        snapshotVals := exampleTxn.snapshotVals } exampleStore [([1], [9])] rfl).1,
    by
      have h := (commit_always_closes (UnionStore.ops id id) dbStore.ops
        { UnionStore := (staleTxn.UnionStore, []), tID := 1, valid := true,
          snapshotVals := staleTxn.snapshotVals } exampleStore [([1], [7])] rfl).2.2.1
      rw [h]
      rfl⟩


/-! ## `Get` and `Set` -/

/-- C9. For every key and every result of `UnionStore.Get`, `dbTxn.Get` never returns
a zero-length value with a nil error: it returns `kv.ErrNotExist` exactly when the
underlying lookup reports not-found or yields a zero-length value, passes any other
error through unchanged, and otherwise returns the non-empty value unchanged. -/
theorem Get_never_returns_empty_value (ops : KVOps U I) (txn : dbTxn U) (k : Bytes) :
    (Get ops txn k).1 ≠ Except.ok [] ∧
    ((Get ops txn k).1 = Except.error Error.ErrNotExist ↔
      ((∃ e, (ops.Get txn.UnionStore (ops.EncodeKey k)).1 = Except.error e ∧
          IsErrNotFound e = true) ∨
        (ops.Get txn.UnionStore (ops.EncodeKey k)).1 = Except.ok [])) ∧
    (∀ e, (ops.Get txn.UnionStore (ops.EncodeKey k)).1 = Except.error e →
      IsErrNotFound e = false → (Get ops txn k).1 = Except.error e) ∧
    (∀ v, (ops.Get txn.UnionStore (ops.EncodeKey k)).1 = Except.ok v → v ≠ [] →
      (Get ops txn k).1 = Except.ok v) := by
  unfold Get
  simp only
  cases hu : (ops.Get txn.UnionStore (ops.EncodeKey k)).1 with
  | error e =>
    by_cases he : IsErrNotFound e = true
    · simp only [he, if_true]
      refine ⟨by simp, ⟨fun _ => Or.inl ⟨e, rfl, he⟩, fun _ => trivial⟩, ?_, ?_⟩
      · intro e' h1 h2
        cases h1
        rw [he] at h2
        cases h2
      · intro v h1
        cases h1
    · simp only [he, if_false]
      refine ⟨by simp, ⟨?_, ?_⟩, ?_, ?_⟩
      · intro h
        cases h
        exact absurd rfl he
      · rintro (⟨e', h1, h2⟩ | h1)
        · cases h1
          exact absurd h2 he
        · cases h1
      · intro e' h1 _
        cases h1
        rfl
      · intro v h1
        cases h1
  | ok v =>
    by_cases hv : v.length = 0
    · have hv' : v = [] := List.length_eq_zero.1 hv
      subst hv'
      simp only [List.length_nil, if_true]
      refine ⟨by simp, ⟨fun _ => Or.inr (trivial), fun _ => trivial⟩, ?_, ?_⟩
      · intro e h1
        cases h1
      · intro v h1 h2
        cases h1
        exact absurd rfl h2
    · have hv' : v ≠ [] := fun h => hv (by rw [h]; rfl)
      simp only [hv, if_false]
      refine ⟨?_, ⟨?_, ?_⟩, ?_, ?_⟩
      · intro h
        cases h
        exact hv' rfl
      · intro h
        cases h
      · rintro (⟨e', h1, _⟩ | h1)
        · cases h1
        · cases h1
          exact absurd rfl hv'
      · intro e h1
        cases h1
      · intro w h1 _
        cases h1
        rfl

/-- C10. `dbTxn.Set(k, data)` with data of length zero returns `ErrCannotSetNilValue`
and hands back the transaction exactly as it was (overlay, read-set and Active flag
unchanged); over a logging union store the log does not grow, so `UnionStore.Set` is
not called. For non-empty data it returns exactly what
`UnionStore.Set(EncodeKey(k), data)` returns, and only the union store changes. -/
theorem Set_rejects_empty_data (ops : KVOps U I) (txn : dbTxn U)
    (ltxn : dbTxn (U × List KVCall)) (k data : Bytes) :
    (data.length = 0 →
      Set ops txn k data = (some Error.ErrCannotSetNilValue, txn) ∧
      Set ops.logged ltxn k data = (some Error.ErrCannotSetNilValue, ltxn)) ∧
    (data.length ≠ 0 →
      (Set ops txn k data).1 = (ops.Set txn.UnionStore (ops.EncodeKey k) data).1 ∧
      (Set ops txn k data).2
        = { txn with UnionStore := (ops.Set txn.UnionStore (ops.EncodeKey k) data).2 } ∧
      (Set ops.logged ltxn k data).2.UnionStore.2
        = ltxn.UnionStore.2 ++ [KVCall.Set (ops.EncodeKey k) data]) := by
  constructor
  · intro h
    simp [Set, h]
  · intro h
    simp only [Set, h, if_false]
    exact ⟨trivial, trivial, rfl⟩


/-! ## `Inc` as a counter -/

theorem parseDigits_append (acc : Nat) (xs ys : List Nat) :
    parseDigits acc (xs ++ ys) = (parseDigits acc xs).bind (fun a => parseDigits a ys) := by
  induction xs generalizing acc with
  | nil => rfl
  | cons c cs ih =>
    simp only [List.cons_append, parseDigits]
    split_ifs
    · exact ih _
    · rfl

/-- With enough fuel the digits of `n` are a non-empty string of decimal digits that
reads back as `n`. -/
theorem decimalDigits_spec : ∀ (fuel n : Nat), n < fuel →
    parseDigits 0 (decimalDigits fuel n) = some n ∧
    ∃ c cs, decimalDigits fuel n = c :: cs ∧ 48 ≤ c ∧ c ≤ 57 := by
  intro fuel
  induction fuel with
  | zero => intro n h; omega
  | succ f ih =>
    intro n h
    simp only [decimalDigits]
    by_cases hn : n < 10
    · rw [if_pos hn]
      refine ⟨?_, 48 + n, [], rfl, by omega, by omega⟩
      simp only [parseDigits]
      rw [if_pos (by omega)]
      congr 1
      omega
    · rw [if_neg hn]
      obtain ⟨h1, c, cs, h2, h3, h4⟩ := ih (n / 10) (by omega)
      refine ⟨?_, c, cs ++ [48 + n % 10], by rw [h2]; rfl, h3, h4⟩
      rw [parseDigits_append, h1]
      simp only [Option.some_bind, parseDigits]
      rw [if_pos (by omega)]
      congr 1
      omega

/-- A string of digits spells at least the number read before it. -/
theorem parseDigits_le : ∀ (cs : List Nat) (acc n : Nat),
    parseDigits acc cs = some n → acc ≤ n := by
  intro cs
  induction cs with
  | nil =>
    intro acc n h
    simp only [parseDigits, Option.some.injEq] at h
    omega
  | cons c cs ih =>
    intro acc n h
    simp only [parseDigits] at h
    split_ifs at h with hc
    have := ih _ _ h
    omega

/-- On a string of digits that spells a `uint64`, the loop of `ParseUint` reads that
number without an error. -/
theorem parseUintLoop_of_parseDigits : ∀ (cs : List Nat) (acc n : Nat),
    parseDigits acc cs = some n → n < 2 ^ 64 → parseUintLoop acc cs = (n, none) := by
  intro cs
  induction cs with
  | nil =>
    intro acc n h _
    simp only [parseDigits, Option.some.injEq] at h
    simp [parseUintLoop, h]
  | cons c cs ih =>
    intro acc n h hn
    simp only [parseDigits] at h
    split_ifs at h with hc
    have hle := parseDigits_le _ _ _ h
    simp only [parseUintLoop]
    rw [if_pos hc, if_neg (by omega), if_neg (by omega)]
    exact ih _ _ h hn

/-- `ParseInt` reads back what `FormatInt` wrote, for every `int64`. -/
theorem ParseInt_FormatInt (i : Int) (h1 : -(2 : Int) ^ 63 ≤ i) (h2 : i < (2 : Int) ^ 63) :
    ParseInt (FormatInt i) = (i, none) := by
  obtain ⟨hp, c, cs, hc, hc1, hc2⟩ := decimalDigits_spec (i.natAbs + 1) i.natAbs (by omega)
  have hu : ParseUint (c :: cs) = (i.natAbs, none) := by
    show parseUintLoop 0 (c :: cs) = _
    rw [← hc]
    exact parseUintLoop_of_parseDigits _ _ _ hp (by omega)
  unfold FormatInt
  by_cases hneg : i < 0
  · rw [if_pos hneg, hc]
    have hb : (if ((45 : Nat) == 43) = true ∨ ((45 : Nat) == 45) = true
        then c :: cs else 45 :: c :: cs) = c :: cs := by
      simp
    simp only [ParseInt, hb, hu]
    have hle : ¬ (i.natAbs > 2 ^ 63) := by omega
    simp [hle]
    rw [if_neg (by omega), abs_of_neg hneg, neg_neg]
  · rw [if_neg hneg, hc]
    have hb : (if (c == 43) = true ∨ (c == 45) = true then cs else c :: cs) = c :: cs := by
      rw [if_neg]
      simp only [beq_iff_eq]
      omega
    have h45 : (c == 45) = false := by simp; omega
    simp only [ParseInt, hb, hu]
    have hlt : ¬ (i.natAbs ≥ 2 ^ 63) := by omega
    simp [h45, hlt]
    rw [if_neg (by omega), abs_of_nonneg (by omega)]

theorem FormatInt_length_ne_zero (i : Int) : (FormatInt i).length ≠ 0 := by
  obtain ⟨_, c, cs, hc, _, _⟩ := decimalDigits_spec (i.natAbs + 1) i.natAbs (by omega)
  unfold FormatInt
  split_ifs
  · simp
  · rw [hc]; simp

theorem wrapInt64_of_fits (x : Int) (h1 : -(2 : Int) ^ 63 ≤ x) (h2 : x < (2 : Int) ^ 63) :
    wrapInt64 x = x := by
  unfold wrapInt64
  rw [Int.emod_eq_of_lt (by omega) (by omega)]
  omega

/-- Looking up a key right after writing it into the overlay finds the written value. -/
theorem lookup_insertEntry (k v : Bytes) (l : List Entry) :
    (insertEntry k v l).lookup k = some v := by
  induction l with
  | nil => simp [insertEntry, List.lookup]
  | cons e l ih =>
    simp only [insertEntry]
    split_ifs with h1 h2
    · simp [List.lookup]
    · simp [List.lookup]
    · have hne : k ≠ e.1 := fun h => h2 ((bytesCompare_eq_zero_iff _ _).2 h)
      have hb : (k == e.1) = false := by simpa using hne
      obtain ⟨ek, ev⟩ := e
      simp only [List.lookup_cons, hb]
      exact ih

/-- On the specified union store with a live snapshot, `markOrigin` on a transaction
whose read-set map exists returns nil and leaves the union store as it is. -/
theorem markOrigin_specStore (enc dec : Bytes → Bytes) (txn : dbTxn AlloyDB.UnionStore)
    (k : Bytes) (hmap : txn.snapshotVals ≠ none) (hrel : txn.UnionStore.released = false) :
    (markOrigin (UnionStore.ops enc dec) txn k).1 = none ∧
    (markOrigin (UnionStore.ops enc dec) txn k).2.UnionStore = txn.UnionStore ∧
    (markOrigin (UnionStore.ops enc dec) txn k).2.snapshotVals ≠ none := by
  unfold markOrigin
  cases hl : (txn.snapshotVals.getD []).lookup k with
  | some v => exact ⟨rfl, rfl, hmap⟩
  | none =>
    cases hm : txn.snapshotVals with
    | none => exact absurd hm hmap
    | some m =>
      simp only [UnionStore.ops, UnionStore.SnapshotGet, hrel, Bool.false_eq_true, if_false]
      cases txn.UnionStore.Snapshot.lookup k with
      | none => simp [IsErrNotFound, hm]
      | some v => simp [hm]

/-- One `Inc` on the specified union store: on a key absent from overlay and snapshot
it writes and returns the step; on a key whose overlay value is the decimal string of
`acc` it writes and returns `acc + step`. -/
theorem Inc_specStore (enc dec : Bytes → Bytes) (txn : dbTxn AlloyDB.UnionStore)
    (k : Bytes) (step : Int) (hmap : txn.snapshotVals ≠ none)
    (hrel : txn.UnionStore.released = false) :
    (txn.UnionStore.Dirty.lookup (enc k) = none →
      txn.UnionStore.Snapshot.lookup (enc k) = none →
      (Inc (UnionStore.ops enc dec) txn k step).1 = (step, none) ∧
      (Inc (UnionStore.ops enc dec) txn k step).2.UnionStore
        = { txn.UnionStore with
            Dirty := insertEntry (enc k) (FormatInt step) txn.UnionStore.Dirty } ∧
      (Inc (UnionStore.ops enc dec) txn k step).2.snapshotVals ≠ none) ∧
    (∀ acc : Int, txn.UnionStore.Dirty.lookup (enc k) = some (FormatInt acc) →
      -(2 : Int) ^ 63 ≤ acc → acc < (2 : Int) ^ 63 →
      -(2 : Int) ^ 63 ≤ acc + step → acc + step < (2 : Int) ^ 63 →
      (Inc (UnionStore.ops enc dec) txn k step).1 = (acc + step, none) ∧
      (Inc (UnionStore.ops enc dec) txn k step).2.UnionStore
        = { txn.UnionStore with
            Dirty := insertEntry (enc k) (FormatInt (acc + step)) txn.UnionStore.Dirty } ∧
      (Inc (UnionStore.ops enc dec) txn k step).2.snapshotVals ≠ none) := by
  obtain ⟨m1, m2, m3⟩ := markOrigin_specStore enc dec txn (enc k) hmap hrel
  have henc : (UnionStore.ops enc dec).EncodeKey k = enc k := rfl
  rcases hmo : markOrigin (UnionStore.ops enc dec) txn (enc k) with ⟨err, t⟩
  rw [hmo] at m1 m2 m3
  simp only at m1 m2 m3
  subst m1
  constructor
  · intro hd hs
    have hget : ((UnionStore.ops enc dec).Get t.UnionStore (enc k))
        = (Except.error Error.ErrNotExist, t.UnionStore) := by
      simp [UnionStore.ops, UnionStore.Get, UnionStore.SnapshotGet, m2, hd, hs, hrel]
    simp only [Inc, henc, hmo, hget, IsErrNotFound, if_true]
    refine ⟨rfl, ?_, m3⟩
    simp [UnionStore.ops, UnionStore.Set, m2]
  · intro acc hd a1 a2 a3 a4
    have hget : ((UnionStore.ops enc dec).Get t.UnionStore (enc k))
        = (Except.ok (FormatInt acc), t.UnionStore) := by
      have hne : FormatInt acc ≠ [] := fun h =>
        FormatInt_length_ne_zero acc (by rw [h]; rfl)
      simp [UnionStore.ops, UnionStore.Get, m2, hd, hne]
    simp only [Inc, henc, hmo, hget, ParseInt_FormatInt acc a1 a2,
      wrapInt64_of_fits (acc + step) a3 a4]
    refine ⟨rfl, ?_, m3⟩
    simp [UnionStore.ops, UnionStore.Set, m2]

/-- Successive `Inc` calls on a key whose overlay value is the decimal string of `acc`
return the running totals and leave the decimal string of the last total. -/
theorem IncSeq_from_value (enc dec : Bytes → Bytes) (k : Bytes) :
    ∀ (steps : List Int) (txn : dbTxn AlloyDB.UnionStore) (acc : Int),
    txn.snapshotVals ≠ none → txn.UnionStore.released = false →
    txn.UnionStore.Dirty.lookup (enc k) = some (FormatInt acc) →
    -(2 : Int) ^ 63 ≤ acc → acc < (2 : Int) ^ 63 →
    (∀ p ∈ partialSums acc steps, -(2 : Int) ^ 63 ≤ p ∧ p < (2 : Int) ^ 63) →
    (IncSeq (UnionStore.ops enc dec) txn k steps).1
      = (partialSums acc steps).map (fun p => (p, none)) ∧
    (IncSeq (UnionStore.ops enc dec) txn k steps).2.UnionStore.Dirty.lookup (enc k)
      = some (FormatInt (acc + steps.sum)) := by
  intro steps
  induction steps with
  | nil => intro txn acc _ _ hd _ _ _; simpa [IncSeq, partialSums] using hd
  | cons s rest ih =>
    intro txn acc hmap hrel hd a1 a2 hfit
    have hs := hfit (acc + s) (by simp [partialSums])
    obtain ⟨i1, i2, i3⟩ := (Inc_specStore enc dec txn k s hmap hrel).2 acc hd a1 a2 hs.1 hs.2
    have ih' := ih (Inc (UnionStore.ops enc dec) txn k s).2 (acc + s) i3
      (by rw [i2]; exact hrel) (by rw [i2]; exact lookup_insertEntry _ _ _) hs.1 hs.2
      (fun p hp => hfit p (by simp [partialSums, hp]))
    simp only [IncSeq, partialSums, List.map_cons, List.sum_cons, i1]
    refine ⟨by rw [ih'.1], ?_⟩
    rw [ih'.2, add_assoc]

/-- C11. On the specified union store, starting from an Active transaction in which
the encoded key is absent from both the dirty overlay and the snapshot, for every
sequence of steps whose running totals fit in int64 the i-th call `Inc(k, s_i)` returns
`s_1 + ... + s_i` with a nil error, and after the calls the overlay value of the key
is the decimal ASCII string of the total. -/
theorem Inc_returns_running_totals (enc dec : Bytes → Bytes) (txn : dbTxn AlloyDB.UnionStore)
    (k : Bytes) (steps : List Int)
    (hmap : txn.snapshotVals ≠ none) (hrel : txn.UnionStore.released = false)
    (hdirty : txn.UnionStore.Dirty.lookup (enc k) = none)
    (hsnap : txn.UnionStore.Snapshot.lookup (enc k) = none)
    (hfit : ∀ p ∈ partialSums 0 steps, -(2 : Int) ^ 63 ≤ p ∧ p < (2 : Int) ^ 63) :
    (IncSeq (UnionStore.ops enc dec) txn k steps).1
      = (partialSums 0 steps).map (fun p => (p, none)) ∧
    (steps ≠ [] →
      (IncSeq (UnionStore.ops enc dec) txn k steps).2.UnionStore.Dirty.lookup (enc k)
        = some (FormatInt steps.sum)) := by
  cases steps with
  | nil => exact ⟨rfl, fun h => absurd rfl h⟩
  | cons s rest =>
    have hs := hfit (0 + s) (by simp [partialSums])
    obtain ⟨i1, i2, i3⟩ := (Inc_specStore enc dec txn k s hmap hrel).1 hdirty hsnap
    have ih := IncSeq_from_value enc dec k rest (Inc (UnionStore.ops enc dec) txn k s).2
      (0 + s) i3 (by rw [i2]; exact hrel)
      (by rw [i2, zero_add]; exact lookup_insertEntry _ _ _) hs.1 hs.2
      (fun p hp => hfit p (by simp only [partialSums, List.mem_cons]; exact Or.inr hp))
    simp only [IncSeq, partialSums, List.map_cons, List.sum_cons, i1]
    refine ⟨by rw [ih.1, zero_add], fun _ => ?_⟩
    rw [ih.2, zero_add]

/-- The instance of C11 on `freshTxn` with the key `[5]`, together with the runs of the
specification: steps 1, 1, 1 return 1, 2, 3 and steps 1, 2 return 1, 3. -/
theorem Inc_returns_running_totals_witness :
    (IncSeq (UnionStore.ops id id) freshTxn [5] [1, 1, 1]).1
      = [(1, none), (2, none), (3, none)] ∧
    (IncSeq (UnionStore.ops id id) freshTxn [5] [1, 2]).1 = [(1, none), (3, none)] ∧
    ((IncSeq (UnionStore.ops id id) freshTxn [5] [1, 2]).1
        = (partialSums 0 [1, 2]).map (fun p => (p, none)) ∧
      (([1, 2] : List Int) ≠ [] →
        (IncSeq (UnionStore.ops id id) freshTxn [5] [1, 2]).2.UnionStore.Dirty.lookup (id [5])
          = some (FormatInt ([1, 2] : List Int).sum))) :=
  ⟨by decide, by decide,
    Inc_returns_running_totals id id freshTxn [5] [1, 2] (by decide) rfl rfl rfl
      (by
        intro p hp
        simp [partialSums] at hp
        rcases hp with rfl | rfl <;> norm_num)⟩

/-! ## `markOrigin` -/

/-- A key that is already in the read-set makes `markOrigin` return at once. -/
theorem markOrigin_of_recorded (ops : KVOps U I) (txn : dbTxn U) (k v : Bytes)
    (h : (txn.snapshotVals.getD []).lookup k = some v) :
    markOrigin ops txn k = (none, txn) := by
  unfold markOrigin
  rw [h]

theorem lookup_append_other (m : List (Bytes × Bytes)) (k k' v : Bytes) (h : k' ≠ k) :
    (m ++ [(k, v)]).lookup k' = m.lookup k' := by
  induction m with
  | nil =>
    have hb : (k' == k) = false := by simpa using h
    simp [List.lookup, hb]
  | cons e m ih =>
    obtain ⟨ek, ev⟩ := e
    by_cases hk : k' = ek
    · subst hk; simp [List.lookup]
    · have hb : (k' == ek) = false := by simpa using hk
      simp only [List.cons_append, List.lookup_cons, hb]
      exact ih

/-- C12. `markOrigin` is first-touch-wins, on a transaction whose read-set map exists
and over any union store (logging its calls): a key already in the read-set makes it
return nil with the transaction, the read-set and the call log untouched (the snapshot
is not read); otherwise, when `Snapshot.Get` succeeds or reports not-found, it returns
nil and appends exactly the pair of the key and the snapshot's value (nil when not
found), leaving every other key's entry as it was; when `Snapshot.Get` fails with
another error it returns that error and the read-set is unchanged; and a second call
after a first one that returned nil changes nothing at all. -/
theorem markOrigin_first_touch_wins (ops : KVOps U I) (txn : dbTxn (U × List KVCall))
    (k : Bytes) (m : List (Bytes × Bytes)) (hm : txn.snapshotVals = some m) :
    (∀ v, m.lookup k = some v → markOrigin ops.logged txn k = (none, txn)) ∧
    (m.lookup k = none → ∀ val,
      ((ops.SnapshotGet txn.UnionStore.1 k).1 = Except.ok val ∨
        (val = [] ∧ ∃ e, (ops.SnapshotGet txn.UnionStore.1 k).1 = Except.error e ∧
          IsErrNotFound e = true)) →
      (markOrigin ops.logged txn k).1 = none ∧
      (markOrigin ops.logged txn k).2.snapshotVals = some (m ++ [(k, val)]) ∧
      (m ++ [(k, val)]).lookup k = some val ∧
      (∀ k', k' ≠ k → (m ++ [(k, val)]).lookup k' = m.lookup k') ∧
      (markOrigin ops.logged txn k).2.UnionStore.2
        = txn.UnionStore.2 ++ [KVCall.SnapshotGet k]) ∧
    (m.lookup k = none → ∀ e, (ops.SnapshotGet txn.UnionStore.1 k).1 = Except.error e →
      IsErrNotFound e = false →
      (markOrigin ops.logged txn k).1 = some e ∧
      (markOrigin ops.logged txn k).2.snapshotVals = some m) ∧
    ((markOrigin ops.logged txn k).1 = none →
      markOrigin ops.logged (markOrigin ops.logged txn k).2 k
        = (none, (markOrigin ops.logged txn k).2)) := by
  have hget : ∀ (t : dbTxn (U × List KVCall)), (ops.logged.SnapshotGet t.UnionStore k).1
      = (ops.SnapshotGet t.UnionStore.1 k).1 := fun _ => rfl
  refine ⟨?_, ?_, ?_, ?_⟩
  · intro v hv
    exact markOrigin_of_recorded ops.logged txn k v (by rw [hm]; exact hv)
  · intro hl val hval
    have hl' : (txn.snapshotVals.getD []).lookup k = none := by rw [hm]; exact hl
    refine ⟨?_, ?_, lookup_append_new m k val hl, fun k' hk' => lookup_append_other m k k' val hk',
      ?_⟩ <;>
    · unfold markOrigin
      rw [hl']
      simp only [hget]
      rcases hval with h | ⟨hv, e, h, he⟩
      · rw [h]; simp only [hm]; try rfl
      · rw [h]; simp only [he, Bool.not_true, Bool.false_eq_true, if_false, hm, hv]; try rfl
  · intro hl e h he
    have hl' : (txn.snapshotVals.getD []).lookup k = none := by rw [hm]; exact hl
    constructor <;>
    · unfold markOrigin
      rw [hl']
      simp only [hget, h, he, Bool.not_false, if_true]
      try exact hm
  · intro h
    obtain ⟨v, hv⟩ := (markOrigin_records ops.logged txn k).2 (by rw [hm]; simp) h
    exact markOrigin_of_recorded ops.logged _ k v hv

/-- The instance of C12 on `freshLoggedTxn`, whose read-set is empty, with the key
`[1]`, which the snapshot holds with the value `[7]`. -/
theorem markOrigin_first_touch_wins_witness :
    freshLoggedTxn.snapshotVals = some [] ∧
    (markOrigin (UnionStore.ops id id).logged freshLoggedTxn [1]).2.snapshotVals
      = some [([1], [7])] ∧
    markOrigin (UnionStore.ops id id).logged
        (markOrigin (UnionStore.ops id id).logged freshLoggedTxn [1]).2 [1]
      = (none, (markOrigin (UnionStore.ops id id).logged freshLoggedTxn [1]).2) :=
  ⟨rfl, by decide,
    (markOrigin_first_touch_wins (UnionStore.ops id id) freshLoggedTxn [1] [] rfl).2.2.2
      (by decide)⟩

/-! ## `Rollback` -/

/-- C13. `Rollback` on an Active transaction returns nil and closes it: `valid` is
false, the read-set is the nil map and the union store received the single call
`Close`. The method is given no store at all (the code never touches `txn.store`
there), so neither the engine nor the lock table can change. On the specified store and
union store, a transaction that wrote `Set(k, v)` and rolled back ends with an empty
overlay, and a transaction begun afterwards reads key `k` exactly as one begun before
did; in particular it gets `ErrNotExist` when the engine held no value for the key. -/
theorem Rollback_discards_everything (ops : KVOps U I) (txn : dbTxn (U × List KVCall))
    (enc dec : Bytes → Bytes) (s : dbStore) (k v : Bytes) (hactive : txn.valid = true) :
    Rollback ops.logged txn
      = (none, { UnionStore := (ops.Close txn.UnionStore.1, txn.UnionStore.2 ++ [KVCall.Close]),
                 tID := txn.tID, valid := false, snapshotVals := none }) ∧
    (Rollback (UnionStore.ops enc dec)
      (Set (UnionStore.ops enc dec) (dbStore.Begin s).1 k v).2).1 = none ∧
    (Rollback (UnionStore.ops enc dec)
      (Set (UnionStore.ops enc dec) (dbStore.Begin s).1 k v).2).2.UnionStore.Dirty = [] ∧
    (Rollback (UnionStore.ops enc dec)
      (Set (UnionStore.ops enc dec) (dbStore.Begin s).1 k v).2).2.valid = false ∧
    (dbStore.Begin s).2.db = s.db ∧ (dbStore.Begin s).2.keysLocked = s.keysLocked ∧
    (Get (UnionStore.ops enc dec) (dbStore.Begin (dbStore.Begin s).2).1 k).1
      = (Get (UnionStore.ops enc dec) (dbStore.Begin s).1 k).1 ∧
    (s.db.lookup (enc k) = none →
      (Get (UnionStore.ops enc dec) (dbStore.Begin (dbStore.Begin s).2).1 k).1
        = Except.error Error.ErrNotExist) := by
  have hset : (Set (UnionStore.ops enc dec) (dbStore.Begin s).1 k v).2.valid = true := by
    unfold Set
    split <;> rfl
  have hr : Rollback (UnionStore.ops enc dec)
      (Set (UnionStore.ops enc dec) (dbStore.Begin s).1 k v).2
      = (none, close (UnionStore.ops enc dec)
          (Set (UnionStore.ops enc dec) (dbStore.Begin s).1 k v).2) := by
    simp [Rollback, hset]
  rw [hr]
  refine ⟨?_, rfl, rfl, rfl, rfl, rfl, ?_, ?_⟩
  · simp [Rollback, hactive, close, KVOps.logged]
  · simp only [Get, dbStore.Begin]
    cases (UnionStore.ops enc dec).Get { Dirty := [], Snapshot := s.db, released := false }
        ((UnionStore.ops enc dec).EncodeKey k) with
    | mk r u =>
      cases r with
      | error err => by_cases he : IsErrNotFound err = true <;> simp [he]
      | ok val => by_cases hv : val.length = 0 <;> simp [hv]
  · intro hl
    simp [Get, dbStore.Begin, UnionStore.ops, UnionStore.Get, UnionStore.SnapshotGet, hl,
      IsErrNotFound]

/-- The instance of C13 on `freshLoggedTxn` and, for the scenario, on `exampleStore`
with the key `[2]`, which the engine does not hold. -/
theorem Rollback_discards_everything_witness :
    freshLoggedTxn.valid = true ∧
    Rollback (UnionStore.ops id id).logged freshLoggedTxn
      = (none, { UnionStore := ((UnionStore.ops id id).Close freshLoggedTxn.UnionStore.1,
                   freshLoggedTxn.UnionStore.2 ++ [KVCall.Close]),
                 tID := freshLoggedTxn.tID, valid := false, snapshotVals := none }) ∧
    (Get (UnionStore.ops id id) (dbStore.Begin (dbStore.Begin exampleStore).2).1 [2]).1
      = Except.error Error.ErrNotExist :=
  ⟨rfl,
    (Rollback_discards_everything (UnionStore.ops id id) freshLoggedTxn id id exampleStore
      [2] [5] rfl).1,
    (Rollback_discards_everything (UnionStore.ops id id) freshLoggedTxn id id exampleStore
      [2] [5] rfl).2.2.2.2.2.2.2 rfl⟩

/-! ## `Seek` and the stop predicate -/

/-- C14, refuted on `scanTxn`. With a predicate that marks the key `[2]` out of range,
`Seek` returns a valid iterator standing on `[1]`, and the following `Next` moves it to
the key `[2]`, on which the predicate holds, with `Valid()` still true. With a
predicate that marks exactly the key `[2, 0]`, a `Seek` to that key returns a valid
iterator standing on it, because only the first byte of the key is shown to the
predicate. -/
theorem seek_exposes_out_of_range_key :
    ∃ it it2 it3,
      (Seek (UnionStore.ops id id) scanTxn [1] (some (fun key => key == [2]))).1
        = Except.ok it ∧
      it.Valid = true ∧ it.rawKey = [1] ∧
      it.NextWith (some (fun key => key == [2])) = some it2 ∧
      it2.Valid = true ∧ it2.rawKey = [2] ∧ (fun key : Bytes => key == [2]) it2.rawKey = true ∧
      (Seek (UnionStore.ops id id) scanTxn [2, 0] (some (fun key => key == [2, 0]))).1
        = Except.ok it3 ∧
      it3.Valid = true ∧ it3.rawKey = [2, 0] ∧
      (fun key : Bytes => key == [2, 0]) it3.rawKey = true :=
  ⟨_, _, _, rfl, rfl, rfl, rfl, rfl, rfl, rfl, rfl, rfl, rfl, rfl⟩

/-- C14, amended. `dbTxn.Seek(k, p)` consults the predicate once, after the initial
positioning and on the first byte of the key the iterator stands on: when the predicate
holds on that byte the empty iterator comes back, whose `Valid()` is false, and
otherwise the positioned iterator comes back as it is. `UnionIter.Next` does not use
its predicate argument, so what later `Next` calls expose does not depend on it. -/
theorem Seek_consults_predicate_once (ops : KVOps U I) (txn : dbTxn U) (k : Bytes)
    (p : Bytes → Bool) (enc dec : Bytes → Bytes) (it : kv.UnionIter)
    (f g : Option (Bytes → Bool)) :
    (∀ iter b rest, (ops.Seek txn.UnionStore (ops.EncodeKey k)).1 = Except.ok iter →
      ops.iterValid iter = true → ops.iterKey iter = b :: rest →
      (p [b] = true → (Seek ops txn k (some p)).1 = Except.ok ops.zeroIter) ∧
      (p [b] = false → (Seek ops txn k (some p)).1 = Except.ok iter)) ∧
    (UnionStore.ops enc dec).iterValid (UnionStore.ops enc dec).zeroIter = false ∧
    it.NextWith f = it.NextWith g := by
  refine ⟨?_, rfl, rfl⟩
  intro iter b rest h1 h2 h3
  constructor <;>
  · intro hp
    simp [Seek, h1, h2, h3, hp]

end dbTxn

/-! ## `FilterDefaultPlan.Do` -/

namespace plans

variable {Row V σ E T : Type}

/-- The filter callback at a row on which evaluation or conversion fails. -/
theorem filterCallback_error (Eval : Row → Except E (Option V)) (ToBool : V → Except E Int)
    (f : σ → Row → (Bool × Option E) × σ) (s : σ) (row : Row) (e : E)
    (h : rowError Eval ToBool row = some e) :
    filterCallback Eval ToBool f s row = ((false, some e), s) := by
  unfold rowError at h
  unfold filterCallback
  cases hE : Eval row with
  | error err => rw [hE] at h; simp only at h ⊢; cases h; rfl
  | ok o =>
    cases o with
    | none => rw [hE] at h; simp at h
    | some val =>
      rw [hE] at h
      simp only at h ⊢
      cases hB : ToBool val with
      | error err => rw [hB] at h; simp only at h ⊢; cases h; rfl
      | ok x => rw [hB] at h; simp at h

/-- The filter callback at a row that evaluates to NULL or to false. -/
theorem filterCallback_skip (Eval : Row → Except E (Option V)) (ToBool : V → Except E Int)
    (f : σ → Row → (Bool × Option E) × σ) (s : σ) (row : Row)
    (h1 : rowError Eval ToBool row = none) (h2 : rowPasses Eval ToBool row = false) :
    filterCallback Eval ToBool f s row = ((true, none), s) := by
  unfold rowError at h1
  unfold rowPasses at h2
  unfold filterCallback
  cases hE : Eval row with
  | error err => rw [hE] at h1; simp at h1
  | ok o =>
    cases o with
    | none => rfl
    | some val =>
      rw [hE] at h1 h2
      simp only at h1 h2 ⊢
      cases hB : ToBool val with
      | error err => rw [hB] at h1; simp at h1
      | ok x =>
        rw [hB] at h2
        simp only [Bool.not_eq_false', beq_iff_eq] at h2
        simp [h2]

/-- The filter callback at a row that passes the filter. -/
theorem filterCallback_pass (Eval : Row → Except E (Option V)) (ToBool : V → Except E Int)
    (f : σ → Row → (Bool × Option E) × σ) (s : σ) (row : Row)
    (h : rowPasses Eval ToBool row = true) :
    filterCallback Eval ToBool f s row = f s row ∧ rowError Eval ToBool row = none := by
  unfold rowPasses at h
  unfold filterCallback rowError
  cases hE : Eval row with
  | error err => rw [hE] at h; simp at h
  | ok o =>
    cases o with
    | none => rw [hE] at h; simp at h
    | some val =>
      rw [hE] at h
      simp only at h ⊢
      cases hB : ToBool val with
      | error err => rw [hB] at h; simp at h
      | ok x =>
        rw [hB] at h
        have hx : x ≠ 0 := by simpa using h
        simp [hx]

/-- With the recording callback the filter hands on exactly the passing rows that
come before the first failing row, in source order, and returns that row's error. -/
theorem filter_recordRows (Eval : Row → Except E (Option V)) (ToBool : V → Except E Int) :
    ∀ (rows log : List Row),
    FilterDefaultPlan.Do rows Eval ToBool recordRows log
      = (rows.findSome? (rowError Eval ToBool),
          log ++ (rows.takeWhile (fun r => (rowError Eval ToBool r).isNone)).filter
            (rowPasses Eval ToBool)) := by
  intro rows
  induction rows with
  | nil => intro log; simp [FilterDefaultPlan.Do, srcDo]
  | cons row rest ih =>
    intro log
    unfold FilterDefaultPlan.Do at ih ⊢
    cases he : rowError Eval ToBool row with
    | some e =>
      simp [srcDo, filterCallback_error Eval ToBool recordRows log row e he, he,
        List.findSome?, List.takeWhile]
    | none =>
      cases hp : rowPasses Eval ToBool row with
      | false =>
        simp [srcDo, filterCallback_skip Eval ToBool recordRows log row he hp, he, hp,
          List.findSome?, List.takeWhile, ih]
      | true =>
        simp [srcDo, (filterCallback_pass Eval ToBool recordRows log row hp).1, he, hp,
          List.findSome?, List.takeWhile, ih, recordRows]

/-- C19. `FilterDefaultPlan.Do` calls the row callback exactly for the rows of the
source plan that the scan reaches and for which the expression evaluates without error
to a non-NULL value with a non-zero boolean conversion, in source order: a row on
which evaluation or conversion fails stops the scan, and that error is returned without
`f` being called; a row evaluating to NULL or to false is skipped and the scan goes
on; a passing row is handed to `f`, whose answer decides whether the scan goes on.
With a callback that records its rows and always asks for more, the recorded rows are
exactly the passing rows before the first failing one, and the error returned is that
of the first failing row. -/
theorem FilterDefaultPlan_Do_filters (Eval : Row → Except E (Option V))
    (ToBool : V → Except E Int) (f : σ → Row → (Bool × Option E) × σ) (s : σ)
    (row : Row) (rows : List Row) :
    FilterDefaultPlan.Do [] Eval ToBool f s = (none, s) ∧
    (∀ e, rowError Eval ToBool row = some e →
      FilterDefaultPlan.Do (row :: rows) Eval ToBool f s = (some e, s)) ∧
    (rowError Eval ToBool row = none → rowPasses Eval ToBool row = false →
      FilterDefaultPlan.Do (row :: rows) Eval ToBool f s
        = FilterDefaultPlan.Do rows Eval ToBool f s) ∧
    (rowPasses Eval ToBool row = true →
      FilterDefaultPlan.Do (row :: rows) Eval ToBool f s
        = if !(f s row).1.1 || (f s row).1.2.isSome then ((f s row).1.2, (f s row).2)
          else FilterDefaultPlan.Do rows Eval ToBool f (f s row).2) ∧
    FilterDefaultPlan.Do rows Eval ToBool recordRows []
      = (rows.findSome? (rowError Eval ToBool),
          (rows.takeWhile (fun r => (rowError Eval ToBool r).isNone)).filter
            (rowPasses Eval ToBool)) := by
  refine ⟨rfl, ?_, ?_, ?_, ?_⟩
  · intro e he
    simp [FilterDefaultPlan.Do, srcDo, filterCallback_error Eval ToBool f s row e he]
  · intro h1 h2
    simp [FilterDefaultPlan.Do, srcDo, filterCallback_skip Eval ToBool f s row h1 h2]
  · intro h
    simp only [FilterDefaultPlan.Do, srcDo, (filterCallback_pass Eval ToBool f s row h).1]
  · simpa using filter_recordRows Eval ToBool rows []

/-- The run of the test: over rows with the ids 10, 10, 10, 40, 60 and the filter
`id >= 30` the callback is called exactly twice, for the ids 40 and 60. -/
theorem FilterDefaultPlan_Do_test_run :
    FilterDefaultPlan.Do ([10, 10, 10, 40, 60] : List Int)
        (fun id => (Except.ok (some (decide (30 ≤ id))) : Except Unit (Option Bool)))
        (fun b => Except.ok (if b then 1 else 0)) recordRows []
      = (none, [40, 60]) := by
  decide

end plans

/-! ## `UnionPlan.Do` -/

namespace plans

/-- C20, evaluated at the failing input. A distinct union (`Distincts = [true]`) of a
first source that produces the row `[1]` twice and a second source that produces `[1]`
once: the two rows of the first source are collected without a duplicate check, only
the row of the second source is recognised as a duplicate, and the callback receives
the two equal rows `[1]`, `[1]`. On the sources of the test (ids 1, 2 on both sides)
the callback receives `[1]`, `[2]`. -/
theorem UnionPlan_keeps_duplicates_of_first_source :
    UnionPlan.Do ([⟨[[1], [1]], 1⟩, ⟨[[1]], 1⟩] : List (SrcPlan (List Int))) [true]
        (Except.ok []) (listTemp : TempOps (List (List Int)) (List Int) Unit)
        (fun row => Except.ok row) () recordRows []
      = (DoResult.nil, [[1], [1]]) ∧
    UnionPlan.Do ([⟨[[1], [2]], 1⟩, ⟨[[1], [2]], 1⟩] : List (SrcPlan (List Int))) [true]
        (Except.ok []) (listTemp : TempOps (List (List Int)) (List Int) Unit)
        (fun row => Except.ok row) () recordRows []
      = (DoResult.nil, [[1], [2]]) := by
  decide

end plans

/-! ## Byte strings that diverge -/

theorem bytesCompare_swap (a b : Bytes) : bytesCompare a b = -bytesCompare b a := by
  induction a generalizing b with
  | nil => cases b <;> simp [bytesCompare]
  | cons x xs ih =>
    cases b with
    | nil => simp [bytesCompare]
    | cons y ys =>
      simp only [bytesCompare]
      split_ifs <;> first | omega | simp | exact ih ys

theorem bytesCompare_append_left (x a b : Bytes) :
    bytesCompare (x ++ a) (x ++ b) = bytesCompare a b := by
  induction x with
  | nil => rfl
  | cons c x ih => simp [bytesCompare, ih]

theorem Diverge.symm {x y : Bytes} (h : Diverge x y) : Diverge y x := by
  induction h with
  | head c d xs ys hne => exact Diverge.head d c ys xs (fun e => hne e.symm)
  | cons c xs ys _ ih => exact Diverge.cons c ys xs ih

theorem Diverge.ne {x y : Bytes} (h : Diverge x y) : x ≠ y := by
  induction h with
  | head c d xs ys hne => intro e; exact hne (List.cons.inj e).1
  | cons c xs ys _ ih => intro e; exact ih (List.cons.inj e).2

/-- What follows two diverging byte strings does not matter for their comparison. -/
theorem Diverge.compare_append {x y : Bytes} (h : Diverge x y) (r1 r2 : Bytes) :
    bytesCompare (x ++ r1) (y ++ r2) = bytesCompare x y := by
  induction h with
  | head c d xs ys hne =>
    simp only [List.cons_append, bytesCompare]
    split_ifs <;> first | rfl | omega
  | cons c xs ys _ ih =>
    simp only [List.cons_append, bytesCompare, lt_irrefl, if_false]
    exact ih

/-- Complementing two diverging byte strings reverses their comparison. -/
theorem Diverge.compare_complement {x y : Bytes} (h : Diverge x y)
    (hx : ∀ b ∈ x, b ≤ 255) (hy : ∀ b ∈ y, b ≤ 255) :
    bytesCompare (codec.complement x) (codec.complement y) = -bytesCompare x y := by
  induction h with
  | head c d xs ys hne =>
    have hc := hx c (List.mem_cons_self _ _)
    have hd := hy d (List.mem_cons_self _ _)
    simp only [codec.complement, List.map_cons, bytesCompare]
    split_ifs <;> first | rfl | omega
  | cons c xs ys _ ih =>
    simp only [codec.complement, List.map_cons, bytesCompare, lt_irrefl, if_false]
    exact ih (fun b hb => hx b (List.mem_cons_of_mem _ hb))
      (fun b hb => hy b (List.mem_cons_of_mem _ hb))

theorem Diverge.append_left (p : Bytes) {x y : Bytes} (h : Diverge x y) :
    Diverge (p ++ x) (p ++ y) := by
  induction p with
  | nil => exact h
  | cons c p ih => exact Diverge.cons c _ _ ih

theorem Diverge.append_right {x y : Bytes} (h : Diverge x y) (r1 r2 : Bytes) :
    Diverge (x ++ r1) (y ++ r2) := by
  induction h with
  | head c d xs ys hne => exact Diverge.head c d _ _ hne
  | cons c xs ys _ ih => exact Diverge.cons c _ _ ih

namespace codec

theorem complement_complement (b : Bytes) (h : ∀ x ∈ b, x ≤ 255) :
    complement (complement b) = b := by
  induction b with
  | nil => rfl
  | cons x xs ih =>
    have hx := h x (List.mem_cons_self _ _)
    simp only [complement, List.map_cons, List.map_map] at ih ⊢
    rw [ih (fun y hy => h y (List.mem_cons_of_mem _ hy))]
    congr 1
    omega

/-! ## Big-endian numbers -/

theorem bigEndian_length (n u : Nat) : (bigEndian n u).length = n := by
  induction n with
  | zero => rfl
  | succ n ih => simp [bigEndian, ih]

theorem bigEndian_le (n u : Nat) : ∀ b ∈ bigEndian n u, b ≤ 255 := by
  induction n with
  | zero => intro b hb; simp [bigEndian] at hb
  | succ n ih =>
    intro b hb
    simp only [bigEndian, List.mem_cons] at hb
    rcases hb with rfl | hb
    · have := Nat.mod_lt (u / 256 ^ n) (by norm_num : 256 > 0)
      omega
    · exact ih b hb

theorem foldl_bigEndian (n u acc : Nat) :
    (bigEndian n u).foldl (fun a x => a * 256 + x) acc = acc * 256 ^ n + u % 256 ^ n := by
  induction n generalizing acc with
  | zero => simp [bigEndian, Nat.mod_one]
  | succ n ih =>
    simp only [bigEndian, List.foldl_cons]
    rw [ih, Nat.mod_pow_succ, pow_succ]
    ring

theorem fromBigEndian_bigEndian (n u : Nat) : fromBigEndian (bigEndian n u) = u % 256 ^ n := by
  unfold fromBigEndian
  rw [foldl_bigEndian]
  simp

/-- Big-endian strings of one width compare as the numbers they spell, and diverge
when the numbers differ. -/
theorem bigEndian_compare (n : Nat) : ∀ (u v : Nat),
    (u % 256 ^ n = v % 256 ^ n → bigEndian n u = bigEndian n v) ∧
    (u % 256 ^ n ≠ v % 256 ^ n → Diverge (bigEndian n u) (bigEndian n v)) ∧
    bytesCompare (bigEndian n u) (bigEndian n v) = cmpNat (u % 256 ^ n) (v % 256 ^ n) := by
  induction n with
  | zero =>
    intro u v
    simp [bigEndian, bytesCompare, cmpNat, Nat.mod_one]
  | succ n ih =>
    intro u v
    obtain ⟨i1, i2, i3⟩ := ih u v
    have hu := Nat.mod_pow_succ (x := u) (b := 256) (k := n)
    have hv := Nat.mod_pow_succ (x := v) (b := 256) (k := n)
    have ru : u % 256 ^ n < 256 ^ n := Nat.mod_lt _ (by positivity)
    have rv : v % 256 ^ n < 256 ^ n := Nat.mod_lt _ (by positivity)
    have key : ∀ x y : Nat, x < y →
        u % 256 ^ n + 256 ^ n * x < v % 256 ^ n + 256 ^ n * y := by
      intro x y hxy
      have : 256 ^ n * (x + 1) ≤ 256 ^ n * y := Nat.mul_le_mul_left _ hxy
      rw [Nat.mul_add, Nat.mul_one] at this
      omega
    have key' : ∀ x y : Nat, x < y →
        v % 256 ^ n + 256 ^ n * x < u % 256 ^ n + 256 ^ n * y := by
      intro x y hxy
      have : 256 ^ n * (x + 1) ≤ 256 ^ n * y := Nat.mul_le_mul_left _ hxy
      rw [Nat.mul_add, Nat.mul_one] at this
      omega
    simp only [bigEndian, bytesCompare]
    rw [hu, hv]
    rcases Nat.lt_trichotomy (u / 256 ^ n % 256) (v / 256 ^ n % 256) with h | h | h
    · have hlt := key _ _ h
      refine ⟨fun e => by omega, fun _ => Diverge.head _ _ _ _ (by omega), ?_⟩
      simp only [h, if_true, cmpNat, hlt]
    · rw [h]
      refine ⟨fun e => ?_, fun hne => ?_, ?_⟩
      · rw [i1 (by omega)]
      · exact Diverge.cons _ _ _ (i2 (by omega))
      · simp only [lt_irrefl, if_false, i3, cmpNat]
        by_cases h1 : u % 256 ^ n < v % 256 ^ n
        · have : u % 256 ^ n + 256 ^ n * (v / 256 ^ n % 256)
              < v % 256 ^ n + 256 ^ n * (v / 256 ^ n % 256) := by omega
          simp [h1, this]
        · by_cases h2 : v % 256 ^ n < u % 256 ^ n
          · have : v % 256 ^ n + 256 ^ n * (v / 256 ^ n % 256)
                < u % 256 ^ n + 256 ^ n * (v / 256 ^ n % 256) := by omega
            have h3 : ¬ (u % 256 ^ n + 256 ^ n * (v / 256 ^ n % 256)
                < v % 256 ^ n + 256 ^ n * (v / 256 ^ n % 256)) := by omega
            simp [h1, h2, this, h3]
          · have h3 : ¬ (u % 256 ^ n + 256 ^ n * (v / 256 ^ n % 256)
                < v % 256 ^ n + 256 ^ n * (v / 256 ^ n % 256)) := by omega
            have h4 : ¬ (v % 256 ^ n + 256 ^ n * (v / 256 ^ n % 256)
                < u % 256 ^ n + 256 ^ n * (v / 256 ^ n % 256)) := by omega
            simp [h1, h2, h3, h4]
    · have hlt := key' _ _ h
      refine ⟨fun e => by omega, fun _ => Diverge.head _ _ _ _ (by omega), ?_⟩
      have h' : ¬ (u / 256 ^ n % 256 < v / 256 ^ n % 256) := by omega
      have hlt' : ¬ (u % 256 ^ n + 256 ^ n * (u / 256 ^ n % 256)
          < v % 256 ^ n + 256 ^ n * (v / 256 ^ n % 256)) := by omega
      simp only [h', if_false, h, if_true, cmpNat, hlt', hlt]

end codec

namespace codec

/-! ## Round trips of the scalar encodings -/

theorem takeFixed_bigEndian (tag x : Nat) (rest : Bytes) :
    takeFixed tag (tag :: (bigEndian 8 x ++ rest)) = .ok (rest, bigEndian 8 x) := by
  have hl := bigEndian_length 8 x
  simp only [takeFixed, List.length_append, hl, true_and]
  rw [if_pos (by omega)]
  rw [List.drop_left' hl, List.take_left' hl]

theorem pow_256_8 : (256 : Nat) ^ 8 = 2 ^ 64 := by norm_num

theorem toInt64_flip_flip (v : Int) (h1 : -(2 : Int) ^ 63 ≤ v) (h2 : v < (2 : Int) ^ 63) :
    toInt64 (flipSignBit (flipSignBit (toUint64 v) % 256 ^ 8)) = v := by
  rw [pow_256_8]
  unfold toInt64 flipSignBit toUint64
  split_ifs <;> omega

theorem flipSignBit_toUint64 (v : Int) (h1 : -(2 : Int) ^ 63 ≤ v) (h2 : v < (2 : Int) ^ 63) :
    flipSignBit (toUint64 v) = (v + 2 ^ 63).toNat := by
  unfold flipSignBit toUint64
  split_ifs <;> omega

theorem cmpToFloat_floatToCmp (bits : Nat) (h : bits < 2 ^ 64) :
    cmpToFloat (floatToCmp bits % 256 ^ 8) = bits := by
  rw [pow_256_8]
  unfold cmpToFloat floatToCmp
  split_ifs <;> omega

theorem DecodeInt_EncodeInt (t : Tags) (v : Int) (rest : Bytes)
    (h1 : -(2 : Int) ^ 63 ≤ v) (h2 : v < (2 : Int) ^ 63) :
    DecodeInt t (EncodeInt t [] v ++ rest) = .ok (rest, v) := by
  simp only [DecodeInt, EncodeInt, List.nil_append, List.cons_append, takeFixed_bigEndian,
    fromBigEndian_bigEndian, toInt64_flip_flip v h1 h2]

theorem DecodeUint_EncodeUint (t : Tags) (v : Nat) (rest : Bytes) (h : v < 2 ^ 64) :
    DecodeUint t (EncodeUint t [] v ++ rest) = .ok (rest, v) := by
  simp only [DecodeUint, EncodeUint, List.nil_append, List.cons_append, takeFixed_bigEndian,
    fromBigEndian_bigEndian]
  rw [pow_256_8, Nat.mod_eq_of_lt h]

theorem DecodeFloat_EncodeFloat (t : Tags) (bits : Nat) (rest : Bytes) (h : bits < 2 ^ 64) :
    DecodeFloat t (EncodeFloat t [] bits ++ rest) = .ok (rest, bits) := by
  simp only [DecodeFloat, EncodeFloat, List.nil_append, List.cons_append, takeFixed_bigEndian,
    fromBigEndian_bigEndian, cmpToFloat_floatToCmp bits h]

/-! ## Round trip of the group encoding -/

theorem encodeGroups_le (v : Bytes) (hv : ∀ x ∈ v, x ≤ 255) :
    ∀ i, i ≤ 7 → ∀ b ∈ encodeGroups i v, b ≤ 255 := by
  induction v with
  | nil =>
    intro i hi b hb
    simp only [encodeGroups, List.mem_append, List.mem_replicate, List.mem_singleton] at hb
    rcases hb with ⟨_, rfl⟩ | rfl <;> omega
  | cons x xs ih =>
    intro i hi b hb
    have hx := hv x (List.mem_cons_self _ _)
    have hxs : ∀ y ∈ xs, y ≤ 255 := fun y hy => hv y (List.mem_cons_of_mem _ hy)
    simp only [encodeGroups] at hb
    split_ifs at hb with h7
    · simp only [List.mem_cons] at hb
      rcases hb with rfl | rfl | hb
      · exact hx
      · omega
      · exact ih hxs 0 (by omega) b hb
    · simp only [List.mem_cons] at hb
      rcases hb with rfl | hb
      · exact hx
      · exact ih hxs (i + 1) (by omega) b hb

theorem encodeGroups_length (v : Bytes) :
    ∀ i, i ≤ 7 → (encodeGroups i v).length + i = 9 * ((i + v.length) / 8 + 1) := by
  induction v with
  | nil =>
    intro i hi
    simp only [encodeGroups, List.length_append, List.length_replicate, List.length_singleton,
      List.length_nil]
    omega
  | cons x xs ih =>
    intro i hi
    simp only [encodeGroups]
    split_ifs with h7
    · have := ih 0 (by omega)
      simp only [List.length_cons] at this ⊢
      omega
    · have := ih (i + 1) (by omega)
      simp only [List.length_cons] at this ⊢
      omega

theorem decodeGroups_encodeGroups : ∀ (fuel : Nat) (v rest : Bytes), v.length < 8 * fuel →
    decodeGroups fuel (encodeGroups 0 v ++ rest) = .ok (rest, v) := by
  intro fuel
  induction fuel with
  | zero => intro v rest h; omega
  | succ f ih =>
    intro v rest h
    rcases v with _ | ⟨a, _ | ⟨b, _ | ⟨c, _ | ⟨d, _ | ⟨e, _ | ⟨f', _ | ⟨g, _ | ⟨h', v'⟩⟩⟩⟩⟩⟩⟩⟩
    · simp [encodeGroups, decodeGroups, List.replicate]
    · simp [encodeGroups, decodeGroups, List.replicate]
    · simp [encodeGroups, decodeGroups, List.replicate]
    · simp [encodeGroups, decodeGroups, List.replicate]
    · simp [encodeGroups, decodeGroups, List.replicate]
    · simp [encodeGroups, decodeGroups, List.replicate]
    · simp [encodeGroups, decodeGroups, List.replicate]
    · simp [encodeGroups, decodeGroups, List.replicate]
    · have hv' : v'.length < 8 * f := by
        simp only [List.length_cons] at h
        omega
      have := ih v' rest hv'
      simp [encodeGroups, decodeGroups, this]

theorem decodeTagged_encodeGroups (tag : Nat) (v rest : Bytes) :
    decodeTagged tag (tag :: (encodeGroups 0 v ++ rest)) = .ok (rest, v) := by
  have hl := encodeGroups_length v 0 (by omega)
  simp only [decodeTagged, if_true]
  apply decodeGroups_encodeGroups
  simp only [List.length_append]
  omega

theorem DecodeBytes_EncodeBytes (t : Tags) (v rest : Bytes) :
    DecodeBytes t (EncodeBytes t [] v ++ rest) = .ok (rest, v) := by
  simp only [DecodeBytes, EncodeBytes, List.nil_append, List.cons_append,
    decodeTagged_encodeGroups]

end codec

namespace codec

theorem EncodeInt_le (t : Tags) (ht : t.WellFormed) (v : Int) :
    ∀ b ∈ EncodeInt t [] v, b ≤ 255 := by
  intro b hb
  simp only [EncodeInt, List.nil_append, List.mem_cons] at hb
  rcases hb with rfl | hb
  · have := ht.1; have := ht.2.1; have := ht.2.2.1; have := ht.2.2.2.1; omega
  · exact bigEndian_le _ _ b hb

theorem EncodeUint_le (t : Tags) (ht : t.WellFormed) (v : Nat) :
    ∀ b ∈ EncodeUint t [] v, b ≤ 255 := by
  intro b hb
  simp only [EncodeUint, List.nil_append, List.mem_cons] at hb
  rcases hb with rfl | hb
  · have := ht.2.2.1; have := ht.2.2.2.1; omega
  · exact bigEndian_le _ _ b hb

theorem EncodeFloat_le (t : Tags) (ht : t.WellFormed) (v : Nat) :
    ∀ b ∈ EncodeFloat t [] v, b ≤ 255 := by
  intro b hb
  simp only [EncodeFloat, List.nil_append, List.mem_cons] at hb
  rcases hb with rfl | hb
  · have := ht.2.2.2.2.2.1; omega
  · exact bigEndian_le _ _ b hb

theorem EncodeBytes_le (t : Tags) (ht : t.WellFormed) (v : Bytes) (hv : ∀ x ∈ v, x ≤ 255) :
    ∀ b ∈ EncodeBytes t [] v, b ≤ 255 := by
  intro b hb
  simp only [EncodeBytes, List.nil_append, List.mem_cons] at hb
  rcases hb with rfl | hb
  · have := ht.2.2.2.1; omega
  · exact encodeGroups_le v hv 0 (by omega) b hb

/-- C15. On the codec as specified, for every int64 `i`, every uint64 `u`, every
64-bit float pattern `bits` and every byte string `v` (the empty one included),
decoding what the encoder wrote into a nil buffer returns the value with a nil error
and no leftover bytes, for the ascending encodings and for their `Desc`
counterparts. -/
theorem codec_round_trip (t : Tags) (i : Int) (u bits : Nat) (v : Bytes)
    (ht : t.WellFormed) (hi1 : -(2 : Int) ^ 63 ≤ i) (hi2 : i < (2 : Int) ^ 63)
    (hu : u < 2 ^ 64) (hbits : bits < 2 ^ 64) (hv : ∀ x ∈ v, x ≤ 255) :
    DecodeInt t (EncodeInt t [] i) = .ok ([], i) ∧
    DecodeIntDesc t (EncodeIntDesc t [] i) = .ok ([], i) ∧
    DecodeUint t (EncodeUint t [] u) = .ok ([], u) ∧
    DecodeUintDesc t (EncodeUintDesc t [] u) = .ok ([], u) ∧
    DecodeFloat t (EncodeFloat t [] bits) = .ok ([], bits) ∧
    DecodeFloatDesc t (EncodeFloatDesc t [] bits) = .ok ([], bits) ∧
    DecodeBytes t (EncodeBytes t [] v) = .ok ([], v) ∧
    DecodeBytesDesc t (EncodeBytesDesc t [] v) = .ok ([], v) := by
  have e1 := DecodeInt_EncodeInt t i [] hi1 hi2
  have e2 := DecodeUint_EncodeUint t u [] hu
  have e3 := DecodeFloat_EncodeFloat t bits [] hbits
  have e4 := DecodeBytes_EncodeBytes t v []
  rw [List.append_nil] at e1 e2 e3 e4
  refine ⟨e1, ?_, e2, ?_, e3, ?_, e4, ?_⟩
  · simp only [DecodeIntDesc, EncodeIntDesc, List.nil_append]
    rw [complement_complement _ (EncodeInt_le t ht i), e1]
  · simp only [DecodeUintDesc, EncodeUintDesc, List.nil_append]
    rw [complement_complement _ (EncodeUint_le t ht u), e2]
  · simp only [DecodeFloatDesc, EncodeFloatDesc, List.nil_append]
    rw [complement_complement _ (EncodeFloat_le t ht bits), e3]
  · simp only [DecodeBytesDesc, EncodeBytesDesc, List.nil_append]
    rw [complement_complement _ (EncodeBytes_le t ht v hv), e4]

/-- The instance of C15 on the example tags with the values `-1`, `2 ^ 64 - 1`, the
bit pattern of the float `1.0` and the byte string `"abc"`. -/
theorem codec_round_trip_witness :
    exampleTags.WellFormed ∧ -(2 : Int) ^ 63 ≤ -1 ∧ (-1 : Int) < (2 : Int) ^ 63 ∧
    2 ^ 64 - 1 < 2 ^ 64 ∧ 4607182418800017408 < 2 ^ 64 ∧
    (∀ x ∈ ([97, 98, 99] : Bytes), x ≤ 255) ∧
    (DecodeInt exampleTags (EncodeInt exampleTags [] (-1)) = .ok ([], -1) ∧
    DecodeIntDesc exampleTags (EncodeIntDesc exampleTags [] (-1)) = .ok ([], -1) ∧
    DecodeUint exampleTags (EncodeUint exampleTags [] (2 ^ 64 - 1)) = .ok ([], 2 ^ 64 - 1) ∧
    DecodeUintDesc exampleTags (EncodeUintDesc exampleTags [] (2 ^ 64 - 1))
      = .ok ([], 2 ^ 64 - 1) ∧
    DecodeFloat exampleTags (EncodeFloat exampleTags [] 4607182418800017408)
      = .ok ([], 4607182418800017408) ∧
    DecodeFloatDesc exampleTags (EncodeFloatDesc exampleTags [] 4607182418800017408)
      = .ok ([], 4607182418800017408) ∧
    DecodeBytes exampleTags (EncodeBytes exampleTags [] [97, 98, 99])
      = .ok ([], [97, 98, 99]) ∧
    DecodeBytesDesc exampleTags (EncodeBytesDesc exampleTags [] [97, 98, 99])
      = .ok ([], [97, 98, 99])) :=
  ⟨by simp [Tags.WellFormed, exampleTags], by norm_num, by norm_num, by norm_num,
    by norm_num, by decide,
    codec_round_trip exampleTags (-1) (2 ^ 64 - 1) 4607182418800017408 [97, 98, 99]
      (by simp [Tags.WellFormed, exampleTags]) (by norm_num) (by norm_num) (by norm_num)
      (by norm_num) (by decide)⟩

end codec

namespace codec

/-! ## Order of the group encoding -/

theorem replicate_pad (i : Nat) (hi : i ≤ 7) :
    List.replicate (8 - i) 0 = 0 :: List.replicate (8 - (i + 1)) 0 := by
  have : 8 - i = (8 - (i + 1)) + 1 := by omega
  rw [this, List.replicate_succ]

/-- The padded end of a group is below every continuation of the group. -/
theorem pad_below_groups : ∀ (b : Bytes) (i m : Nat), i ≤ 7 →
    (m < i ∨ (m ≤ i ∧ b ≠ [])) →
    Diverge (List.replicate (8 - i) 0 ++ [m]) (encodeGroups i b) ∧
    bytesCompare (List.replicate (8 - i) 0 ++ [m]) (encodeGroups i b) = -1 := by
  intro b
  induction b with
  | nil =>
    intro i m _ h
    have hm : m < i := by
      rcases h with h | ⟨_, h⟩
      · exact h
      · exact absurd rfl h
    simp only [encodeGroups]
    refine ⟨Diverge.append_left _ (Diverge.head m i [] [] (by omega)), ?_⟩
    rw [bytesCompare_append_left]
    simp [bytesCompare, hm]
  | cons y ys ih =>
    intro i m hi h
    have hm : m ≤ i := by
      rcases h with h | ⟨h, _⟩ <;> omega
    rw [replicate_pad i hi]
    simp only [encodeGroups, List.cons_append]
    by_cases hy : y = 0
    · subst hy
      by_cases h7 : i = 7
      · subst h7
        simp only [if_true, Nat.reduceAdd, Nat.sub_self, List.replicate_zero, List.nil_append]
        refine ⟨Diverge.cons 0 _ _ (Diverge.head m 8 [] _ (by omega)), ?_⟩
        have : m < 8 := by omega
        simp [bytesCompare, this]
      · obtain ⟨d, c⟩ := ih (i + 1) m (by omega) (Or.inl (by omega))
        simp only [h7, if_false]
        refine ⟨Diverge.cons 0 _ _ d, ?_⟩
        simp only [bytesCompare, lt_irrefl, if_false]
        exact c
    · have hpos : 0 < y := Nat.pos_of_ne_zero hy
      split_ifs
      · exact ⟨Diverge.head 0 y _ _ (by omega), by simp [bytesCompare, hpos]⟩
      · exact ⟨Diverge.head 0 y _ _ (by omega), by simp [bytesCompare, hpos]⟩

/-- The group encodings of two byte strings compare as the byte strings do, and
diverge when the byte strings differ. -/
theorem encodeGroups_compare : ∀ (a b : Bytes) (i : Nat), i ≤ 7 →
    (a ≠ b → Diverge (encodeGroups i a) (encodeGroups i b)) ∧
    bytesCompare (encodeGroups i a) (encodeGroups i b) = bytesCompare a b := by
  intro a
  induction a with
  | nil =>
    intro b i hi
    cases b with
    | nil => exact ⟨fun h => absurd rfl h, by simp [bytesCompare_self, bytesCompare]⟩
    | cons y ys =>
      obtain ⟨d, c⟩ := pad_below_groups (y :: ys) i i hi (Or.inr ⟨le_refl _, by simp⟩)
      refine ⟨fun _ => ?_, ?_⟩
      · simpa only [encodeGroups] using d
      · rw [show encodeGroups i [] = List.replicate (8 - i) 0 ++ [i] from rfl, c]
        rfl
  | cons x xs ih =>
    intro b i hi
    cases b with
    | nil =>
      obtain ⟨d, c⟩ := pad_below_groups (x :: xs) i i hi (Or.inr ⟨le_refl _, by simp⟩)
      refine ⟨fun _ => ?_, ?_⟩
      · exact (show Diverge (List.replicate (8 - i) 0 ++ [i]) (encodeGroups i (x :: xs))
          from d).symm
      · rw [bytesCompare_swap, show encodeGroups i [] = List.replicate (8 - i) 0 ++ [i] from rfl,
          c]
        rfl
    | cons y ys =>
      by_cases hxy : x = y
      · subst hxy
        by_cases h7 : i = 7
        · obtain ⟨d, c⟩ := ih ys 0 (by omega)
          simp only [encodeGroups, h7, if_true, bytesCompare, lt_irrefl, if_false]
          refine ⟨fun hne => ?_, c⟩
          exact Diverge.cons x _ _ (Diverge.cons 8 _ _ (d (fun e => hne (by rw [e]))))
        · obtain ⟨d, c⟩ := ih ys (i + 1) (by omega)
          simp only [encodeGroups, h7, if_false, bytesCompare, lt_irrefl]
          refine ⟨fun hne => ?_, c⟩
          exact Diverge.cons x _ _ (d (fun e => hne (by rw [e])))
      · constructor
        · intro _
          simp only [encodeGroups]
          split_ifs <;> exact Diverge.head x y _ _ hxy
        · simp only [encodeGroups]
          split_ifs <;>
          · simp only [bytesCompare]
            split_ifs <;> first | rfl | omega

/-! ## Order of the scalar encodings -/

/-- Two byte strings with different first bytes diverge and compare as those bytes. -/
theorem compare_of_head_ne (c d : Nat) (xs ys : Bytes) (h : c ≠ d) :
    Diverge (c :: xs) (d :: ys) ∧ bytesCompare (c :: xs) (d :: ys) = cmpNat c d := by
  refine ⟨Diverge.head c d xs ys h, ?_⟩
  simp only [bytesCompare, cmpNat]
  split_ifs <;> first | rfl | omega

/-- Behind one tag, two payloads diverge and compare as they do without the tag. -/
theorem compare_of_same_tag (c : Nat) (xs ys : Bytes) :
    (Diverge xs ys → Diverge (c :: xs) (c :: ys)) ∧
    bytesCompare (c :: xs) (c :: ys) = bytesCompare xs ys := by
  refine ⟨fun d => Diverge.cons c xs ys d, ?_⟩
  simp [bytesCompare]

theorem cmpNat_flip (a b : Int) (ha1 : -(2 : Int) ^ 63 ≤ a) (ha2 : a < (2 : Int) ^ 63)
    (hb1 : -(2 : Int) ^ 63 ≤ b) (hb2 : b < (2 : Int) ^ 63) :
    cmpNat (flipSignBit (toUint64 a) % 256 ^ 8) (flipSignBit (toUint64 b) % 256 ^ 8)
      = cmpInt a b ∧
    (a ≠ b → flipSignBit (toUint64 a) % 256 ^ 8 ≠ flipSignBit (toUint64 b) % 256 ^ 8) := by
  rw [pow_256_8, flipSignBit_toUint64 a ha1 ha2, flipSignBit_toUint64 b hb1 hb2]
  unfold cmpNat cmpInt
  constructor
  · split_ifs <;> omega
  · intro h; omega

theorem floatToCmp_order (a b : Nat) (ha : a < 2 ^ 64) (hb : b < 2 ^ 64) :
    cmpNat (floatToCmp a % 256 ^ 8) (floatToCmp b % 256 ^ 8) = floatCmp a b ∧
    (a ≠ b → floatToCmp a % 256 ^ 8 ≠ floatToCmp b % 256 ^ 8) := by
  rw [pow_256_8]
  unfold cmpNat floatCmp floatToCmp cmpNat
  constructor
  · split_ifs <;> omega
  · intro h; split_ifs <;> omega

/-- The encodings of two well-formed values compare as the values do, and diverge
when the values differ. -/
theorem encodeValue_compare (t : Tags) (ht : t.WellFormed) (a b : Value)
    (ha : a.WellFormed) (hb : b.WellFormed) :
    (a ≠ b → Diverge (encodeValue t a) (encodeValue t b)) ∧
    bytesCompare (encodeValue t a) (encodeValue t b) = Value.compare t a b := by
  obtain ⟨t1, t2, t3, t4, t5, t6, t7, t8, t9, t10, t11, t12, t13, t14, t15⟩ := ht
  cases a <;> cases b
  case null.null => exact ⟨fun h => absurd rfl h, by simp [encodeValue, bytesCompare, Value.compare]⟩
  case int.int x y =>
    obtain ⟨c1, c2⟩ := cmpNat_flip x y ha.1 ha.2 hb.1 hb.2
    obtain ⟨_, d, c⟩ := bigEndian_compare 8 (flipSignBit (toUint64 x)) (flipSignBit (toUint64 y))
    obtain ⟨s1, s2⟩ := compare_of_same_tag t.int (bigEndian 8 (flipSignBit (toUint64 x)))
      (bigEndian 8 (flipSignBit (toUint64 y)))
    refine ⟨fun hne => s1 (d (c2 (fun e => hne (by rw [e])))), ?_⟩
    show bytesCompare (t.int :: _) (t.int :: _) = cmpInt x y
    rw [s2, c, c1]
  case uint.uint x y =>
    have hx : x < 2 ^ 64 := ha
    have hy : y < 2 ^ 64 := hb
    obtain ⟨_, d, c⟩ := bigEndian_compare 8 x y
    obtain ⟨s1, s2⟩ := compare_of_same_tag t.uint (bigEndian 8 x) (bigEndian 8 y)
    rw [pow_256_8, Nat.mod_eq_of_lt hx, Nat.mod_eq_of_lt hy] at d c
    refine ⟨fun hne => s1 (d (fun e => hne (by rw [e]))), ?_⟩
    show bytesCompare (t.uint :: _) (t.uint :: _) = cmpNat x y
    rw [s2, c]
  case float.float x y =>
    obtain ⟨c1, c2⟩ := floatToCmp_order x y ha hb
    obtain ⟨_, d, c⟩ := bigEndian_compare 8 (floatToCmp x) (floatToCmp y)
    obtain ⟨s1, s2⟩ := compare_of_same_tag t.float (bigEndian 8 (floatToCmp x))
      (bigEndian 8 (floatToCmp y))
    refine ⟨fun hne => s1 (d (c2 (fun e => hne (by rw [e])))), ?_⟩
    show bytesCompare (t.float :: _) (t.float :: _) = floatCmp x y
    rw [s2, c, c1]
  case bytes.bytes x y =>
    obtain ⟨d, c⟩ := encodeGroups_compare x y 0 (by omega)
    obtain ⟨s1, s2⟩ := compare_of_same_tag t.bytes (encodeGroups 0 x) (encodeGroups 0 y)
    refine ⟨fun hne => s1 (d (fun e => hne (by rw [e]))), ?_⟩
    show bytesCompare (t.bytes :: _) (t.bytes :: _) = bytesCompare x y
    rw [s2, c]
  case string.string x y =>
    obtain ⟨d, c⟩ := encodeGroups_compare x y 0 (by omega)
    obtain ⟨s1, s2⟩ := compare_of_same_tag t.string (encodeGroups 0 x) (encodeGroups 0 y)
    refine ⟨fun hne => s1 (d (fun e => hne (by rw [e]))), ?_⟩
    show bytesCompare (t.string :: _) (t.string :: _) = bytesCompare x y
    rw [s2, c]
  all_goals
    refine ⟨fun _ => (compare_of_head_ne _ _ _ _ ?_).1, (compare_of_head_ne _ _ _ _ ?_).2⟩ <;>
    omega

end codec

namespace codec

/-! ## Keys -/

theorem encodeValue_ne_nil (t : Tags) (v : Value) :
    ∃ c cs, encodeValue t v = c :: cs := by
  cases v <;> exact ⟨_, _, rfl⟩

/-- The encodings of two tuples of well-formed values compare as the tuples do. -/
theorem encodeValues_compare (t : Tags) (ht : t.WellFormed) :
    ∀ (xs ys : List Value), (∀ z ∈ xs, z.WellFormed) → (∀ z ∈ ys, z.WellFormed) →
    bytesCompare (encodeValues t xs) (encodeValues t ys) = compareTuple t xs ys := by
  intro xs
  induction xs with
  | nil =>
    intro ys _ _
    cases ys with
    | nil => rfl
    | cons y ys =>
      obtain ⟨c, cs, hc⟩ := encodeValue_ne_nil t y
      simp [encodeValues, compareTuple, hc, bytesCompare]
  | cons x xs ih =>
    intro ys hxs hys
    cases ys with
    | nil =>
      obtain ⟨c, cs, hc⟩ := encodeValue_ne_nil t x
      simp [encodeValues, compareTuple, hc, bytesCompare]
    | cons y ys =>
      have hx := hxs x (List.mem_cons_self _ _)
      have hy := hys y (List.mem_cons_self _ _)
      obtain ⟨d, c⟩ := encodeValue_compare t ht x y hx hy
      simp only [encodeValues, compareTuple]
      by_cases hxy : x = y
      · subst hxy
        rw [if_pos rfl, bytesCompare_append_left]
        exact ih ys (fun z hz => hxs z (List.mem_cons_of_mem _ hz))
          (fun z hz => hys z (List.mem_cons_of_mem _ hz))
      · rw [if_neg hxy, (d hxy).compare_append, c]

theorem EncodeKey_eq_encodeValues (t : Tags) (widen : Nat → Nat) :
    ∀ (gvs : List GoValue) (ns : List Value), gvs.map (normalise widen) = ns.map some →
    EncodeKey t widen gvs = .ok (encodeValues t ns) := by
  intro gvs
  induction gvs with
  | nil =>
    intro ns h
    cases ns with
    | nil => rfl
    | cons n ns => simp at h
  | cons g gs ih =>
    intro ns h
    cases ns with
    | nil => simp at h
    | cons n ns =>
      simp only [List.map_cons, List.cons.injEq] at h
      simp only [EncodeKey, h.1, ih ns h.2, encodeValues]

/-- C16. On the codec as specified, the key encoding preserves order: for all pairs of
int64 values, of uint64 values and of byte strings, `bytes.Compare` of the encodings is
the three-way comparison of the values; for all tuples of well-formed values it is the
comparison of the tuples field by field; the encoding of every non-null value is above
the encoding of Null; `EncodeKey` of supported values is the concatenation of the
encodings of the normalised values, and `EncodeKey(0)`, `EncodeKey([]byte{0x00})` and
`EncodeKey(math.MinInt64)` each compare greater than `EncodeKey(nil)`. -/
theorem encoding_preserves_order (t : Tags) (widen : Nat → Nat) (a b : Int) (u v : Nat)
    (x y : Bytes) (xs ys : List Value) (w : Value) (ht : t.WellFormed)
    (ha1 : -(2 : Int) ^ 63 ≤ a) (ha2 : a < (2 : Int) ^ 63)
    (hb1 : -(2 : Int) ^ 63 ≤ b) (hb2 : b < (2 : Int) ^ 63)
    (hu : u < 2 ^ 64) (hv : v < 2 ^ 64)
    (hxs : ∀ z ∈ xs, z.WellFormed) (hys : ∀ z ∈ ys, z.WellFormed)
    (hw : w.WellFormed) (hnn : w ≠ Value.null) :
    bytesCompare (EncodeInt t [] a) (EncodeInt t [] b) = cmpInt a b ∧
    bytesCompare (EncodeUint t [] u) (EncodeUint t [] v) = cmpNat u v ∧
    bytesCompare (EncodeBytes t [] x) (EncodeBytes t [] y) = bytesCompare x y ∧
    bytesCompare (encodeValues t xs) (encodeValues t ys) = compareTuple t xs ys ∧
    bytesCompare (encodeValue t w) (encodeValue t Value.null) = 1 ∧
    (∀ (gvs : List GoValue) (ns : List Value), gvs.map (normalise widen) = ns.map some →
      EncodeKey t widen gvs = .ok (encodeValues t ns)) ∧
    (∃ b0 b1 b2 b3, EncodeKey t widen [GoValue.nil] = .ok b0 ∧
      EncodeKey t widen [GoValue.int 0] = .ok b1 ∧
      EncodeKey t widen [GoValue.bytes [0]] = .ok b2 ∧
      EncodeKey t widen [GoValue.int (-(2 : Int) ^ 63)] = .ok b3 ∧
      bytesCompare b1 b0 = 1 ∧ bytesCompare b2 b0 = 1 ∧ bytesCompare b3 b0 = 1) := by
  have above : ∀ z : Value, z.WellFormed → z ≠ Value.null →
      bytesCompare (encodeValue t z) (encodeValue t Value.null) = 1 := by
    intro z hz hne
    rw [(encodeValue_compare t ht z Value.null hz trivial).2]
    obtain ⟨t1, t2, t3, t4, t5, t6, t7, t8, _⟩ := ht
    cases z <;> first
      | exact absurd rfl hne
      | (simp only [Value.compare, Value.tag, cmpNat]
         split_ifs <;> first | rfl | omega)
  refine ⟨?_, ?_, ?_, encodeValues_compare t ht xs ys hxs hys, above w hw hnn,
    EncodeKey_eq_encodeValues t widen, ?_⟩
  · exact (encodeValue_compare t ht (Value.int a) (Value.int b) ⟨ha1, ha2⟩ ⟨hb1, hb2⟩).2
  · exact (encodeValue_compare t ht (Value.uint u) (Value.uint v) hu hv).2
  · have := (encodeGroups_compare x y 0 (by omega)).2
    show bytesCompare (t.bytes :: _) (t.bytes :: _) = bytesCompare x y
    rw [(compare_of_same_tag _ _ _).2, this]
  · refine ⟨encodeValues t [Value.null], encodeValues t [Value.int 0],
      encodeValues t [Value.bytes [0]], encodeValues t [Value.int (-(2 : Int) ^ 63)],
      rfl, rfl, rfl, rfl, ?_, ?_, ?_⟩
    · simpa [encodeValues] using above (Value.int 0) ⟨by norm_num, by norm_num⟩ (by simp)
    · simpa [encodeValues] using above (Value.bytes [0]) (by simp [Value.WellFormed]) (by simp)
    · simpa [encodeValues] using
        above (Value.int (-(2 : Int) ^ 63)) ⟨by norm_num, by norm_num⟩ (by simp)

end codec

namespace codec

/-- The instance of C16 on the example tags, with the pair `("abc", "abcd")` and the
tuples `(1, "abc", "def")` and `(1, "abcd", "af")` of the test, which compare as `-1`. -/
theorem encoding_preserves_order_witness :
    exampleTags.WellFormed ∧
    bytesCompare (EncodeInt exampleTags [] (-1)) (EncodeInt exampleTags [] 1) = -1 ∧
    bytesCompare
        (encodeValues exampleTags
          [Value.int 1, Value.string [97, 98, 99], Value.string [100, 101, 102]])
        (encodeValues exampleTags
          [Value.int 1, Value.string [97, 98, 99, 100], Value.string [97, 102]])
      = compareTuple exampleTags
          [Value.int 1, Value.string [97, 98, 99], Value.string [100, 101, 102]]
          [Value.int 1, Value.string [97, 98, 99, 100], Value.string [97, 102]] ∧
    compareTuple exampleTags
        [Value.int 1, Value.string [97, 98, 99], Value.string [100, 101, 102]]
        [Value.int 1, Value.string [97, 98, 99, 100], Value.string [97, 102]] = -1 :=
  ⟨by simp [Tags.WellFormed, exampleTags], by decide,
    (encoding_preserves_order exampleTags id (-1) 1 0 1 [97, 98, 99] [97, 98, 99, 100]
      [Value.int 1, Value.string [97, 98, 99], Value.string [100, 101, 102]]
      [Value.int 1, Value.string [97, 98, 99, 100], Value.string [97, 102]] (Value.int 0)
      (by simp [Tags.WellFormed, exampleTags]) (by norm_num) (by norm_num) (by norm_num)
      (by norm_num) (by norm_num) (by norm_num)
      (by
        intro z hz
        simp only [List.mem_cons, List.mem_singleton, List.not_mem_nil, or_false] at hz
        rcases hz with rfl | rfl | rfl <;> simp [Value.WellFormed])
      (by
        intro z hz
        simp only [List.mem_cons, List.mem_singleton, List.not_mem_nil, or_false] at hz
        rcases hz with rfl | rfl | rfl <;> simp [Value.WellFormed])
      (by simp [Value.WellFormed]) (by simp)).2.2.2.1,
    by decide⟩

/-! ## Descending encodings -/

/-- Complementing the encodings of two well-formed values reverses their comparison. -/
theorem complement_encodeValue (t : Tags) (ht : t.WellFormed) (a b : Value)
    (ha : a.WellFormed) (hb : b.WellFormed)
    (hla : ∀ z ∈ encodeValue t a, z ≤ 255) (hlb : ∀ z ∈ encodeValue t b, z ≤ 255) :
    bytesCompare (complement (encodeValue t a)) (complement (encodeValue t b))
      = -bytesCompare (encodeValue t a) (encodeValue t b) := by
  by_cases h : a = b
  · subst h
    simp [bytesCompare_self]
  · exact ((encodeValue_compare t ht a b ha hb).1 h).compare_complement hla hlb

/-- C17. On the codec as specified, the descending encodings reverse the order of the
ascending ones: for all int64 values, all uint64 values, all 64-bit float patterns and
all byte strings, of equal or of different lengths, `bytes.Compare` of the `Desc`
encodings is the negation of `bytes.Compare` of the ascending encodings. -/
theorem desc_reverses_order (t : Tags) (a b : Int) (u v p q : Nat) (x y : Bytes)
    (ht : t.WellFormed)
    (ha1 : -(2 : Int) ^ 63 ≤ a) (ha2 : a < (2 : Int) ^ 63)
    (hb1 : -(2 : Int) ^ 63 ≤ b) (hb2 : b < (2 : Int) ^ 63)
    (hu : u < 2 ^ 64) (hv : v < 2 ^ 64) (hp : p < 2 ^ 64) (hq : q < 2 ^ 64)
    (hx : ∀ z ∈ x, z ≤ 255) (hy : ∀ z ∈ y, z ≤ 255) :
    bytesCompare (EncodeIntDesc t [] a) (EncodeIntDesc t [] b)
      = -bytesCompare (EncodeInt t [] a) (EncodeInt t [] b) ∧
    bytesCompare (EncodeUintDesc t [] u) (EncodeUintDesc t [] v)
      = -bytesCompare (EncodeUint t [] u) (EncodeUint t [] v) ∧
    bytesCompare (EncodeFloatDesc t [] p) (EncodeFloatDesc t [] q)
      = -bytesCompare (EncodeFloat t [] p) (EncodeFloat t [] q) ∧
    bytesCompare (EncodeBytesDesc t [] x) (EncodeBytesDesc t [] y)
      = -bytesCompare (EncodeBytes t [] x) (EncodeBytes t [] y) := by
  refine ⟨?_, ?_, ?_, ?_⟩
  · exact complement_encodeValue t ht (Value.int a) (Value.int b) ⟨ha1, ha2⟩ ⟨hb1, hb2⟩
      (EncodeInt_le t ht a) (EncodeInt_le t ht b)
  · exact complement_encodeValue t ht (Value.uint u) (Value.uint v) hu hv
      (EncodeUint_le t ht u) (EncodeUint_le t ht v)
  · exact complement_encodeValue t ht (Value.float p) (Value.float q) hp hq
      (EncodeFloat_le t ht p) (EncodeFloat_le t ht q)
  · exact complement_encodeValue t ht (Value.bytes x) (Value.bytes y) hx hy
      (EncodeBytes_le t ht x hx) (EncodeBytes_le t ht y hy)

/-- The instance of C17 on the example tags, with the pairs `(-1, 1)`, `(1, 0)`, the
bit patterns of the floats `1.0` and `-1.0`, and the byte strings `{0xFF}` and
`{0xFF, 0x00}` of different lengths. -/
theorem desc_reverses_order_witness :
    exampleTags.WellFormed ∧
    bytesCompare (EncodeBytes exampleTags [] [255]) (EncodeBytes exampleTags [] [255, 0])
      = -1 ∧
    bytesCompare (EncodeBytesDesc exampleTags [] [255])
        (EncodeBytesDesc exampleTags [] [255, 0]) = 1 ∧
    (bytesCompare (EncodeIntDesc exampleTags [] (-1)) (EncodeIntDesc exampleTags [] 1)
      = -bytesCompare (EncodeInt exampleTags [] (-1)) (EncodeInt exampleTags [] 1) ∧
    bytesCompare (EncodeUintDesc exampleTags [] 1) (EncodeUintDesc exampleTags [] 0)
      = -bytesCompare (EncodeUint exampleTags [] 1) (EncodeUint exampleTags [] 0) ∧
    bytesCompare (EncodeFloatDesc exampleTags [] 4607182418800017408)
        (EncodeFloatDesc exampleTags [] 13830554455654793216)
      = -bytesCompare (EncodeFloat exampleTags [] 4607182418800017408)
          (EncodeFloat exampleTags [] 13830554455654793216) ∧
    bytesCompare (EncodeBytesDesc exampleTags [] [255])
        (EncodeBytesDesc exampleTags [] [255, 0])
      = -bytesCompare (EncodeBytes exampleTags [] [255])
          (EncodeBytes exampleTags [] [255, 0])) :=
  ⟨by simp [Tags.WellFormed, exampleTags], by decide, by decide,
    desc_reverses_order exampleTags (-1) 1 1 0 4607182418800017408 13830554455654793216
      [255] [255, 0] (by simp [Tags.WellFormed, exampleTags]) (by norm_num) (by norm_num)
      (by norm_num) (by norm_num) (by norm_num) (by norm_num) (by norm_num) (by norm_num)
      (by decide) (by decide)⟩

end codec

namespace codec

/-! ## Round trip of keys -/

/-- Decoding one value reads back exactly the value in front and leaves the rest. -/
theorem decodeValue_encodeValue (t : Tags) (ht : t.WellFormed) (v : Value)
    (hv : v.WellFormed) (rest : Bytes) :
    decodeValue t (encodeValue t v ++ rest) = .ok (rest, v) := by
  obtain ⟨t1, t2, t3, t4, t5, t6, t7, t8, t9, t10, t11, t12, t13, t14, t15⟩ := ht
  cases v with
  | null => simp [encodeValue, decodeValue]
  | int x =>
    have h := DecodeInt_EncodeInt t x rest hv.1 hv.2
    have hne : t.int ≠ t.null := by omega
    simp only [encodeValue] at h ⊢
    rw [show EncodeInt t [] x ++ rest = t.int :: (bigEndian 8 (flipSignBit (toUint64 x)) ++ rest)
      from rfl] at h ⊢
    simp only [decodeValue, hne, if_false, if_true, h]
  | uint x =>
    have h := DecodeUint_EncodeUint t x rest hv
    have h1 : t.uint ≠ t.null := by omega
    have h2 : t.uint ≠ t.int := by omega
    simp only [encodeValue] at h ⊢
    rw [show EncodeUint t [] x ++ rest = t.uint :: (bigEndian 8 x ++ rest) from rfl] at h ⊢
    simp only [decodeValue, h1, h2, if_false, if_true, h]
  | float x =>
    have h := DecodeFloat_EncodeFloat t x rest hv
    have h1 : t.float ≠ t.null := by omega
    simp only [encodeValue] at h ⊢
    rw [show EncodeFloat t [] x ++ rest = t.float :: (bigEndian 8 (floatToCmp x) ++ rest)
      from rfl] at h ⊢
    simp only [decodeValue, h1, t9, t10, if_false, if_true, h]
  | bytes x =>
    have h := DecodeBytes_EncodeBytes t x rest
    have h1 : t.bytes ≠ t.null := by omega
    have h2 : t.bytes ≠ t.int := by omega
    have h3 : t.bytes ≠ t.uint := by omega
    have h4 : t.bytes ≠ t.float := fun e => t11 e.symm
    simp only [encodeValue] at h ⊢
    rw [show EncodeBytes t [] x ++ rest = t.bytes :: (encodeGroups 0 x ++ rest) from rfl] at h ⊢
    simp only [decodeValue, h1, h2, h3, h4, if_false, if_true, h]
  | string x =>
    have h := decodeTagged_encodeGroups t.string x rest
    have h1 : t.string ≠ t.null := by omega
    have h4 : t.string ≠ t.float := fun e => t12 e.symm
    simp only [encodeValue, List.cons_append]
    simp only [decodeValue, h1, t13, t14, t15, h4, if_false, if_true, h]

theorem decodeAll_encodeValues (t : Tags) (ht : t.WellFormed) :
    ∀ (vs : List Value) (fuel : Nat), (∀ z ∈ vs, z.WellFormed) →
    (encodeValues t vs).length ≤ fuel →
    decodeAll t fuel (encodeValues t vs) = .ok vs := by
  intro vs
  induction vs with
  | nil => intro fuel _ _; cases fuel <;> rfl
  | cons v vs ih =>
    intro fuel hwf hlen
    obtain ⟨c, cs, hc⟩ := encodeValue_ne_nil t v
    have hd := decodeValue_encodeValue t ht v (hwf v (List.mem_cons_self _ _))
      (encodeValues t vs)
    simp only [encodeValues, hc, List.cons_append, List.length_cons, List.length_append]
      at hlen hd ⊢
    cases fuel with
    | zero => omega
    | succ f =>
      simp only [decodeAll, hd]
      rw [ih f (fun z hz => hwf z (List.mem_cons_of_mem _ hz)) (by omega)]

/-- C18. On the codec as specified, for every list of supported values (`ns` being
the normalised values: every signed width as int64, every unsigned width as uint64,
float32 widened to float64, true and false as the int64 1 and 0, nil as Null, `[]byte`
and `string` values unchanged in their own kinds), `EncodeKey` succeeds and `DecodeKey`
of its output returns, with a nil error, the list of the normalised values, which is
as long as the input. -/
theorem DecodeKey_EncodeKey (t : Tags) (widen : Nat → Nat) (vs : List GoValue)
    (ns : List Value) (ht : t.WellFormed)
    (hn : vs.map (normalise widen) = ns.map some) (hwf : ∀ z ∈ ns, z.WellFormed) :
    ∃ b, EncodeKey t widen vs = .ok b ∧ DecodeKey t b = .ok ns ∧ ns.length = vs.length := by
  refine ⟨encodeValues t ns, EncodeKey_eq_encodeValues t widen vs ns hn, ?_, ?_⟩
  · exact decodeAll_encodeValues t ht ns _ hwf (le_refl _)
  · have := congrArg List.length hn
    simpa using this.symm

/-- The instance of C18 on the example tags with a row of the test: `float32(1)`,
`float64(3.15)`, `[]byte("123")`, `"123"` (the floats as bit patterns, the widening
taking the pattern of `float32(1)` to the pattern of `float64(1)`), and the row
`true, false`, which comes back as the int64 values 1 and 0. -/
theorem DecodeKey_EncodeKey_witness :
    exampleTags.WellFormed ∧
    (∃ b, EncodeKey exampleTags (fun _ => 4607182418800017408)
        [GoValue.bool true, GoValue.bool false] = .ok b ∧
      DecodeKey exampleTags b = .ok [Value.int 1, Value.int 0] ∧
      [Value.int 1, Value.int 0].length = [GoValue.bool true, GoValue.bool false].length) ∧
    ∃ b, EncodeKey exampleTags (fun _ => 4607182418800017408)
        [GoValue.float32 1065353216, GoValue.float64 4614275588213125939,
          GoValue.bytes [49, 50, 51], GoValue.string [49, 50, 51]] = .ok b ∧
      DecodeKey exampleTags b
        = .ok [Value.float 4607182418800017408, Value.float 4614275588213125939,
            Value.bytes [49, 50, 51], Value.string [49, 50, 51]] ∧
      [Value.float 4607182418800017408, Value.float 4614275588213125939,
          Value.bytes [49, 50, 51], Value.string [49, 50, 51]].length
        = [GoValue.float32 1065353216, GoValue.float64 4614275588213125939,
            GoValue.bytes [49, 50, 51], GoValue.string [49, 50, 51]].length :=
  ⟨by simp [Tags.WellFormed, exampleTags],
    DecodeKey_EncodeKey exampleTags (fun _ => 4607182418800017408)
      [GoValue.bool true, GoValue.bool false] [Value.int 1, Value.int 0]
      (by simp [Tags.WellFormed, exampleTags]) rfl
      (by
        intro z hz
        simp only [List.mem_cons, List.mem_singleton, List.not_mem_nil, or_false] at hz
        rcases hz with rfl | rfl <;> simp [Value.WellFormed]),
    DecodeKey_EncodeKey exampleTags (fun _ => 4607182418800017408)
      [GoValue.float32 1065353216, GoValue.float64 4614275588213125939,
        GoValue.bytes [49, 50, 51], GoValue.string [49, 50, 51]]
      [Value.float 4607182418800017408, Value.float 4614275588213125939,
        Value.bytes [49, 50, 51], Value.string [49, 50, 51]]
      (by simp [Tags.WellFormed, exampleTags]) rfl
      (by
        intro z hz
        simp only [List.mem_cons, List.mem_singleton, List.not_mem_nil, or_false] at hz
        rcases hz with rfl | rfl | rfl | rfl <;> simp [Value.WellFormed])⟩

end codec

/-! ## `CASE` and `IS TRUE` -/

namespace expressions

variable {X V E : Type}

/-- A clause whose comparison comes out NULL or false: one comparison is logged and the
clause does not match. -/
theorem evalAndCheck_skip (Eval : X → Except E (Option V))
    (EvalEQ : Option V → X → Except E (Option V)) (ToBool : V → Except E Int) (vTrue : V)
    (target : Option V) (w : WhenClause X) (log : List (EvalCall X V))
    (h : clauseSkips EvalEQ ToBool target w = true) :
    w.evalAndCheck (ExprOps.traced Eval EvalEQ ToBool vTrue) log target
      = ((none, false, none), log ++ [EvalCall.EvalEQ target w.Expr]) := by
  unfold clauseSkips at h
  simp only [WhenClause.evalAndCheck, ExprOps.traced]
  cases he : EvalEQ target w.Expr with
  | error err => simp [he] at h
  | ok o =>
    cases o with
    | none => rfl
    | some eq =>
      simp only [he] at h
      cases hb : ToBool eq with
      | error err => simp [hb] at h
      | ok beq =>
        simp only [hb, beq_iff_eq] at h
        simp only [hb, h, if_true]

/-- A clause whose comparison comes out true: the comparison and the evaluation of the
result are logged, and the outcome is that of the result. -/
theorem evalAndCheck_match (Eval : X → Except E (Option V))
    (EvalEQ : Option V → X → Except E (Option V)) (ToBool : V → Except E Int) (vTrue : V)
    (target : Option V) (w : WhenClause X) (log : List (EvalCall X V))
    (h : clauseMatches EvalEQ ToBool target w = true) :
    w.evalAndCheck (ExprOps.traced Eval EvalEQ ToBool vTrue) log target
      = ((match Eval w.Result with
          | .error err => (none, true, some err)
          | .ok v => (v, true, none)),
         log ++ [EvalCall.EvalEQ target w.Expr, EvalCall.Eval w.Result]) := by
  unfold clauseMatches at h
  simp only [WhenClause.evalAndCheck, ExprOps.traced]
  cases he : EvalEQ target w.Expr with
  | error err => simp [he] at h
  | ok o =>
    cases o with
    | none => simp [he] at h
    | some eq =>
      simp only [he] at h
      cases hb : ToBool eq with
      | error err => simp [hb] at h
      | ok beq =>
        simp only [hb, Bool.not_eq_true', beq_eq_false_iff_ne, ne_eq] at h
        simp only [hb, h, if_false]
        cases Eval w.Result <;> simp

/-- A clause whose comparison fails: the comparison is logged and the error comes
back. -/
theorem evalAndCheck_fail (Eval : X → Except E (Option V))
    (EvalEQ : Option V → X → Except E (Option V)) (ToBool : V → Except E Int) (vTrue : V)
    (target : Option V) (w : WhenClause X) (log : List (EvalCall X V)) (err : E)
    (h : clauseFails EvalEQ ToBool target w = some err) :
    w.evalAndCheck (ExprOps.traced Eval EvalEQ ToBool vTrue) log target
      = ((none, false, some err), log ++ [EvalCall.EvalEQ target w.Expr]) := by
  unfold clauseFails at h
  simp only [WhenClause.evalAndCheck, ExprOps.traced]
  cases he : EvalEQ target w.Expr with
  | error e =>
    simp only [he, Option.some.injEq] at h
    subst h
    rfl
  | ok o =>
    cases o with
    | none => simp [he] at h
    | some eq =>
      simp only [he] at h
      cases hb : ToBool eq with
      | error e =>
        simp only [hb, Option.some.injEq] at h
        subst h
        simp only [hb]
      | ok beq => simp [hb] at h

/-- The loop passes over clauses that do not match, logging their comparisons. -/
theorem whenLoop_skip (Eval : X → Except E (Option V))
    (EvalEQ : Option V → X → Except E (Option V)) (ToBool : V → Except E Int) (vTrue : V)
    (target : Option V) (pre rest : List (WhenClause X)) :
    ∀ (log : List (EvalCall X V)), (∀ c ∈ pre, clauseSkips EvalEQ ToBool target c = true) →
    FunctionCase.whenLoop (ExprOps.traced Eval EvalEQ ToBool vTrue) target (pre ++ rest) log
      = FunctionCase.whenLoop (ExprOps.traced Eval EvalEQ ToBool vTrue) target rest
          (log ++ pre.map (fun c => EvalCall.EvalEQ target c.Expr)) := by
  induction pre with
  | nil => intro log _; simp
  | cons c pre ih =>
    intro log h
    have hc := evalAndCheck_skip Eval EvalEQ ToBool vTrue target c log
      (h c (List.mem_cons_self _ _))
    rw [List.cons_append]
    simp only [FunctionCase.whenLoop, hc]
    rw [ih _ (fun d hd => h d (List.mem_cons_of_mem _ hd))]
    simp

end expressions

namespace expressions

variable {X V E : Type}

/-- C21. With the expression layer logging the evaluations asked of it, and the target
being the evaluated `Value` (or `true` when there is none): if the clauses before `w`
all compare to the target with a NULL or false outcome and `w` compares with a true
one, `FunctionCase.Eval` returns what the `Result` of `w` evaluates to, and the log
holds the target's evaluation, one comparison per clause up to `w`, and the evaluation
of the `Result` of `w`, nothing else: no other `Result` is evaluated and no later
clause is looked at. If no clause matches it returns what the ELSE clause evaluates
to, or NULL with a nil error when there is no ELSE, having evaluated no `Result`. If
the comparison of a clause fails before any clause has matched, that error is returned
and no `Result` is evaluated. -/
theorem FunctionCase_Eval_first_match (Eval : X → Except E (Option V))
    (EvalEQ : Option V → X → Except E (Option V)) (ToBool : V → Except E Int) (vTrue : V)
    (f : FunctionCase X) (target : Option V) (log : List (EvalCall X V))
    (ht : f.target Eval vTrue = .ok target) :
    (∀ (pre : List (WhenClause X)) (w : WhenClause X) (post : List (WhenClause X)),
      f.WhenClauses = pre ++ w :: post →
      (∀ c ∈ pre, clauseSkips EvalEQ ToBool target c = true) →
      clauseMatches EvalEQ ToBool target w = true →
      f.Eval (ExprOps.traced Eval EvalEQ ToBool vTrue) log
        = (Eval w.Result,
            log ++ f.valueCalls ++ pre.map (fun c => EvalCall.EvalEQ target c.Expr)
              ++ [EvalCall.EvalEQ target w.Expr, EvalCall.Eval w.Result])) ∧
    ((∀ c ∈ f.WhenClauses, clauseSkips EvalEQ ToBool target c = true) →
      f.Eval (ExprOps.traced Eval EvalEQ ToBool vTrue) log
        = ((match f.ElseClause with
            | some e => Eval e
            | none => .ok none),
           log ++ f.valueCalls
             ++ f.WhenClauses.map (fun c => EvalCall.EvalEQ target c.Expr)
             ++ (match f.ElseClause with
                 | some e => [EvalCall.Eval e]
                 | none => []))) ∧
    (∀ (pre : List (WhenClause X)) (w : WhenClause X) (post : List (WhenClause X)) (err : E),
      f.WhenClauses = pre ++ w :: post →
      (∀ c ∈ pre, clauseSkips EvalEQ ToBool target c = true) →
      clauseFails EvalEQ ToBool target w = some err →
      f.Eval (ExprOps.traced Eval EvalEQ ToBool vTrue) log
        = (.error err,
            log ++ f.valueCalls ++ pre.map (fun c => EvalCall.EvalEQ target c.Expr)
              ++ [EvalCall.EvalEQ target w.Expr])) := by
  have hstart : (match f.Value with
        | none => ((.ok (some vTrue) : Except E (Option V)), log)
        | some v => (ExprOps.traced Eval EvalEQ ToBool vTrue).Eval log v)
      = (.ok target, log ++ f.valueCalls) := by
    unfold FunctionCase.target at ht
    unfold FunctionCase.valueCalls
    cases hv : f.Value with
    | none => simp only [hv] at ht; simp [ht]
    | some v => simp only [hv] at ht; simp [ExprOps.traced, ht]
  refine ⟨?_, ?_, ?_⟩
  · intro pre w post hw hpre hm
    unfold FunctionCase.Eval
    simp only [show (ExprOps.traced Eval EvalEQ ToBool vTrue).vTrue = vTrue from rfl, hstart, hw]
    rw [whenLoop_skip Eval EvalEQ ToBool vTrue target pre (w :: post) _ hpre]
    simp only [FunctionCase.whenLoop,
      evalAndCheck_match Eval EvalEQ ToBool vTrue target w _ hm]
    cases Eval w.Result <;> simp
  · intro hall
    unfold FunctionCase.Eval
    simp only [show (ExprOps.traced Eval EvalEQ ToBool vTrue).vTrue = vTrue from rfl, hstart]
    have h := whenLoop_skip Eval EvalEQ ToBool vTrue target f.WhenClauses []
      (log ++ f.valueCalls) hall
    rw [List.append_nil] at h
    rw [h]
    simp only [FunctionCase.whenLoop]
    cases f.ElseClause with
    | none => simp
    | some e => simp [ExprOps.traced]
  · intro pre w post err hw hpre hfail
    unfold FunctionCase.Eval
    simp only [show (ExprOps.traced Eval EvalEQ ToBool vTrue).vTrue = vTrue from rfl, hstart, hw]
    rw [whenLoop_skip Eval EvalEQ ToBool vTrue target pre (w :: post) _ hpre]
    simp only [FunctionCase.whenLoop,
      evalAndCheck_fail Eval EvalEQ ToBool vTrue target w _ err hfail]

/-- The instance of C21 on `exampleCase`, where the third clause is the first match
(the results of the second and the fourth clause would fail if they were evaluated),
and on `exampleCaseNoElse`, which comes out NULL. -/
theorem FunctionCase_Eval_first_match_witness :
    exampleCase.target exampleEval 1 = .ok (some 2) ∧
    exampleCase.Eval exampleOps []
      = (.ok (some 20),
          [EvalCall.Eval 2, EvalCall.EvalEQ (some 2) 1, EvalCall.EvalEQ (some 2) 0,
            EvalCall.EvalEQ (some 2) 2, EvalCall.Eval 20]) ∧
    exampleCaseNoElse.Eval exampleOps []
      = (.ok none, [EvalCall.EvalEQ (some 1) 0]) :=
  ⟨rfl,
    (FunctionCase_Eval_first_match exampleEval exampleEvalEQ exampleToBool 1 exampleCase
      (some 2) [] rfl).1 [⟨1, 10⟩, ⟨0, 99⟩] ⟨2, 20⟩ [⟨2, 99⟩] rfl (by decide) (by decide),
    (FunctionCase_Eval_first_match exampleEval exampleEvalEQ exampleToBool 1
      exampleCaseNoElse (some 1) [] rfl).2.1 (by decide)⟩

/-- C22. `IsTruth.Eval` on an operand that evaluates to NULL returns the `Not` flag
(false for IS TRUE and IS FALSE, true for IS NOT TRUE and IS NOT FALSE); on a non-NULL
operand whose boolean conversion is `b` it returns `b == True` when `Not` is false and
the negation of that when `Not` is true. An error of the evaluation or of the
conversion is returned as it is. -/
theorem IsTruth_Eval_truth_table {σ : Type} (ops : ExprOps X V σ E) (is : IsTruth X)
    (s : σ) :
    (∀ st, ops.Eval s is.Expr = (.ok none, st) → is.Eval ops s = (.ok is.Not, st)) ∧
    (∀ st, ops.Eval s is.Expr = (.ok none, st) → is.Not = false →
      is.Eval ops s = (.ok false, st)) ∧
    (∀ st, ops.Eval s is.Expr = (.ok none, st) → is.Not = true →
      is.Eval ops s = (.ok true, st)) ∧
    (∀ st val b, ops.Eval s is.Expr = (.ok (some val), st) → ops.ToBool val = .ok b →
      (is.Not = false → is.Eval ops s = (.ok (b == is.True), st)) ∧
      (is.Not = true → is.Eval ops s = (.ok (!(b == is.True)), st))) ∧
    (∀ st err, ops.Eval s is.Expr = (.error err, st) → is.Eval ops s = (.error err, st)) ∧
    (∀ st val err, ops.Eval s is.Expr = (.ok (some val), st) → ops.ToBool val = .error err →
      is.Eval ops s = (.error err, st)) := by
  refine ⟨?_, ?_, ?_, ?_, ?_, ?_⟩
  · intro st h
    simp [IsTruth.Eval, h]
  · intro st h hn
    simp [IsTruth.Eval, h, hn]
  · intro st h hn
    simp [IsTruth.Eval, h, hn]
  · intro st val b h hb
    constructor
    · intro hn
      simp [IsTruth.Eval, h, hb, hn]
    · intro hn
      simp [IsTruth.Eval, h, hb, hn, bne]
  · intro st err h
    simp [IsTruth.Eval, h]
  · intro st val err h hb
    simp [IsTruth.Eval, h, hb]

/-- The instance of C22 on the example layer: `NULL IS TRUE` is false, `NULL IS NOT
FALSE` is true, `5 IS TRUE` is true and `5 IS NOT TRUE` is false. -/
theorem IsTruth_Eval_truth_table_witness :
    IsTruth.Eval exampleOps ⟨0, false, 1⟩ [] = (.ok false, [EvalCall.Eval 0]) ∧
    IsTruth.Eval exampleOps ⟨0, true, 0⟩ [] = (.ok true, [EvalCall.Eval 0]) ∧
    IsTruth.Eval exampleOps ⟨5, false, 1⟩ [] = (.ok true, [EvalCall.Eval 5]) ∧
    IsTruth.Eval exampleOps ⟨5, true, 1⟩ [] = (.ok false, [EvalCall.Eval 5]) :=
  ⟨(IsTruth_Eval_truth_table exampleOps ⟨0, false, 1⟩ []).2.1 _ rfl rfl,
    (IsTruth_Eval_truth_table exampleOps ⟨0, true, 0⟩ []).2.2.1 _ rfl rfl,
    ((IsTruth_Eval_truth_table exampleOps ⟨5, false, 1⟩ []).2.2.2.1 _ 5 1 rfl rfl).1 rfl,
    ((IsTruth_Eval_truth_table exampleOps ⟨5, true, 1⟩ []).2.2.2.1 _ 5 1 rfl rfl).2 rfl⟩

end expressions

/-! ## `doCommit`: what is staged -/

namespace dbTxn

variable {U I S : Type}

/-- Staging appends one operation per dirty entry, in order. -/
theorem stageBatch_eq_map (b : Batch) (dirty : List Entry) :
    stageBatch b dirty = b ++ dirty.map stageOp := by
  induction dirty generalizing b with
  | nil => simp [stageBatch]
  | cons e rest ih =>
    simp only [stageBatch, List.foldl_cons, List.map_cons] at ih ⊢
    rw [ih]
    by_cases h : e.2.length = 0 <;> simp [stageOp, h, Batch.Delete, Batch.Put]

/-- The validation loop over the logging store returns what it returns over the store
itself. -/
theorem lockLoop_logged_result (sops : StoreOps S) (tID : Int) :
    ∀ (order : List (Bytes × Bytes)) (s : S) (log : List StoreCall) (locked : List Bytes),
    (lockLoop sops.logged tID order (s, log) locked).1 = (lockLoop sops tID order s locked).1 ∧
    (lockLoop sops.logged tID order (s, log) locked).2.1.1
      = (lockLoop sops tID order s locked).2.1 ∧
    (lockLoop sops.logged tID order (s, log) locked).2.2
      = (lockLoop sops tID order s locked).2.2 := by
  intro order
  induction order with
  | nil => intro s log locked; exact ⟨rfl, rfl, rfl⟩
  | cons kv rest ih =>
    intro s log locked
    obtain ⟨k, v⟩ := kv
    have hstep : sops.logged.tryConditionLockKey (s, log) tID k v
        = ((sops.tryConditionLockKey s tID k v).1, ((sops.tryConditionLockKey s tID k v).2,
            log ++ [StoreCall.tryConditionLockKey tID k v
              (sops.tryConditionLockKey s tID k v).1])) := rfl
    rcases hr : sops.tryConditionLockKey s tID k v with ⟨err, s'⟩
    rw [hr] at hstep
    cases err with
    | some e => simp only [lockLoop, hstep, hr, and_self]
    | none =>
      simp only [lockLoop, hstep, hr]
      exact ih s' _ _

theorem filter_isWriteBatch_validations (tID : Int) (l : List (Bytes × Bytes)) :
    (l.map (fun kv => StoreCall.tryConditionLockKey tID kv.1 kv.2 none)).filter
      StoreCall.isWriteBatch = [] := by
  induction l with
  | nil => rfl
  | cons a l ih => simpa [List.filter, StoreCall.isWriteBatch] using ih

theorem filter_isWriteBatch_unlocks (l : List Bytes) :
    (l.map StoreCall.unLockKeys).filter StoreCall.isWriteBatch = [] := by
  induction l with
  | nil => rfl
  | cons a l ih => simp [List.filter, StoreCall.isWriteBatch]

/-- C23. When the validation of the read-set succeeds (and `newBatch` hands out an
empty batch), the only `writeBatch` call of `doCommit` gets the batch that holds exactly
one operation per dirty-overlay entry, in the overlay's iteration order: `Delete(key)`
for an entry whose value has length zero and `Put(key, value)` otherwise. A key that is
not in the overlay, in the read-set or not, has no operation in the batch. -/
theorem doCommit_stages_one_op_per_dirty_entry (ops : KVOps U I) (sops : StoreOps S)
    (txn : dbTxn U) (s : S) (order : List (Bytes × Bytes))
    (hnb : (sops.newBatch s).1 = [])
    (hok : (lockLoop sops txn.tID order (sops.newBatch s).2 []).1 = none) :
    ∃ b : Batch,
      (doCommit ops sops.logged txn (s, []) order).2.2.filter StoreCall.isWriteBatch
        = [StoreCall.writeBatch b (doCommit ops sops.logged txn (s, []) order).1] ∧
      b = (ops.DirtyEntries txn.UnionStore).map
            (fun e => if e.2.length = 0 then BatchOp.Delete e.1 else BatchOp.Put e.1 e.2) ∧
      b.length = (ops.DirtyEntries txn.UnionStore).length ∧
      b.map BatchOp.key = (ops.DirtyEntries txn.UnionStore).map Prod.fst ∧
      ∀ k, k ∉ (ops.DirtyEntries txn.UnionStore).map Prod.fst → ∀ op ∈ b, op.key ≠ k := by
  have hkeys : ((ops.DirtyEntries txn.UnionStore).map stageOp).map BatchOp.key
      = (ops.DirtyEntries txn.UnionStore).map Prod.fst := by
    rw [List.map_map]
    apply List.map_congr_left
    intro e _
    by_cases h : e.2.length = 0 <;> simp [stageOp, h, BatchOp.key]
  refine ⟨(ops.DirtyEntries txn.UnionStore).map stageOp, ?_, rfl, by simp, hkeys, ?_⟩
  · have hres := (lockLoop_logged_result sops txn.tID order (sops.newBatch s).2
      [StoreCall.newBatch (sops.newBatch s).1] []).1
    rw [hok] at hres
    have hnb2 : sops.logged.newBatch (s, [])
        = ((sops.newBatch s).1, ((sops.newBatch s).2,
            [StoreCall.newBatch (sops.newBatch s).1])) := rfl
    have hw := lockLoop_logged_shape sops txn.tID order (sops.newBatch s).2
      [StoreCall.newBatch (sops.newBatch s).1] []
    rcases hL : lockLoop sops.logged txn.tID order
        ((sops.newBatch s).2, [StoreCall.newBatch (sops.newBatch s).1]) [] with
      ⟨err, ⟨st, lg⟩, kl⟩
    rw [hL] at hres hw
    simp only at hres hw
    subst hres
    rcases hw with ⟨_, h2⟩ | ⟨e, pre, k, v, h1, _, _⟩
    · simp only [doCommit, hnb2, hL]
      rw [show sops.logged.writeBatch (st, lg)
            (stageBatch (sops.newBatch s).1 (ops.DirtyEntries txn.UnionStore))
          = ((sops.writeBatch st
                (stageBatch (sops.newBatch s).1 (ops.DirtyEntries txn.UnionStore))).1,
             ((sops.writeBatch st
                (stageBatch (sops.newBatch s).1 (ops.DirtyEntries txn.UnionStore))).2,
              lg ++ [StoreCall.writeBatch
                (stageBatch (sops.newBatch s).1 (ops.DirtyEntries txn.UnionStore))
                (sops.writeBatch st
                  (stageBatch (sops.newBatch s).1 (ops.DirtyEntries txn.UnionStore))).1])) from rfl]
      simp only [unlockAll_logged, h2, hnb, stageBatch_eq_map, List.nil_append]
      simp [List.filter_append, filter_isWriteBatch_validations, filter_isWriteBatch_unlocks,
        List.filter, StoreCall.isWriteBatch]
    · cases h1
  · intro k hk op hop hkey
    apply hk
    rw [← hkeys]
    exact List.mem_map.2 ⟨op, hop, hkey⟩

/-- The instance of C23 on `stagingTxn` over the logging `exampleStore`: the batch is
the put of `[2]` followed by the delete of `[3]`; the read-set keys `[1]` and `[4]` are
not staged. -/
theorem doCommit_stages_one_op_per_dirty_entry_witness :
    (dbStore.ops.newBatch exampleStore).1 = [] ∧
    (lockLoop dbStore.ops stagingTxn.tID [([4], []), ([1], [9])]
      (dbStore.ops.newBatch exampleStore).2 []).1 = none ∧
    (doCommit (UnionStore.ops id id) dbStore.ops.logged stagingTxn (exampleStore, [])
        [([4], []), ([1], [9])]).2.2.filter StoreCall.isWriteBatch
      = [StoreCall.writeBatch [BatchOp.Put [2] [5], BatchOp.Delete [3]] none] :=
  ⟨rfl, by decide, by
    obtain ⟨b, h1, h2, -⟩ := doCommit_stages_one_op_per_dirty_entry (UnionStore.ops id id)
      dbStore.ops stagingTxn exampleStore [([4], []), ([1], [9])] rfl (by decide)
    rw [h1, h2]
    decide⟩

end dbTxn

/-! ## `updateCur` terminates -/

namespace kv

/-- The fuelled loop runs `pass` until a pass ends the loop. -/
theorem updateCurLoop_succ (n : Nat) (iter : UnionIter) :
    UnionIter.updateCurLoop (n + 1) iter
      = if iter.pass.1 then some iter.pass.2 else UnionIter.updateCurLoop n iter.pass.2 := by
  cases hd : iter.dirtyValid <;> cases hs : iter.snapshotValid
  · simp [UnionIter.updateCurLoop, UnionIter.pass, hd, hs]
  · simp [UnionIter.updateCurLoop, UnionIter.pass, hd, hs]
  · by_cases hv : iter.dirtyIt.Value.length = 0 <;>
      simp [UnionIter.updateCurLoop, UnionIter.pass, hd, hs, hv]
  · by_cases hv : iter.dirtyIt.Value.length = 0 <;>
      by_cases hc : bytesCompare iter.dirtyIt.Key iter.snapshotIt.Key = 0 <;>
      by_cases hg : bytesCompare iter.dirtyIt.Key iter.snapshotIt.Key > 0 <;>
      simp [UnionIter.updateCurLoop, UnionIter.pass, hd, hs, hv, hc, hg]

/-- A pass that does not end the loop has moved the dirty sub-iterator on, alone or
together with the snapshot sub-iterator, and one dirty entry fewer remains. -/
theorem pass_progress (iter : UnionIter) :
    iter.pass.1 = true ∨
    (iter.pass.2.dirtyIt = iter.dirtyIt.Next.1 ∧
      (iter.pass.2.snapshotIt = iter.snapshotIt ∨
        iter.pass.2.snapshotIt = iter.snapshotIt.Next) ∧
      iter.pass.2.dirtyRemaining + 1 = iter.dirtyRemaining) := by
  have hrem : ∀ it : UnionIter, it.dirtyValid = true →
      it.dirtyNext.dirtyRemaining + 1 = it.dirtyRemaining := by
    intro it hv
    simp only [UnionIter.dirtyRemaining, UnionIter.dirtyNext, DirtyIterator.Next, hv, if_true]
    cases it.dirtyIt.rest <;> simp
  cases hd : iter.dirtyValid <;> cases hs : iter.snapshotValid
  · left; simp [UnionIter.pass, hd, hs]
  · left; simp [UnionIter.pass, hd, hs]
  · by_cases hv : iter.dirtyIt.Value.length = 0
    · right
      simp only [UnionIter.pass, hd, hs, hv]
      simp only [Bool.not_true, Bool.not_false, Bool.and_true, Bool.false_eq_true, if_false,
        if_true]
      refine ⟨rfl, Or.inl rfl, ?_⟩
      have := hrem { iter with curIsDirty := true } hd
      simpa [UnionIter.dirtyRemaining] using this
    · left; simp [UnionIter.pass, hd, hs, hv]
  · by_cases hv : iter.dirtyIt.Value.length = 0
    · by_cases hc : bytesCompare iter.dirtyIt.Key iter.snapshotIt.Key = 0
      · right
        simp only [UnionIter.pass, hd, hs, hv, hc]
        simp only [Bool.not_true, Bool.and_true, Bool.and_self, Bool.false_eq_true, if_false,
          if_true]
        refine ⟨rfl, Or.inr rfl, ?_⟩
        have := hrem iter hd
        simpa [UnionIter.dirtyRemaining, UnionIter.snapshotNext] using this
      · by_cases hg : bytesCompare iter.dirtyIt.Key iter.snapshotIt.Key > 0
        · left; simp [UnionIter.pass, hd, hs, hv, hc, hg]
        · right
          simp only [UnionIter.pass, hd, hs, hv, hc, hg]
          simp only [Bool.not_true, Bool.and_true, Bool.and_self, Bool.false_eq_true, if_false,
            if_true]
          refine ⟨rfl, Or.inl rfl, ?_⟩
          exact hrem iter hd
    · left
      by_cases hc : bytesCompare iter.dirtyIt.Key iter.snapshotIt.Key = 0 <;>
        by_cases hg : bytesCompare iter.dirtyIt.Key iter.snapshotIt.Key > 0 <;>
        simp [UnionIter.pass, hd, hs, hv, hc, hg]

/-- However many passes the loop is allowed, it makes at most one more than there are
dirty entries left. -/
theorem passCount_le (n : Nat) : ∀ iter : UnionIter,
    iter.passCount n ≤ iter.dirtyRemaining + 1 := by
  induction n with
  | zero => intro iter; simp [UnionIter.passCount]
  | succ n ih =>
    intro iter
    simp only [UnionIter.passCount]
    rcases pass_progress iter with h | ⟨_, _, h⟩
    · simp [h]
    · have := ih iter.pass.2
      split_ifs <;> omega

/-- With one pass more than there are dirty entries left, the loop returns. -/
theorem updateCurLoop_isSome (n : Nat) : ∀ iter : UnionIter,
    iter.dirtyRemaining + 1 ≤ n → (UnionIter.updateCurLoop n iter).isSome = true := by
  induction n with
  | zero => intro iter h; omega
  | succ n ih =>
    intro iter h
    rw [updateCurLoop_succ]
    rcases pass_progress iter with hp | ⟨_, _, hp⟩
    · simp [hp]
    · split_ifs
      · rfl
      · exact ih _ (by omega)

/-- C24. `updateCur` terminates: every pass through its loop either ends the loop or
moves the dirty sub-iterator on (alone or together with the snapshot sub-iterator), so
that one dirty entry fewer remains; the loop therefore makes at most as many passes as
there are dirty entries left plus one, it returns when it is allowed that many, and
`updateCur` itself always returns. -/
theorem updateCur_terminates (iter : UnionIter) :
    (iter.pass.1 = true ∨
      (iter.pass.2.dirtyIt = iter.dirtyIt.Next.1 ∧
        (iter.pass.2.snapshotIt = iter.snapshotIt ∨
          iter.pass.2.snapshotIt = iter.snapshotIt.Next) ∧
        iter.pass.2.dirtyRemaining + 1 = iter.dirtyRemaining)) ∧
    (∀ n, UnionIter.updateCurLoop (n + 1) iter
      = if iter.pass.1 then some iter.pass.2 else UnionIter.updateCurLoop n iter.pass.2) ∧
    (∀ n, iter.passCount n ≤ iter.dirtyRemaining + 1) ∧
    (∀ k, (UnionIter.updateCurLoop (iter.dirtyRemaining + 1 + k) iter).isSome = true) ∧
    iter.updateCur.isSome = true := by
  refine ⟨pass_progress iter, fun n => updateCurLoop_succ n iter,
    fun n => passCount_le n iter, fun k => updateCurLoop_isSome _ iter (by omega), ?_⟩
  unfold UnionIter.updateCur
  apply updateCurLoop_isSome
  simp only [UnionIter.dirtyRemaining]
  split_ifs <;> omega

/-- The bound is reached: over two tombstones and an empty snapshot the loop makes three
passes. -/
theorem passCount_two_tombstones :
    (stateOf [([1], []), ([2], [])] [] false true).passCount 10 = 3 ∧
    (stateOf [([1], []), ([2], [])] [] false true).dirtyRemaining = 2 := by
  decide

end kv

/-! ## The coded iterator and the specified one -/

namespace kv

/-- Reading a valid specified iterator: its entry, then the rest of the scan. -/
theorem specDrain_valid (n : Nat) (it : SpecUnionIter) (h : it.isValid = true) :
    SpecUnionIter.drainLoop (n + 1) it
      = (SpecUnionIter.drainLoop n it.Next).map (fun out => (it.rawKey, it.Value) :: out) := by
  simp only [SpecUnionIter.drainLoop, SpecUnionIter.Valid, h, if_true]
  cases SpecUnionIter.drainLoop n it.Next <;> rfl

/-- From any position, the specified iterator reads `mergeView` to the end, provided the
fuel covers the remaining entries. -/
theorem specDrain_position (D : List Entry) : ∀ (S : List Entry) (f : Nat),
    D.length + S.length + 1 ≤ f →
    SpecUnionIter.drainLoop f (specPosition D S) = some (mergeView D S) := by
  induction D with
  | nil =>
    intro S
    induction S with
    | nil =>
      intro f h
      obtain ⟨m, rfl⟩ : ∃ m, f = m + 1 := ⟨f - 1, by omega⟩
      simp [specPosition, SpecUnionIter.drainLoop, SpecUnionIter.Valid, mergeView]
    | cons s S ih =>
      intro f h
      obtain ⟨m, rfl⟩ : ∃ m, f = m + 1 := ⟨f - 1, by omega⟩
      simp only [List.length_cons, List.length_nil] at h
      simp only [specPosition]
      rw [specDrain_valid _ _ rfl]
      simp only [SpecUnionIter.Next, List.tail_cons]
      rw [ih m (by simp; omega)]
      simp [mergeView, SpecUnionIter.rawKey, SpecUnionIter.Value, SnapshotIterator.Key,
        SnapshotIterator.Value]
  | cons d D ihD =>
    intro S
    induction S with
    | nil =>
      intro f h
      obtain ⟨m, rfl⟩ : ∃ m, f = m + 1 := ⟨f - 1, by omega⟩
      simp only [List.length_cons, List.length_nil] at h
      simp only [specPosition]
      by_cases hd : d.2.length = 0
      · rw [if_pos hd, ihD [] (m + 1) (by simp; omega)]
        simp [mergeView, hd]
      · rw [if_neg hd, specDrain_valid _ _ rfl]
        simp only [SpecUnionIter.Next, List.tail_cons]
        rw [ihD [] m (by simp; omega)]
        simp [mergeView, hd, SpecUnionIter.rawKey, SpecUnionIter.Value, DirtyIterator.Key,
          DirtyIterator.Value]
    | cons s S ihS =>
      intro f h
      obtain ⟨m, rfl⟩ : ∃ m, f = m + 1 := ⟨f - 1, by omega⟩
      simp only [List.length_cons] at h
      simp only [specPosition]
      by_cases he : bytesCompare d.1 s.1 = 0
      · rw [if_pos he]
        by_cases hd : d.2.length = 0
        · rw [if_pos hd, ihD S (m + 1) (by omega)]
          simp [mergeView, hd, he]
        · rw [if_neg hd, specDrain_valid _ _ rfl]
          simp only [SpecUnionIter.Next, List.tail_cons]
          rw [ihD S m (by omega)]
          simp [mergeView, hd, he, SpecUnionIter.rawKey, SpecUnionIter.Value,
            DirtyIterator.Key, DirtyIterator.Value]
      · rw [if_neg he]
        by_cases hl : bytesCompare d.1 s.1 < 0
        · have hg : ¬ bytesCompare d.1 s.1 > 0 := by omega
          rw [if_pos hl]
          by_cases hd : d.2.length = 0
          · rw [if_pos hd, ihD (s :: S) (m + 1) (by simp; omega)]
            simp [mergeView, hd, he, hg]
          · rw [if_neg hd, specDrain_valid _ _ rfl]
            simp only [SpecUnionIter.Next, List.tail_cons]
            rw [ihD (s :: S) m (by simp; omega)]
            simp [mergeView, hd, he, hg, SpecUnionIter.rawKey, SpecUnionIter.Value,
              DirtyIterator.Key, DirtyIterator.Value]
        · have hg : bytesCompare d.1 s.1 > 0 := by omega
          rw [if_neg hl, specDrain_valid _ _ rfl]
          simp only [SpecUnionIter.Next, List.tail_cons]
          rw [ihS m (by simp; omega)]
          simp [mergeView, he, hg, SpecUnionIter.rawKey, SpecUnionIter.Value,
            SnapshotIterator.Key, SnapshotIterator.Value]

/-- A full scan of the specified iterator returns and yields `mergeView`. -/
theorem specScanUnion_eq_mergeView (dirty snapshot : List Entry) :
    specScanUnion dirty snapshot = some (mergeView dirty snapshot) :=
  specDrain_position dirty snapshot _ (le_refl _)

/-- Where the two differ inside: over a dirty `[1] ↦ [5]` and a snapshot holding `[1]`
and `[2]`, the coded iterator has already moved its snapshot sub-iterator to `[2]` when
it is positioned on the dirty `[1]`, while the specified one still holds the shadowed
snapshot entry and drops it in `Next`; both then stand on the snapshot entry `[2]`. -/
theorem coded_and_specified_states :
    (newUnionIter (DirtyIterator.ofList [([1], [5])]) ⟨[([1], [9]), ([2], [7])]⟩).map
        (fun it => (it.snapshotIt.items, it.curIsDirty, it.rawKey, it.Value))
      = some ([([2], [7])], true, [1], [5]) ∧
    specPosition [([1], [5])] [([1], [9]), ([2], [7])]
      = ⟨[([1], [5])], [([1], [9]), ([2], [7])], SpecSource.both, true⟩ ∧
    ((newUnionIter (DirtyIterator.ofList [([1], [5])]) ⟨[([1], [9]), ([2], [7])]⟩).bind
        UnionIter.Next).map (fun it => (it.Valid, it.rawKey, it.Value))
      = some (true, [2], [7]) ∧
    ((specPosition [([1], [5])] [([1], [9]), ([2], [7])]).Next.Valid,
      (specPosition [([1], [5])] [([1], [9]), ([2], [7])]).Next.rawKey,
      (specPosition [([1], [5])] [([1], [9]), ([2], [7])]).Next.Value) = (true, [2], [7]) := by
  decide

/-- C25. The union iterator as coded and the one the specification words are
observationally equivalent: for all inputs, the strictly ascending ones in particular,
reading the coded iterator to the end returns, and it yields the same sequence of raw
keys and values, ending with `Valid()` false at the same point, as reading the
specified iterator to the end. -/
theorem coded_iterator_equivalent_to_specified (dirty snapshot : List Entry) :
    scanUnion dirty snapshot = specScanUnion dirty snapshot ∧
    (scanUnion dirty snapshot).isSome = true ∧
    (specScanUnion dirty snapshot).isSome = true := by
  rw [scanUnion_eq_mergeView, specScanUnion_eq_mergeView]
  exact ⟨rfl, rfl, rfl⟩

end kv

/-! ## `UnionIter.Close` -/

namespace kv

/-- After `Close` both sub-iterator fields are `nil`. -/
theorem Close_fields (iter : NilableUnionIter) (log : List ReleaseCall) :
    (iter.Close log).1.snapshotIt = none ∧ (iter.Close log).1.dirtyIt = none := by
  unfold NilableUnionIter.Close
  cases hs : iter.snapshotIt <;> cases hd : iter.dirtyIt <;> simp [hs, hd]

/-- `Close` on an iterator whose sub-iterator fields are `nil` does nothing. -/
theorem Close_of_nil (iter : NilableUnionIter) (log : List ReleaseCall)
    (hs : iter.snapshotIt = none) (hd : iter.dirtyIt = none) :
    iter.Close log = (iter, log) := by
  simp [NilableUnionIter.Close, hs, hd]

/-- Any number of further `Close` calls leaves a closed iterator and the log alone. -/
theorem closeTimes_of_nil (n : Nat) : ∀ (iter : NilableUnionIter) (log : List ReleaseCall),
    iter.snapshotIt = none → iter.dirtyIt = none →
    NilableUnionIter.closeTimes n (iter, log) = (iter, log) := by
  induction n with
  | zero => intro iter log _ _; rfl
  | succ n ih =>
    intro iter log hs hd
    simp only [NilableUnionIter.closeTimes, Close_of_nil iter log hs hd]
    exact ih iter log hs hd

/-- C26. `UnionIter.Close()` is idempotent. The first call hands back each sub-iterator
that is there, once, and clears both fields; a second call, and any number of calls
after the first, changes neither the iterator nor the log of what was handed back. On
the zero-valued iterator, which is what `dbTxn.Seek` returns when the union store's
iterator is not valid or when the predicate holds on the first byte of its key, `Close`
hands back nothing and `Valid()` is false. -/
theorem Close_is_idempotent {U : Type} (ops : KVOps U NilableUnionIter)
    (iter : NilableUnionIter) (log : List ReleaseCall) (n : Nat)
    (hz : ops.zeroIter = NilableUnionIter.zero) :
    (iter.Close log).2
      = log ++ (match iter.snapshotIt with
                | some s => [ReleaseCall.snapshotClose s]
                | none => [])
            ++ (match iter.dirtyIt with
                | some d => [ReleaseCall.dirtyRelease d]
                | none => []) ∧
    (iter.Close log).1.snapshotIt = none ∧ (iter.Close log).1.dirtyIt = none ∧
    (iter.Close log).1.Close (iter.Close log).2 = iter.Close log ∧
    NilableUnionIter.closeTimes (n + 1) (iter, log) = iter.Close log ∧
    NilableUnionIter.zero.Close log = (NilableUnionIter.zero, log) ∧
    NilableUnionIter.zero.Valid = false ∧
    (∀ (txn : dbTxn U) (k : Bytes) (p : Option (Bytes → Bool)) (it : NilableUnionIter)
        (st : U),
      ops.Seek txn.UnionStore (ops.EncodeKey k) = (.ok it, st) →
      (ops.iterValid it = false ∨
        ∃ f b rest, p = some f ∧ ops.iterValid it = true ∧ ops.iterKey it = b :: rest ∧
          f [b] = true) →
      (dbTxn.Seek ops txn k p).1 = .ok NilableUnionIter.zero) := by
  obtain ⟨hs, hd⟩ := Close_fields iter log
  refine ⟨?_, hs, hd, Close_of_nil _ _ hs hd, ?_, rfl, rfl, ?_⟩
  · unfold NilableUnionIter.Close
    cases hs : iter.snapshotIt <;> cases hd : iter.dirtyIt <;> simp [hs, hd]
  · simp only [NilableUnionIter.closeTimes]
    exact closeTimes_of_nil n _ _ hs hd
  · intro txn k p it st hseek hcase
    rcases hcase with hv | ⟨f, b, rest, rfl, hv, hk, hf⟩
    · simp [dbTxn.Seek, hseek, hv, hz]
    · simp [dbTxn.Seek, hseek, hv, hk, hf, hz]

/-- The instance of C26 on `exampleNilableIter`: three `Close` calls hand back the
snapshot sub-iterator and the dirty sub-iterator once each; and a `Seek` past the last
key of `freshTxn` returns the zero-valued iterator. -/
theorem Close_is_idempotent_witness :
    (UnionStore.opsNilable id id).zeroIter = NilableUnionIter.zero ∧
    NilableUnionIter.closeTimes 3 (exampleNilableIter, [])
      = (⟨none, none, true, true, true, true⟩,
          [ReleaseCall.snapshotClose ⟨[([2], [7])]⟩,
            ReleaseCall.dirtyRelease ⟨some ([1], [5]), []⟩]) ∧
    (dbTxn.Seek (UnionStore.opsNilable id id) freshTxn [9] none).1
      = .ok NilableUnionIter.zero :=
  ⟨rfl,
    (Close_is_idempotent (UnionStore.opsNilable id id) exampleNilableIter [] 2
      rfl).2.2.2.2.1.trans (by decide),
    (Close_is_idempotent (UnionStore.opsNilable id id) exampleNilableIter [] 2
      rfl).2.2.2.2.2.2.2 freshTxn [9] none _ _ rfl (Or.inl rfl)⟩

end kv

/-! ## `LockKeys` only touches the read-set -/

namespace dbTxn

variable {U I S : Type}

/-- The three ways a `markOrigin` call over a logging union store can go: nothing
happens (the key is recorded already); the snapshot is read and an error comes back,
the read-set staying as it was; or the snapshot is read and one pair is appended. -/
theorem markOrigin_logged_cases (ops : KVOps U I) (txn : dbTxn (U × List KVCall))
    (k : Bytes) :
    markOrigin ops.logged txn k = (none, txn) ∨
    (∃ e u, markOrigin ops.logged txn k
      = (some e, { txn with
          UnionStore := (u, txn.UnionStore.2 ++ [KVCall.SnapshotGet k]) })) ∨
    (∃ m val u, txn.snapshotVals = some m ∧ m.lookup k = none ∧
      markOrigin ops.logged txn k
        = (none, { txn with
            UnionStore := (u, txn.UnionStore.2 ++ [KVCall.SnapshotGet k]),
            snapshotVals := some (m ++ [(k, val)]) })) := by
  have hget : ops.logged.SnapshotGet txn.UnionStore k
      = ((ops.SnapshotGet txn.UnionStore.1 k).1,
          ((ops.SnapshotGet txn.UnionStore.1 k).2,
            txn.UnionStore.2 ++ [KVCall.SnapshotGet k])) := rfl
  unfold markOrigin
  cases hl : (txn.snapshotVals.getD []).lookup k with
  | some v => left; rfl
  | none =>
    right
    simp only [hget]
    cases hm : txn.snapshotVals with
    | none =>
      left
      cases (ops.SnapshotGet txn.UnionStore.1 k).1 with
      | error err =>
        by_cases he : IsErrNotFound err
        · exact ⟨Error.panic, (ops.SnapshotGet txn.UnionStore.1 k).2, by simp [he, hm]⟩
        · exact ⟨err, (ops.SnapshotGet txn.UnionStore.1 k).2, by simp [he, hm]⟩
      | ok val => exact ⟨Error.panic, (ops.SnapshotGet txn.UnionStore.1 k).2, by simp [hm]⟩
    | some m =>
      have hl' : m.lookup k = none := by simpa [hm] using hl
      cases (ops.SnapshotGet txn.UnionStore.1 k).1 with
      | error err =>
        by_cases he : IsErrNotFound err
        · right
          exact ⟨m, [], (ops.SnapshotGet txn.UnionStore.1 k).2, rfl, hl', by simp [he, hm]⟩
        · left
          exact ⟨err, (ops.SnapshotGet txn.UnionStore.1 k).2, by simp [he, hm]⟩
      | ok val =>
        right
        exact ⟨m, val, (ops.SnapshotGet txn.UnionStore.1 k).2, rfl, hl', by simp [hm]⟩

/-- What one `markOrigin` call leaves alone: the log grows by at most the snapshot read
of the key, the entries of the read-set keep their values, and the Active flag and the
tID stay. -/
theorem markOrigin_frame (ops : KVOps U I) (txn : dbTxn (U × List KVCall)) (k : Bytes) :
    (∃ calls, (markOrigin ops.logged txn k).2.UnionStore.2 = txn.UnionStore.2 ++ calls ∧
      ∀ c ∈ calls, c = KVCall.SnapshotGet k) ∧
    (∀ k' v, (txn.snapshotVals.getD []).lookup k' = some v →
      ((markOrigin ops.logged txn k).2.snapshotVals.getD []).lookup k' = some v) ∧
    (markOrigin ops.logged txn k).2.valid = txn.valid ∧
    (markOrigin ops.logged txn k).2.tID = txn.tID ∧
    ((markOrigin ops.logged txn k).1 ≠ none →
      (markOrigin ops.logged txn k).2.snapshotVals = txn.snapshotVals) := by
  rcases markOrigin_logged_cases ops txn k with h | ⟨e, u, h⟩ | ⟨m, val, u, hm, hl, h⟩
  · rw [h]
    exact ⟨⟨[], by simp, by simp⟩, fun _ _ hv => hv, rfl, rfl, fun _ => rfl⟩
  · rw [h]
    exact ⟨⟨[KVCall.SnapshotGet k], rfl, by simp⟩, fun _ _ hv => hv, rfl, rfl, fun _ => rfl⟩
  · rw [h]
    refine ⟨⟨[KVCall.SnapshotGet k], rfl, by simp⟩, ?_, rfl, rfl, fun hne => absurd rfl hne⟩
    intro k' v hv
    rw [hm] at hv
    simp only [Option.getD_some] at hv ⊢
    have hne : k' ≠ k := by
      rintro rfl
      rw [hl] at hv
      cases hv
    rw [lookup_append_other m k k' val hne]
    exact hv

/-- `LockKeys` over a list of keys in two parts: the first part, then, unless that
stopped with an error, the second part. -/
theorem LockKeys_append (ops : KVOps U I) (pre rest : List Bytes) : ∀ txn : dbTxn U,
    LockKeys ops txn (pre ++ rest)
      = match LockKeys ops txn pre with
        | (some e, t) => (some e, t)
        | (none, t) => LockKeys ops t rest := by
  induction pre with
  | nil => intro txn; simp [LockKeys]
  | cons k pre ih =>
    intro txn
    rw [List.cons_append]
    simp only [LockKeys]
    rcases hmo : markOrigin ops txn (ops.EncodeKey k) with ⟨err, t⟩
    cases err with
    | some e => rfl
    | none => exact ih t

/-- What `LockKeys` leaves alone, over any union store that logs its calls. -/
theorem LockKeys_frame (ops : KVOps U I) (keys : List Bytes) :
    ∀ txn : dbTxn (U × List KVCall),
    (∃ calls, (LockKeys ops.logged txn keys).2.UnionStore.2 = txn.UnionStore.2 ++ calls ∧
      ∀ c ∈ calls, ∃ k ∈ keys, c = KVCall.SnapshotGet (ops.EncodeKey k)) ∧
    (∀ k' v, (txn.snapshotVals.getD []).lookup k' = some v →
      ((LockKeys ops.logged txn keys).2.snapshotVals.getD []).lookup k' = some v) ∧
    (LockKeys ops.logged txn keys).2.valid = txn.valid ∧
    (LockKeys ops.logged txn keys).2.tID = txn.tID := by
  induction keys with
  | nil =>
    intro txn
    exact ⟨⟨[], by simp [LockKeys], by simp⟩, fun _ _ hv => hv, rfl, rfl⟩
  | cons k keys ih =>
    intro txn
    obtain ⟨⟨c1, hc1, hc1m⟩, hkeep, hvalid, htid, _⟩ :=
      markOrigin_frame ops txn (ops.EncodeKey k)
    have henc : ops.logged.EncodeKey k = ops.EncodeKey k := rfl
    simp only [LockKeys, henc]
    rcases hmo : markOrigin ops.logged txn (ops.EncodeKey k) with ⟨err, t⟩
    rw [hmo] at hc1 hkeep hvalid htid
    simp only at hc1 hkeep hvalid htid
    cases err with
    | some e =>
      refine ⟨⟨c1, hc1, ?_⟩, hkeep, hvalid, htid⟩
      intro c hc
      exact ⟨k, List.mem_cons_self _ _, hc1m c hc⟩
    | none =>
      obtain ⟨⟨c2, hc2, hc2m⟩, hkeep2, hvalid2, htid2⟩ := ih t
      refine ⟨⟨c1 ++ c2, ?_, ?_⟩, ?_, hvalid2.trans hvalid, htid2.trans htid⟩
      · simp only
        rw [hc2, hc1, List.append_assoc]
      · intro c hc
        rcases List.mem_append.1 hc with h | h
        · exact ⟨k, List.mem_cons_self _ _, hc1m c h⟩
        · obtain ⟨k2, hk2, hc⟩ := hc2m c h
          exact ⟨k2, List.mem_cons_of_mem _ hk2, hc⟩
      · intro k' v hv
        exact hkeep2 k' v (hkeep k' v hv)

/-- On the union store as specified, `markOrigin` leaves the dirty overlay as it was. -/
theorem markOrigin_Dirty (enc dec : Bytes → Bytes) (t : dbTxn AlloyDB.UnionStore) (k : Bytes) :
    (markOrigin (AlloyDB.UnionStore.ops enc dec) t k).2.UnionStore.Dirty
      = t.UnionStore.Dirty := by
  have hs : ∀ us key, (AlloyDB.UnionStore.SnapshotGet us key).2 = us := by
    intro us key
    unfold AlloyDB.UnionStore.SnapshotGet
    split_ifs
    · rfl
    · cases us.Snapshot.lookup key <;> rfl
  have hops : (AlloyDB.UnionStore.ops enc dec).SnapshotGet t.UnionStore k
      = AlloyDB.UnionStore.SnapshotGet t.UnionStore k := rfl
  unfold markOrigin
  cases (t.snapshotVals.getD []).lookup k with
  | some v => rfl
  | none =>
    simp only [hops, hs]
    cases (AlloyDB.UnionStore.SnapshotGet t.UnionStore k).1 with
    | error err =>
      by_cases he : IsErrNotFound err
      · cases t.snapshotVals <;> simp [he]
      · simp [he]
    | ok val => cases t.snapshotVals <;> simp

/-- On the union store as specified, `LockKeys` leaves the dirty overlay as it was. -/
theorem LockKeys_Dirty (enc dec : Bytes → Bytes) (keys : List Bytes) :
    ∀ t : dbTxn AlloyDB.UnionStore,
    (LockKeys (AlloyDB.UnionStore.ops enc dec) t keys).2.UnionStore.Dirty
      = t.UnionStore.Dirty := by
  induction keys with
  | nil => intro t; rfl
  | cons k keys ih =>
    intro t
    have h := markOrigin_Dirty enc dec t ((AlloyDB.UnionStore.ops enc dec).EncodeKey k)
    simp only [LockKeys]
    rcases hmo : markOrigin (AlloyDB.UnionStore.ops enc dec) t
        ((AlloyDB.UnionStore.ops enc dec).EncodeKey k) with ⟨err, t1⟩
    rw [hmo] at h
    cases err with
    | some e => exact h
    | none => exact (ih t1).trans h

/-- C27. `LockKeys(keys...)` only touches the read-set. It is `markOrigin` on the
encoding of each key in argument order, stopping at the first error, which it returns,
the keys before it staying recorded; over any union store that logs its calls, the only
calls it makes are snapshot reads of encoded keys (no `Get`, `Set`, `Delete` or `Seek`);
the read-set entries that existed keep their values and the Active flag stays; and on
the union store as specified the dirty overlay is the same before and after. -/
theorem LockKeys_only_touches_readSet (ops : KVOps U I) (txn : dbTxn (U × List KVCall))
    (keys : List Bytes) (enc dec : Bytes → Bytes) (t : dbTxn AlloyDB.UnionStore) :
    LockKeys ops.logged txn [] = (none, txn) ∧
    (∀ k rest, LockKeys ops.logged txn (k :: rest)
      = match markOrigin ops.logged txn (ops.EncodeKey k) with
        | (some err, t1) => (some err, t1)
        | (none, t1) => LockKeys ops.logged t1 rest) ∧
    (∀ pre key post t1 err t2, keys = pre ++ key :: post →
      LockKeys ops.logged txn pre = (none, t1) →
      markOrigin ops.logged t1 (ops.EncodeKey key) = (some err, t2) →
      LockKeys ops.logged txn keys = (some err, t2) ∧ t2.snapshotVals = t1.snapshotVals) ∧
    (∃ calls, (LockKeys ops.logged txn keys).2.UnionStore.2 = txn.UnionStore.2 ++ calls ∧
      ∀ c ∈ calls, ∃ k ∈ keys, c = KVCall.SnapshotGet (ops.EncodeKey k)) ∧
    (∀ k v, (txn.snapshotVals.getD []).lookup k = some v →
      ((LockKeys ops.logged txn keys).2.snapshotVals.getD []).lookup k = some v) ∧
    (LockKeys ops.logged txn keys).2.valid = txn.valid ∧
    (LockKeys (AlloyDB.UnionStore.ops enc dec) t keys).2.UnionStore.Dirty
      = t.UnionStore.Dirty := by
  obtain ⟨h1, h2, h3, _⟩ := LockKeys_frame ops keys txn
  refine ⟨rfl, ?_, ?_, h1, h2, h3, LockKeys_Dirty enc dec keys t⟩
  · intro k rest
    have henc : ops.logged.EncodeKey k = ops.EncodeKey k := rfl
    simp only [LockKeys, henc]
    rcases markOrigin ops.logged txn (ops.EncodeKey k) with ⟨err, t1⟩
    cases err <;> rfl
  · intro pre key post t1 err t2 hkeys hpre hmo
    have henc : ops.logged.EncodeKey key = ops.EncodeKey key := rfl
    constructor
    · rw [hkeys, LockKeys_append, hpre]
      simp only [LockKeys, henc, hmo]
    · have := (markOrigin_frame ops t1 (ops.EncodeKey key)).2.2.2.2
      rw [hmo] at this
      exact this (by simp)

/-- The instance of C27 on `freshLoggedTxn` with the keys `[1]` and `[5]`, both read
from the snapshot and recorded, and on `closedLoggedTxn`, where the snapshot read of the
first key fails and the second key is not looked at. -/
theorem LockKeys_only_touches_readSet_witness :
    LockKeys (AlloyDB.UnionStore.ops id id).logged freshLoggedTxn [[1], [5]]
      = (none,
          { UnionStore := (freshTxn.UnionStore, [KVCall.SnapshotGet [1], KVCall.SnapshotGet [5]]),
            tID := 1, valid := true, snapshotVals := some [([1], [7]), ([5], [])] }) ∧
    LockKeys (AlloyDB.UnionStore.ops id id).logged closedLoggedTxn [[1], [5]]
      = (some (Error.other 0),
          { UnionStore := (closedTxn.UnionStore, [KVCall.SnapshotGet [1]]),
            tID := 1, valid := false, snapshotVals := none }) :=
  ⟨((LockKeys_only_touches_readSet (AlloyDB.UnionStore.ops id id) freshLoggedTxn [[1], [5]]
      id id freshTxn).2.1 [1] [[5]]).trans rfl,
    ((LockKeys_only_touches_readSet (AlloyDB.UnionStore.ops id id) closedLoggedTxn [[1], [5]]
      id id freshTxn).2.2.1 [] [1] [[5]] closedLoggedTxn (Error.other 0)
        { UnionStore := (closedTxn.UnionStore, [KVCall.SnapshotGet [1]]),
          tID := 1, valid := false, snapshotVals := none } rfl rfl rfl).1⟩

end dbTxn

/-! ## `Inc` on a value that is not a number -/

namespace dbTxn

variable {U I S : Type}

/-- C28. If the value of `k` seen through the union store does not parse as a decimal
`int64`, `Inc(k, step)` returns the parse error of `strconv.ParseInt` as it is (next to
the number `ParseInt` returned with it): after the `markOrigin` call the only call on
the union store is the `Get`, no `Set` is made, and the Active flag stays. On the union
store as specified the whole union store, the overlay value of `k` included, is left
as it was. -/
theorem Inc_returns_parse_error (ops : KVOps U I) (txn t1 : dbTxn (U × List KVCall))
    (k val : Bytes) (step : Int) (err : Error) (enc dec : Bytes → Bytes)
    (hm : markOrigin ops.logged txn (ops.EncodeKey k) = (none, t1))
    (hg : (ops.Get t1.UnionStore.1 (ops.EncodeKey k)).1 = .ok val)
    (hp : (ParseInt val).2 = some err) :
    (Inc ops.logged txn k step).1 = ((ParseInt val).1, some err) ∧
    (Inc ops.logged txn k step).2
      = { t1 with UnionStore := ((ops.Get t1.UnionStore.1 (ops.EncodeKey k)).2,
            t1.UnionStore.2 ++ [KVCall.Get (ops.EncodeKey k)]) } ∧
    (∀ c ∈ (Inc ops.logged txn k step).2.UnionStore.2,
      c ∈ txn.UnionStore.2 ∨ c = KVCall.SnapshotGet (ops.EncodeKey k) ∨
        c = KVCall.Get (ops.EncodeKey k)) ∧
    (Inc ops.logged txn k step).2.valid = txn.valid ∧
    (∀ t : dbTxn AlloyDB.UnionStore, t.snapshotVals ≠ none →
      t.UnionStore.released = false →
      (AlloyDB.UnionStore.Get t.UnionStore (enc k)).1 = .ok val →
      (Inc (AlloyDB.UnionStore.ops enc dec) t k step).1 = ((ParseInt val).1, some err) ∧
      (Inc (AlloyDB.UnionStore.ops enc dec) t k step).2.UnionStore = t.UnionStore ∧
      (Inc (AlloyDB.UnionStore.ops enc dec) t k step).2.valid = t.valid) := by
  have henc : ops.logged.EncodeKey k = ops.EncodeKey k := rfl
  have hget : ops.logged.Get t1.UnionStore (ops.EncodeKey k)
      = ((ops.Get t1.UnionStore.1 (ops.EncodeKey k)).1,
          ((ops.Get t1.UnionStore.1 (ops.EncodeKey k)).2,
            t1.UnionStore.2 ++ [KVCall.Get (ops.EncodeKey k)])) := rfl
  rcases hpi : ParseInt val with ⟨iv, e⟩
  rw [hpi] at hp
  simp only at hp
  subst hp
  have hInc : Inc ops.logged txn k step
      = ((iv, some err),
          { t1 with UnionStore := ((ops.Get t1.UnionStore.1 (ops.EncodeKey k)).2,
              t1.UnionStore.2 ++ [KVCall.Get (ops.EncodeKey k)]) }) := by
    simp only [Inc, henc, hm, hget, hg, hpi]
  obtain ⟨⟨calls, hcalls, hcm⟩, _, hvalid, _, _⟩ := markOrigin_frame ops txn (ops.EncodeKey k)
  rw [hm] at hcalls hvalid
  simp only at hcalls hvalid
  refine ⟨by rw [hInc], by rw [hInc], ?_, by rw [hInc]; exact hvalid, ?_⟩
  · intro c hc
    rw [hInc] at hc
    simp only [hcalls, List.mem_append, List.mem_singleton] at hc
    rcases hc with (h | h) | h
    · exact Or.inl h
    · exact Or.inr (Or.inl (hcm c h))
    · exact Or.inr (Or.inr h)
  · intro t hmap hrel hget2
    obtain ⟨m1, m2, m3⟩ := markOrigin_specStore enc dec t (enc k) hmap hrel
    have henc2 : (AlloyDB.UnionStore.ops enc dec).EncodeKey k = enc k := rfl
    have hv := (markOrigin_records (AlloyDB.UnionStore.ops enc dec) t (enc k)).1
    rcases hmo : markOrigin (AlloyDB.UnionStore.ops enc dec) t (enc k) with ⟨e2, t2⟩
    rw [hmo] at m1 m2 m3 hv
    simp only at m1 m2 m3 hv
    subst m1
    have hus : ∀ us key, (AlloyDB.UnionStore.Get us key).2 = us := by
      intro us key
      unfold AlloyDB.UnionStore.Get AlloyDB.UnionStore.SnapshotGet
      cases us.Dirty.lookup key with
      | some v => simp only; split_ifs <;> rfl
      | none =>
        simp only
        split_ifs
        · rfl
        · cases us.Snapshot.lookup key <;> rfl
    have hg3 : (AlloyDB.UnionStore.ops enc dec).Get t2.UnionStore (enc k)
        = (.ok val, t.UnionStore) := by
      show AlloyDB.UnionStore.Get t2.UnionStore (enc k) = _
      rw [m2]
      exact Prod.ext hget2 (hus _ _)
    simp only [Inc, henc2, hmo, hg3, hpi]
    exact ⟨trivial, trivial, hv⟩

/-- The instance of C28 on `nonNumericTxn`: `Inc([1], 5)` finds `"abc"`, returns the
syntax error of `ParseInt`, and the log shows the snapshot read of `markOrigin` and the
`Get`, no `Set`. -/
theorem Inc_returns_parse_error_witness :
    markOrigin (AlloyDB.UnionStore.ops id id).logged nonNumericTxn [1]
      = (none,
          { UnionStore := (nonNumericTxn.UnionStore.1, [KVCall.SnapshotGet [1]]),
            tID := 1, valid := true, snapshotVals := some [([1], [])] }) ∧
    (AlloyDB.UnionStore.Get nonNumericTxn.UnionStore.1 [1]).1 = .ok [97, 98, 99] ∧
    (ParseInt [97, 98, 99]).2 = some Error.ErrSyntax ∧
    (Inc (AlloyDB.UnionStore.ops id id).logged nonNumericTxn [1] 5).1
      = (0, some Error.ErrSyntax) ∧
    (Inc (AlloyDB.UnionStore.ops id id).logged nonNumericTxn [1] 5).2.UnionStore.2
      = [KVCall.SnapshotGet [1], KVCall.Get [1]] :=
  ⟨rfl, rfl, rfl,
    (Inc_returns_parse_error (AlloyDB.UnionStore.ops id id) nonNumericTxn
      { UnionStore := (nonNumericTxn.UnionStore.1, [KVCall.SnapshotGet [1]]),
        tID := 1, valid := true, snapshotVals := some [([1], [])] }
      [1] [97, 98, 99] 5 Error.ErrSyntax id id rfl rfl rfl).1,
    congrArg (fun t => t.UnionStore.2)
      (Inc_returns_parse_error (AlloyDB.UnionStore.ops id id) nonNumericTxn
        { UnionStore := (nonNumericTxn.UnionStore.1, [KVCall.SnapshotGet [1]]),
          tID := 1, valid := true, snapshotVals := some [([1], [])] }
        [1] [97, 98, 99] 5 Error.ErrSyntax id id rfl rfl rfl).2.1⟩

end dbTxn

/-! ## `doCommit` and the order of the read-set -/

namespace dbTxn

variable {U I S : Type}

/-- The log of `doCommit` when the validation loop succeeds: one `writeBatch`, whose
result is returned. -/
theorem doCommit_logged_of_validated (ops : KVOps U I) (sops : StoreOps S) (txn : dbTxn U)
    (s : S) (order : List (Bytes × Bytes))
    (hok : (lockLoop sops txn.tID order (sops.newBatch s).2 []).1 = none) :
    (doCommit ops sops.logged txn (s, []) order).2.2.filter StoreCall.isWriteBatch
      = [StoreCall.writeBatch
          (stageBatch (sops.newBatch s).1 (ops.DirtyEntries txn.UnionStore))
          (doCommit ops sops.logged txn (s, []) order).1] ∧
    ∃ st, (doCommit ops sops.logged txn (s, []) order).1
      = (sops.writeBatch st
          (stageBatch (sops.newBatch s).1 (ops.DirtyEntries txn.UnionStore))).1 := by
  have hres := (lockLoop_logged_result sops txn.tID order (sops.newBatch s).2
    [StoreCall.newBatch (sops.newBatch s).1] []).1
  rw [hok] at hres
  have hnb2 : sops.logged.newBatch (s, [])
      = ((sops.newBatch s).1, ((sops.newBatch s).2,
          [StoreCall.newBatch (sops.newBatch s).1])) := rfl
  have hw := lockLoop_logged_shape sops txn.tID order (sops.newBatch s).2
    [StoreCall.newBatch (sops.newBatch s).1] []
  rcases hL : lockLoop sops.logged txn.tID order
      ((sops.newBatch s).2, [StoreCall.newBatch (sops.newBatch s).1]) [] with
    ⟨err, ⟨st, lg⟩, kl⟩
  rw [hL] at hres hw
  simp only at hres hw
  subst hres
  rcases hw with ⟨_, h2⟩ | ⟨e, pre, k, v, h1, _, _⟩
  · simp only [doCommit, hnb2, hL]
    rw [show sops.logged.writeBatch (st, lg)
          (stageBatch (sops.newBatch s).1 (ops.DirtyEntries txn.UnionStore))
        = ((sops.writeBatch st
              (stageBatch (sops.newBatch s).1 (ops.DirtyEntries txn.UnionStore))).1,
           ((sops.writeBatch st
              (stageBatch (sops.newBatch s).1 (ops.DirtyEntries txn.UnionStore))).2,
            lg ++ [StoreCall.writeBatch
              (stageBatch (sops.newBatch s).1 (ops.DirtyEntries txn.UnionStore))
              (sops.writeBatch st
                (stageBatch (sops.newBatch s).1 (ops.DirtyEntries txn.UnionStore))).1])) from rfl]
    simp only [unlockAll_logged, h2]
    refine ⟨?_, st, rfl⟩
    simp [List.filter_append, filter_isWriteBatch_validations, filter_isWriteBatch_unlocks,
      List.filter, StoreCall.isWriteBatch]
  · cases h1

/-- The log of `doCommit` when the validation loop fails: the error is returned and
there is no `writeBatch`. -/
theorem doCommit_logged_of_failed (ops : KVOps U I) (sops : StoreOps S) (txn : dbTxn U)
    (s : S) (order : List (Bytes × Bytes)) (e : Error)
    (hfail : (lockLoop sops txn.tID order (sops.newBatch s).2 []).1 = some e) :
    (doCommit ops sops.logged txn (s, []) order).1 = some e ∧
    (doCommit ops sops.logged txn (s, []) order).2.2.filter StoreCall.isWriteBatch = [] := by
  have hres := (lockLoop_logged_result sops txn.tID order (sops.newBatch s).2
    [StoreCall.newBatch (sops.newBatch s).1] []).1
  rw [hfail] at hres
  have hnb2 : sops.logged.newBatch (s, [])
      = ((sops.newBatch s).1, ((sops.newBatch s).2,
          [StoreCall.newBatch (sops.newBatch s).1])) := rfl
  have hw := lockLoop_logged_shape sops txn.tID order (sops.newBatch s).2
    [StoreCall.newBatch (sops.newBatch s).1] []
  rcases hL : lockLoop sops.logged txn.tID order
      ((sops.newBatch s).2, [StoreCall.newBatch (sops.newBatch s).1]) [] with
    ⟨err, ⟨st, lg⟩, kl⟩
  rw [hL] at hres hw
  simp only at hres hw
  subst hres
  rcases hw with ⟨h1, _⟩ | ⟨e2, pre, k, v, _, _, h3⟩
  · cases h1
  · simp only [doCommit, hnb2, hL, unlockAll_logged, h3]
    refine ⟨trivial, ?_⟩
    simp [List.filter_append, filter_isWriteBatch_validations, filter_isWriteBatch_unlocks,
      List.filter, StoreCall.isWriteBatch]

/-- On the store as specified, `tryConditionLockKey` returns nil exactly when the pair
validates, and it changes neither the engine nor which pairs validate for this tID. -/
theorem tryConditionLockKey_validates (s : dbStore) (tID : Int) (k v : Bytes) :
    ((dbStore.tryConditionLockKey s tID k v).1 = none ↔ s.validates tID k v = true) ∧
    ((dbStore.tryConditionLockKey s tID k v).1 = none ∨
      (dbStore.tryConditionLockKey s tID k v).1 = some Error.ErrConflict) ∧
    (∀ k' v', (dbStore.tryConditionLockKey s tID k v).2.validates tID k' v'
      = s.validates tID k' v') := by
  unfold dbStore.tryConditionLockKey
  cases hl : s.keysLocked.lookup k with
  | some owner =>
    simp only
    by_cases ho : owner = tID <;> by_cases h : engineGet s.db k = v <;>
      simp [dbStore.validates, hl, ho, h]
  | none =>
    simp only
    have hval : ∀ k' v', dbStore.validates
        { s with keysLocked := (k, tID) :: s.keysLocked } tID k' v'
        = s.validates tID k' v' := by
      intro k' v'
      simp only [dbStore.validates, List.lookup_cons]
      by_cases hk : k' = k
      · subst hk
        simp [hl]
      · have hb : (k' == k) = false := by simpa using hk
        simp [hb]
    by_cases h : engineGet s.db k = v
    · simp only [h, if_true]
      exact ⟨by simp [dbStore.validates, hl, h], Or.inl trivial, hval⟩
    · simp only [h, if_false]
      exact ⟨by simp [dbStore.validates, hl, h], Or.inr trivial, hval⟩

/-- On the store as specified the validation loop returns nil exactly when every
visited pair validates on the store the loop started from; otherwise it returns
Conflict. -/
theorem lockLoop_validates (tID : Int) :
    ∀ (order : List (Bytes × Bytes)) (s : dbStore) (locked : List Bytes),
    ((lockLoop dbStore.ops tID order s locked).1 = none ↔
      ∀ kv ∈ order, s.validates tID kv.1 kv.2 = true) ∧
    ((lockLoop dbStore.ops tID order s locked).1 = none ∨
      (lockLoop dbStore.ops tID order s locked).1 = some Error.ErrConflict) := by
  intro order
  induction order with
  | nil => intro s locked; simp [lockLoop]
  | cons kv rest ih =>
    intro s locked
    obtain ⟨k, v⟩ := kv
    obtain ⟨h1, h2, h3⟩ := tryConditionLockKey_validates s tID k v
    have hops : dbStore.ops.tryConditionLockKey s tID k v
        = dbStore.tryConditionLockKey s tID k v := rfl
    rcases hr : dbStore.tryConditionLockKey s tID k v with ⟨err, s1⟩
    rw [hr] at h1 h2 h3
    simp only at h1 h2 h3
    cases err with
    | some e =>
      have he : e = Error.ErrConflict := by
        rcases h2 with h | h
        · cases h
        · exact Option.some.inj h
      subst he
      have hl : lockLoop dbStore.ops tID ((k, v) :: rest) s locked
          = (some Error.ErrConflict, s1, locked) := by
        simp only [lockLoop, hops, hr, Trace]
      rw [hl]
      refine ⟨⟨fun h => Option.noConfusion h, fun h => ?_⟩, Or.inr rfl⟩
      have := h (k, v) (List.mem_cons_self _ _)
      have hn := h1.2 this
      cases hn
    | none =>
      have hl : lockLoop dbStore.ops tID ((k, v) :: rest) s locked
          = lockLoop dbStore.ops tID rest s1 (locked ++ [k]) := by
        simp only [lockLoop, hops, hr]
      rw [hl]
      obtain ⟨i1, i2⟩ := ih s1 (locked ++ [k])
      refine ⟨?_, i2⟩
      rw [i1]
      constructor
      · intro h kv hkv
        rcases List.mem_cons.1 hkv with rfl | hkv
        · exact h1.1 rfl
        · rw [← h3]; exact h kv hkv
      · intro h kv hkv
        rw [h3]; exact h kv (List.mem_cons_of_mem _ hkv)

/-- C29. On the store as specified, whether `doCommit` succeeds does not depend on the
order in which the read-set is visited: for one store state and lock table and two
orders of the same pairs, either both runs return nil and each has made one
`writeBatch` call, with the same batch, or both runs return an error (Conflict) and
neither has made a `writeBatch` call. -/
theorem doCommit_outcome_independent_of_order (ops : KVOps U I) (txn : dbTxn U)
    (s : dbStore) (order1 order2 : List (Bytes × Bytes)) (hperm : order1.Perm order2) :
    ((doCommit ops dbStore.ops.logged txn (s, []) order1).1 = none ∧
      (doCommit ops dbStore.ops.logged txn (s, []) order2).1 = none ∧
      (doCommit ops dbStore.ops.logged txn (s, []) order1).2.2.filter StoreCall.isWriteBatch
        = [StoreCall.writeBatch (stageBatch [] (ops.DirtyEntries txn.UnionStore)) none] ∧
      (doCommit ops dbStore.ops.logged txn (s, []) order2).2.2.filter StoreCall.isWriteBatch
        = [StoreCall.writeBatch (stageBatch [] (ops.DirtyEntries txn.UnionStore)) none]) ∨
    ((doCommit ops dbStore.ops.logged txn (s, []) order1).1 = some Error.ErrConflict ∧
      (doCommit ops dbStore.ops.logged txn (s, []) order2).1 = some Error.ErrConflict ∧
      (∀ c ∈ (doCommit ops dbStore.ops.logged txn (s, []) order1).2.2,
        c.isWriteBatch = false) ∧
      (∀ c ∈ (doCommit ops dbStore.ops.logged txn (s, []) order2).2.2,
        c.isWriteBatch = false)) := by
  have hnb : dbStore.ops.newBatch s = ([], s) := rfl
  obtain ⟨a1, a2⟩ := lockLoop_validates txn.tID order1 s []
  obtain ⟨b1, b2⟩ := lockLoop_validates txn.tID order2 s []
  have hsame : (∀ kv ∈ order1, s.validates txn.tID kv.1 kv.2 = true) ↔
      (∀ kv ∈ order2, s.validates txn.tID kv.1 kv.2 = true) :=
    ⟨fun h kv hkv => h kv (hperm.mem_iff.2 hkv), fun h kv hkv => h kv (hperm.mem_iff.1 hkv)⟩
  have hwb : ∀ st b, (dbStore.ops.writeBatch st b).1 = none := fun _ _ => rfl
  by_cases hall : ∀ kv ∈ order1, s.validates txn.tID kv.1 kv.2 = true
  · left
    have h1 : (lockLoop dbStore.ops txn.tID order1 (dbStore.ops.newBatch s).2 []).1 = none :=
      a1.2 hall
    have h2 : (lockLoop dbStore.ops txn.tID order2 (dbStore.ops.newBatch s).2 []).1 = none :=
      b1.2 (hsame.1 hall)
    obtain ⟨f1, st1, r1⟩ := doCommit_logged_of_validated ops dbStore.ops txn s order1 h1
    obtain ⟨f2, st2, r2⟩ := doCommit_logged_of_validated ops dbStore.ops txn s order2 h2
    rw [hwb] at r1 r2
    rw [r1] at f1
    rw [r2] at f2
    exact ⟨r1, r2, f1, f2⟩
  · right
    have h1 : (lockLoop dbStore.ops txn.tID order1 (dbStore.ops.newBatch s).2 []).1
        = some Error.ErrConflict := by
      rcases a2 with h | h
      · exact absurd (a1.1 h) hall
      · exact h
    have h2 : (lockLoop dbStore.ops txn.tID order2 (dbStore.ops.newBatch s).2 []).1
        = some Error.ErrConflict := by
      rcases b2 with h | h
      · exact absurd (hsame.2 (b1.1 h)) hall
      · exact h
    obtain ⟨r1, f1⟩ := doCommit_logged_of_failed ops dbStore.ops txn s order1 _ h1
    obtain ⟨r2, f2⟩ := doCommit_logged_of_failed ops dbStore.ops txn s order2 _ h2
    refine ⟨r1, r2, ?_, ?_⟩
    · intro c hc
      by_contra hne
      have : c ∈ (doCommit ops dbStore.ops.logged txn (s, []) order1).2.2.filter
          StoreCall.isWriteBatch := List.mem_filter.2 ⟨hc, by simpa using hne⟩
      rw [f1] at this
      cases this
    · intro c hc
      by_contra hne
      have : c ∈ (doCommit ops dbStore.ops.logged txn (s, []) order2).2.2.filter
          StoreCall.isWriteBatch := List.mem_filter.2 ⟨hc, by simpa using hne⟩
      rw [f2] at this
      cases this

/-- The instance of C29 on `stagingTxn` over `exampleStore`, its two read-set pairs
visited in either order: both runs return nil and write the same batch. -/
theorem doCommit_outcome_independent_of_order_witness :
    ([([4], []), ([1], [9])] : List (Bytes × Bytes)).Perm [([1], [9]), ([4], [])] ∧
    (doCommit (AlloyDB.UnionStore.ops id id) dbStore.ops.logged stagingTxn (exampleStore, [])
        [([4], []), ([1], [9])]).1 = none ∧
    (doCommit (AlloyDB.UnionStore.ops id id) dbStore.ops.logged stagingTxn (exampleStore, [])
        [([1], [9]), ([4], [])]).1 = none ∧
    (doCommit (AlloyDB.UnionStore.ops id id) dbStore.ops.logged stagingTxn (exampleStore, [])
        [([4], []), ([1], [9])]).2.2.filter StoreCall.isWriteBatch
      = [StoreCall.writeBatch [BatchOp.Put [2] [5], BatchOp.Delete [3]] none] ∧
    (doCommit (AlloyDB.UnionStore.ops id id) dbStore.ops.logged stagingTxn (exampleStore, [])
        [([1], [9]), ([4], [])]).2.2.filter StoreCall.isWriteBatch
      = [StoreCall.writeBatch [BatchOp.Put [2] [5], BatchOp.Delete [3]] none] :=
  ⟨List.Perm.swap _ _ _,
    (doCommit_outcome_independent_of_order (AlloyDB.UnionStore.ops id id) stagingTxn
      exampleStore [([4], []), ([1], [9])] [([1], [9]), ([4], [])]
      (List.Perm.swap _ _ _)).resolve_right (fun h => absurd h.1 (by decide))⟩

end dbTxn

/-! ## `UnionPlan.Do` returns nil -/

namespace plans

variable {Row V σ E T : Type}

/-- With a flag for at most every later source, and every later source as wide as the
first, the loop over the later sources ends with nil. -/
theorem unionLoop_nil (tops : TempOps T Row E) (cast : Row → Except E Row) (colErr : E)
    (nfields : Nat) :
    ∀ (Distincts : List Bool) (srcs : List (SrcPlan Row)) (st : List Row × T),
    Distincts.length ≤ srcs.length → (∀ p ∈ srcs, p.nfields = nfields) →
    (unionLoop tops cast colErr nfields Distincts srcs st).1 = DoResult.nil := by
  intro Distincts
  induction Distincts with
  | nil => intro srcs st _ _; cases srcs <;> rfl
  | cons d ds ih =>
    intro srcs st hlen hcols
    cases srcs with
    | nil => simp at hlen
    | cons p ps =>
      have hp : p.nfields = nfields := hcols p (List.mem_cons_self _ _)
      simp only [unionLoop, hp, ne_eq, not_true_eq_false, if_false]
      exact ih ps _ (by simpa using hlen) (fun q hq => hcols q (List.mem_cons_of_mem _ hq))

/-- C30, refuted as stated. A plan with one source and one `Distincts` flag meets every
condition of the claim (`Srcs` is not empty, the temporary table is created, and there
is no later source whose columns could differ), yet `Do` does not return nil: the loop
over `Distincts` indexes `Srcs[1]`, which is not there, and panics. -/
theorem UnionPlan_Do_panics_on_flag_without_source :
    ([⟨[[1]], 1⟩] : List (SrcPlan (List Nat))) ≠ [] ∧
    (∀ p ∈ ([] : List (SrcPlan (List Nat))), p.nfields = 1) ∧
    (UnionPlan.Do [⟨[[1]], 1⟩] [true] (.ok []) listTemp (fun r => .ok r) (Error.other 5)
      recordRows ([] : List (List Nat))).1 = DoResult.panic ∧
    (UnionPlan.Do [⟨[[1]], 1⟩] [true] (.ok []) listTemp (fun r => .ok r) (Error.other 5)
      recordRows ([] : List (List Nat))).1 ≠ DoResult.nil := by
  refine ⟨by simp, by simp, rfl, ?_⟩
  decide

/-- C30, amended. `UnionPlan.Do` returns nil whenever `Srcs` is not empty, the temporary
table is created, `Distincts` has no more flags than there are later sources and every
later source has as many columns as the first, whatever errors are raised on the way;
those errors only end the iteration that raised them. The row callback `f` is run over
the rows collected from the sources, and the state it leaves is the outcome; an
iteration ends at the row whose callback answers `more = false` or an error, without
visiting the rows after it, and goes on otherwise; the error with which the iteration
over a later source ends is dropped and the next source is evaluated from the rows
collected so far; a failing `Set` on a row of the first source, and a failing cast,
duplicate lookup or `Set` on a row of a later source, make the source's callback return
that error. -/
theorem UnionPlan_Do_returns_nil_for_aligned_plan (src : SrcPlan Row)
    (srcs : List (SrcPlan Row)) (Distincts : List Bool) (t : T) (tops : TempOps T Row E)
    (cast : Row → Except E Row) (colErr : E) (f : σ → Row → (Bool × Option E) × σ) (s : σ)
    (hlen : Distincts.length ≤ srcs.length)
    (hcols : ∀ p ∈ srcs, p.nfields = src.nfields) :
    (UnionPlan.Do (src :: srcs) Distincts (.ok t) tops cast colErr f s).1 = DoResult.nil ∧
    (UnionPlan.Do (src :: srcs) Distincts (.ok t) tops cast colErr f s).2
      = (srcDo f
          (unionLoop tops cast colErr src.nfields Distincts srcs
            (srcDo (unionFirstCallback tops) src.rows ([], t)).2).2.1 s).2 ∧
    (∀ (τ : Type) (g : τ → Row → (Bool × Option E) × τ) (r : Row) (rest : List Row) (st : τ),
      ((g st r).1.1 = false ∨ (g st r).1.2 ≠ none →
        srcDo g (r :: rest) st = ((g st r).1.2, (g st r).2)) ∧
      ((g st r).1.1 = true → (g st r).1.2 = none →
        srcDo g (r :: rest) st = srcDo g rest (g st r).2)) ∧
    (∀ (d : Bool) (ds : List Bool) (p : SrcPlan Row) (ps : List (SrcPlan Row))
        (st : List Row × T), p.nfields = src.nfields →
      unionLoop tops cast colErr src.nfields (d :: ds) (p :: ps) st
        = unionLoop tops cast colErr src.nfields ds ps
            (srcDo (unionNextCallback tops cast d) p.rows st).2) ∧
    (∀ (st : List Row × T) (row : Row) (err : E) (t1 : T),
      tops.Set st.2 row = (some err, t1) →
      unionFirstCallback tops st row = ((false, some err), (st.1 ++ [row], t1))) ∧
    (∀ (d : Bool) (st : List Row × T) (row : Row) (err : E), cast row = .error err →
      unionNextCallback tops cast d st row = ((false, some err), st)) ∧
    (∀ (st : List Row × T) (row row1 : Row) (err : E), cast row = .ok row1 →
      tops.Get st.2 row1 = .error err →
      unionNextCallback tops cast true st row = ((false, some err), st)) ∧
    (∀ (st : List Row × T) (row row1 : Row) (err : E) (t1 : T), cast row = .ok row1 →
      tops.Set st.2 row1 = (some err, t1) →
      unionNextCallback tops cast false st row
        = ((false, some err), (st.1 ++ [row1], t1))) := by
  have h := unionLoop_nil tops cast colErr src.nfields Distincts srcs
    (srcDo (unionFirstCallback tops) src.rows ([], t)).2 hlen hcols
  have hDo : UnionPlan.Do (src :: srcs) Distincts (.ok t) tops cast colErr f s
      = (DoResult.nil,
          (srcDo f
            (unionLoop tops cast colErr src.nfields Distincts srcs
              (srcDo (unionFirstCallback tops) src.rows ([], t)).2).2.1 s).2) := by
    simp only [UnionPlan.Do]
    rcases hu : unionLoop tops cast colErr src.nfields Distincts srcs
        (srcDo (unionFirstCallback tops) src.rows ([], t)).2 with ⟨r, st⟩
    rw [hu] at h
    simp only at h
    subst h
    rfl
  refine ⟨by rw [hDo], by rw [hDo], ?_, ?_, ?_, ?_, ?_, ?_⟩
  · intro τ g r rest st
    constructor
    · intro hstop
      simp only [srcDo]
      rw [if_pos]
      rcases hstop with h1 | h1
      · simp [h1]
      · cases h2 : (g st r).1.2 with
        | none => exact absurd h2 h1
        | some e => simp
    · intro h1 h2
      simp only [srcDo]
      rw [if_neg]
      simp [h1, h2]
  · intro d ds p ps st hp
    simp only [unionLoop, hp, ne_eq, not_true_eq_false, if_false]
  · intro st row err t1 hset
    simp only [unionFirstCallback, hset]
  · intro d st row err hc
    simp only [unionNextCallback, hc]
  · intro st row row1 err hc hg
    simp only [unionNextCallback, hc, hg, if_true]
  · intro st row row1 err t1 hc hset
    simp only [unionNextCallback, hc, hset]
    simp

/-- The instance of the amended C30 on two one-column sources. `Set` fails on the row
`[2]` of the first source, which ends the iteration over that source before its row
`[9]`; the second source is still evaluated and adds `[3]`. With a callback that returns
an error at `[2]`, `Do` returns nil and the callback has seen `[1]` and `[2]` only; with
one that never stops it has seen `[1]`, `[2]`, `[3]`. -/
theorem UnionPlan_Do_returns_nil_for_aligned_plan_witness :
    ([true] : List Bool).length ≤ ([⟨[[3]], 1⟩] : List (SrcPlan (List Nat))).length ∧
    (∀ p ∈ ([⟨[[3]], 1⟩] : List (SrcPlan (List Nat))),
      p.nfields = (⟨[[1], [2], [9]], 1⟩ : SrcPlan (List Nat)).nfields) ∧
    UnionPlan.Do [⟨[[1], [2], [9]], 1⟩, ⟨[[3]], 1⟩] [true] (.ok []) (failOnTemp [2])
        (fun r => .ok r) (Error.other 5) (recordUntil [2]) []
      = (DoResult.nil, [[1], [2]]) ∧
    UnionPlan.Do [⟨[[1], [2], [9]], 1⟩, ⟨[[3]], 1⟩] [true] (.ok []) (failOnTemp [2])
        (fun r => .ok r) (Error.other 5) recordRows []
      = (DoResult.nil, [[1], [2], [3]]) :=
  ⟨by decide, by decide,
    Prod.ext
      (UnionPlan_Do_returns_nil_for_aligned_plan ⟨[[1], [2], [9]], 1⟩ [⟨[[3]], 1⟩] [true] []
        (failOnTemp [2]) (fun r => .ok r) (Error.other 5) (recordUntil [2]) []
        (by decide) (by decide)).1
      ((UnionPlan_Do_returns_nil_for_aligned_plan ⟨[[1], [2], [9]], 1⟩ [⟨[[3]], 1⟩] [true] []
        (failOnTemp [2]) (fun r => .ok r) (Error.other 5) (recordUntil [2]) []
        (by decide) (by decide)).2.1.trans (by decide)),
    Prod.ext
      (UnionPlan_Do_returns_nil_for_aligned_plan ⟨[[1], [2], [9]], 1⟩ [⟨[[3]], 1⟩] [true] []
        (failOnTemp [2]) (fun r => .ok r) (Error.other 5) recordRows []
        (by decide) (by decide)).1
      ((UnionPlan_Do_returns_nil_for_aligned_plan ⟨[[1], [2], [9]], 1⟩ [⟨[[3]], 1⟩] [true] []
        (failOnTemp [2]) (fun r => .ok r) (Error.other 5) recordRows []
        (by decide) (by decide)).2.1.trans (by decide))⟩

end plans

end AlloyDB
